import Mathlib

/-!
Verification of the SESO log-sorting challenge solution.

This file gives a shallow embedding of the two merge procedures of the
repository and proves properties about them:

* `src/solution/sync-sorted-merge.js` — the synchronous k-way merge
  (`syncInit`, `syncDrain`);
* `src/solution/async-sorted-merge.js` — the asynchronous merge scheduler
  (`tick`, `steps` and friends);
* `src/lib/log-source.js` — log sources, abstracted over their pseudo-random
  generator: a source is a finite list of entries handed out one per `pop` /
  `popAsync` call, with the `drained` flag set by the call that runs past the
  end (matching `pop`/`popAsync`, which set `this.drained` synchronously
  during the call, before the delayed promise resolves).

Modelling notes, fixed once here:

* Timestamps are naturals (`LogEntry.date`); message bodies are opaque
  naturals.
* The library priority queue (`@datastructures-js/priority-queue`,
  `MinPriorityQueue` keyed by `log.date`) is modelled as a list kept sorted
  by key, with `List.orderedInsert` as `push` and the head as `pop`.  Its
  comparator `aVal < bVal ? -1 : 1` never ranks an element with an
  `undefined` key (the `false` log the sync merge pushes for an
  initially-empty source) below a real entry, so that sentinel is modelled
  as having key `⊤`.
* In the async solution the only suspension point of the driver loop is
  `await Promise.all(promiseQueue)`; every `.then` callback of the batch
  runs during that single await.  The model therefore resolves the whole
  batch at the barrier.  The order in which the callbacks of one batch run
  depends on the random per-fetch delays, so the barrier takes an arbitrary
  reordering of the batch, supplied as an oracle (`ReorderSeq`); theorems
  quantify over all permutation oracles (`ValidReorder`).
* `popAsync` advances the cursor and sets `drained` synchronously at call
  time, and the resolved value is the state captured by that call (the
  scheduler never overlaps two calls on one source, so `this.last` cannot
  be overwritten in between).  A fetch is therefore modelled at issue time
  as a `Flight` carrying its future value.
-/

/-- A log entry: a timestamp and an opaque message. -/
structure LogEntry where
  date : Nat
  msg : Nat
deriving DecidableEq, Repr

/-! ## The synchronous merge (`sync-sorted-merge.js`) -/

/-- State of one log source as seen by the synchronous merge: the entries not
yet handed out, and the `drained` flag. -/
structure SyncSource where
  remaining : List LogEntry
  drained : Bool
deriving DecidableEq, Repr

/-- One `pop()` call on a `LogSource`: hands out the next entry, or sets
`drained` and returns `false` (here `none`) when the stream is exhausted.
Once drained it keeps returning `none`. -/
def SyncSource.pop : SyncSource → Option LogEntry × SyncSource
  | ⟨[], _⟩ => (none, ⟨[], true⟩)
  | ⟨e :: rest, d⟩ => (some e, ⟨rest, d⟩)

/-- A priority-queue element of the sync merge: the value passed as `log`
(which is `none` for the `false` pushed by the initial fill on an empty
source) and the index of the owning source. -/
abbrev SyncCand := Option LogEntry × Nat

/-- Key of a sync candidate in the priority queue; the sentinel `none` log
compares above every real entry (see the modelling notes). -/
def syncKey (c : SyncCand) : WithTop Nat :=
  match c.1 with
  | none => ⊤
  | some e => (e.date : WithTop Nat)

/-- Queue order for the sync merge. -/
def syncLE (a b : SyncCand) : Prop := syncKey a ≤ syncKey b

instance : DecidableRel syncLE :=
  fun a b => inferInstanceAs (Decidable (syncKey a ≤ syncKey b))

instance : IsTotal SyncCand syncLE := ⟨fun a b => le_total (syncKey a) (syncKey b)⟩

instance : IsTrans SyncCand syncLE := ⟨fun _ _ _ h h2 => le_trans h h2⟩

/-- State of the synchronous merge loop. -/
structure SyncState where
  srcs : List SyncSource
  pq : List SyncCand
  printed : List (Option LogEntry)
deriving DecidableEq, Repr

/-- The initial fill of `sync-sorted-merge.js`: pop every source once and push
the result — entry or `false` — into the priority queue, unconditionally. -/
def syncFill : List SyncSource → Nat → List SyncSource × List SyncCand
  | [], _ => ([], [])
  | s :: rest, i =>
    let p := s.pop
    let r := syncFill rest (i + 1)
    (p.2 :: r.1, List.orderedInsert syncLE (p.1, i) r.2)

/-- Initial state of the synchronous merge on the given source contents. -/
def syncInit (sources : List (List LogEntry)) : SyncState :=
  let f := syncFill (sources.map (fun l => SyncSource.mk l false)) 0
  ⟨f.1, f.2, []⟩

/-- Termination measure of the sync drain loop: entries still inside sources
plus queue length (each iteration prints one element and refills at most
one). -/
def syncMeasure (st : SyncState) : Nat :=
  (st.srcs.map (fun s => s.remaining.length)).sum + st.pq.length

theorem sum_remaining_set (l : List SyncSource) (i : Nat) (a : SyncSource)
    (h : i < l.length) :
    ((l.set i a).map (fun s => s.remaining.length)).sum +
        (l.getD i ⟨[], true⟩).remaining.length =
      (l.map (fun s => s.remaining.length)).sum + a.remaining.length := by
  induction l generalizing i with
  | nil => simp at h
  | cons b bs ih =>
    cases i with
    | zero => simp [List.getD_cons_zero]; omega
    | succ j =>
      have hj : j < bs.length := by simpa using h
      have := ih j hj
      simp only [List.set_cons_succ, List.map_cons, List.sum_cons,
        List.getD_cons_succ]
      omega

theorem getD_lt_of_ne_default (l : List SyncSource) (i : Nat)
    (h : l.getD i ⟨[], true⟩ ≠ ⟨[], true⟩) : i < l.length := by
  by_contra hge
  exact h (List.getD_eq_default l ⟨[], true⟩ (by omega))

/-- One iteration of the drain loop of `sync-sorted-merge.js` (for a
non-empty queue): pop the earliest queue element, print its log, and — when
the owning source is not drained — pop that source and push the entry (if
any) back into the queue.  The three inner branches inline
`SyncSource.pop` on the owning source. -/
def syncStep (st : SyncState) : SyncState :=
  match st.pq with
  | [] => st
  | c :: rest =>
    match st.srcs.getD c.2 ⟨[], true⟩ with
    | ⟨_, true⟩ => ⟨st.srcs, rest, st.printed ++ [c.1]⟩
    | ⟨[], false⟩ =>
      ⟨st.srcs.set c.2 ⟨[], true⟩, rest, st.printed ++ [c.1]⟩
    | ⟨e :: erest, false⟩ =>
      ⟨st.srcs.set c.2 ⟨erest, false⟩,
        List.orderedInsert syncLE (some e, c.2) rest, st.printed ++ [c.1]⟩

/-- The drain loop, driven by explicit fuel; `syncMeasure` bounds the number
of iterations actually needed (`syncDrain_pq_empty` below). -/
def syncDrain : Nat → SyncState → SyncState
  | 0, st => st
  | fuel + 1, st =>
    match st.pq with
    | [] => st
    | _ :: _ => syncDrain fuel (syncStep st)

/-- Each drain iteration on a non-empty queue strictly decreases the
measure. -/
theorem syncStep_measure_lt (st : SyncState) (h : st.pq ≠ []) :
    syncMeasure (syncStep st) < syncMeasure st := by
  cases hpq : st.pq with
  | nil => exact absurd hpq h
  | cons c rest =>
    cases hs : st.srcs.getD c.2 ⟨[], true⟩ with
    | mk rem dr =>
      cases dr with
      | true =>
        simp only [syncStep, hpq, hs, syncMeasure, List.length_cons]
        omega
      | false =>
        cases rem with
        | nil =>
          have hlt : c.2 < st.srcs.length :=
            getD_lt_of_ne_default _ _ (by rw [hs]; intro hcontra; cases hcontra)
          have hsum := sum_remaining_set st.srcs c.2 ⟨[], true⟩ hlt
          rw [hs] at hsum
          simp only [syncStep, hpq, hs, syncMeasure, List.length_cons]
          simp only [List.length_nil] at hsum ⊢
          omega
        | cons e erest =>
          have hlt : c.2 < st.srcs.length :=
            getD_lt_of_ne_default _ _ (by rw [hs]; intro hcontra; cases hcontra)
          have hsum := sum_remaining_set st.srcs c.2 ⟨erest, false⟩ hlt
          rw [hs] at hsum
          simp only [syncStep, hpq, hs, syncMeasure, List.length_cons,
            List.orderedInsert_length]
          simp only [List.length_cons] at hsum
          omega

/-- With fuel at least the measure, the drain loop empties the queue. -/
theorem syncDrain_pq_empty :
    ∀ (fuel : Nat) (st : SyncState), syncMeasure st < fuel →
      (syncDrain fuel st).pq = [] := by
  intro fuel
  induction fuel with
  | zero => intro st h; omega
  | succ n ih =>
    intro st h
    unfold syncDrain
    match hpq : st.pq with
    | [] => exact hpq
    | c :: rest =>
      exact ih _ (by
        have := syncStep_measure_lt st (by rw [hpq]; simp)
        omega)

/-- Full synchronous merge run. -/
def syncRun (sources : List (List LogEntry)) : SyncState :=
  let st := syncInit sources
  syncDrain (syncMeasure st + 1) st

/-- Printer call trace events. -/
inductive PEvent where
  | print (log : Option LogEntry)
  | done
deriving DecidableEq, Repr

/-- Trace of printer calls made by the synchronous merge: all `print` calls in
order, then the single `done` call made after the loop. -/
def syncTrace (sources : List (List LogEntry)) : List PEvent :=
  (syncRun sources).printed.map PEvent.print ++ [PEvent.done]

example : (syncRun [[⟨1, 0⟩, ⟨5, 1⟩], [⟨2, 2⟩]]).printed =
    [some ⟨1, 0⟩, some ⟨2, 2⟩, some ⟨5, 1⟩] := by decide

example : (syncRun [[], [⟨5, 0⟩]]).printed = [some ⟨5, 0⟩, none] := by decide

/-! ## The asynchronous merge (`async-sorted-merge.js`)

The scheduler state mirrors the mutable data of `module.exports`: the
per-source bookkeeping added by `initializeSources` (`bufferCount`,
`loading`), the `logSources` array as a list of indices (`live`), the
priority queue, the `promiseQueue` and the `printed` trace.  `bufferCount`
is an integer, as in JavaScript; the model decrements it with integer
subtraction so that its non-negativity is a theorem, not a typing
artifact. -/

/-- Per-source scheduler state (`log-source.js` plus the fields added by
`initializeSources`). -/
structure ASrc where
  remaining : List LogEntry
  drained : Bool
  bufferCount : Int
  loading : Bool
deriving DecidableEq, Repr

/-- Priority-queue element of the async merge: entry and owning source
index. -/
abbrev Cand := LogEntry × Nat

/-- An in-flight `popAsync` promise: the source index and the value the
promise will resolve with (`none` for the exhausted signal).  The value is
fixed at call time because `popAsync` advances the cursor synchronously and
the scheduler never overlaps calls on one source. -/
abbrev Flight := Nat × Option LogEntry

/-- Queue order for the async merge (`MinPriorityQueue` keyed by
`log.date`). -/
def candLE (a b : Cand) : Prop := a.1.date ≤ b.1.date

instance : DecidableRel candLE :=
  fun a b => inferInstanceAs (Decidable (a.1.date ≤ b.1.date))

instance : IsTotal Cand candLE := ⟨fun a b => Nat.le_total a.1.date b.1.date⟩

instance : IsTrans Cand candLE := ⟨fun _ _ _ h h2 => Nat.le_trans h h2⟩

/-- State of the async scheduler at a loop boundary (or mid-tick).
`maxInflightEver` and `tickNo` are observation-only ghost fields. -/
structure AState where
  srcs : List ASrc
  live : List Nat
  pq : List Cand
  inflight : List Flight
  printed : List LogEntry
  maxSize : Nat
  maxInflightEver : Nat
  tickNo : Nat
deriving DecidableEq, Repr

/-- Default used for out-of-range indices (never hit on reachable states). -/
def defaultASrc : ASrc := ⟨[], true, 0, false⟩

def AState.getSrc (st : AState) (i : Nat) : ASrc := st.srcs.getD i defaultASrc

def AState.setSrc (st : AState) (i : Nat) (s : ASrc) : AState :=
  { st with srcs := st.srcs.set i s }

/-- The comparison `source.bufferCount < (minSource?.bufferCount ?? Infinity)`
of `findNextLogSourceToQueue`. -/
def beatsAcc (st : AState) (bc : Int) : Option Nat → Bool
  | none => true
  | some j => decide (bc < (st.getSrc j).bufferCount)

/-- Body of the loop of `findNextLogSourceToQueue`: skip loading sources,
return the first source with an empty buffer immediately, otherwise keep the
first source seen with the strictly smallest buffer count. -/
def findNextGo (st : AState) : List Nat → Option Nat → Option Nat
  | [], acc => acc
  | i :: rest, acc =>
    let s := st.getSrc i
    if s.loading then findNextGo st rest acc
    else if s.bufferCount = 0 then some i
    else if beatsAcc st s.bufferCount acc then findNextGo st rest (some i)
    else findNextGo st rest acc

/-- `findNextLogSourceToQueue(logSources)`. -/
def findNextLogSourceToQueue (st : AState) : Option Nat :=
  findNextGo st st.live none

/-- `queueLogFromSource(source, priorityQueue, promiseQueue)`: set `loading`,
issue the fetch (advancing the cursor and possibly setting `drained`, as
`popAsync` does synchronously), and append the promise to the promise
queue.  The ghost field `maxInflightEver` records the high-water mark of the
promise queue. -/
def queueLogFromSource (st : AState) (i : Nat) : AState :=
  let s := st.getSrc i
  let st1 :=
    match s.remaining with
    | _ :: rest => st.setSrc i { s with remaining := rest, loading := true }
    | [] => st.setSrc i { s with drained := true, loading := true }
  let v : Option LogEntry := s.remaining.head?
  { st1 with
    inflight := st1.inflight ++ [(i, v)],
    maxInflightEver := max st1.maxInflightEver (st1.inflight.length + 1) }

/-- `addNextLogToQueue(logSources, priorityQueue, promiseQueue)`. -/
def addNextLogToQueue (st : AState) : AState :=
  match findNextLogSourceToQueue st with
  | some i => queueLogFromSource st i
  | none => st

/-- `allSourcesHaveBeenRead(logSources)`: every source still in the working
list has a buffered entry. -/
def allSourcesHaveBeenRead (st : AState) : Bool :=
  st.live.all (fun i => 0 < (st.getSrc i).bufferCount)

/-- `allSourcesAreLoading(logSources)`. -/
def allSourcesAreLoading (st : AState) : Bool :=
  st.live.all (fun i => (st.getSrc i).loading)

/-- `printNextLogFromQueue(priorityQueue, printer)` on a queue known to be
`c :: rest`: print the minimum and decrement the owner's buffer count. -/
def printNextLogFromQueue (c : Cand) (rest : List Cand) (st : AState) :
    AState :=
  let s := st.getSrc c.2
  let st1 := { st with pq := rest, printed := st.printed ++ [c.1] }
  st1.setSrc c.2 { s with bufferCount := s.bufferCount - 1 }

/-- Resolution of one settled promise of the batch: the `.then` callback of
`queueLogFromSource` (push the entry and bump `bufferCount` when the fetch
produced one; clear `loading` either way). -/
def resolveFlight (st : AState) : Flight → AState
  | (i, some e) =>
    let s := st.getSrc i
    let st1 := { st with pq := List.orderedInsert candLE (e, i) st.pq }
    st1.setSrc i { s with bufferCount := s.bufferCount + 1, loading := false }
  | (i, none) =>
    let s := st.getSrc i
    st.setSrc i { s with loading := false }

/-- Settle a whole batch (the callbacks run in the order given). -/
def processBatch (batch : List Flight) (st : AState) : AState :=
  batch.foldl resolveFlight st

/-- End-of-tick bookkeeping: `logSources = logSources.filter(s => !s.drained)`
(and the ghost tick counter). -/
def tickFilter (st : AState) : AState :=
  { st with live := st.live.filter (fun i => !(st.getSrc i).drained),
            tickNo := st.tickNo + 1 }

/-- The body of one iteration of the driver loop, up to the emission gate:
compute the two staleness flags, run `addNextLogToQueue` unless the priority
queue is full, and drain the batch at the `Promise.all` barrier when the
barrier condition holds.  `reorder` supplies the order in which the batch's
callbacks run. -/
def tickCore (reorder : List Flight → List Flight) (st : AState) : AState :=
  let st1 :=
    if st.maxSize ≤ st.pq.length + st.inflight.length then st
    else addNextLogToQueue st
  if st1.inflight.length ≠ 0 ∧
      (st.maxSize ≤ st.pq.length + st.inflight.length ∨
        50 ≤ st.inflight.length ∨ allSourcesAreLoading st1 = true)
  then processBatch (reorder st1.inflight) { st1 with inflight := [] }
  else st1

/-- One full iteration of the driver loop.  `priorityQueueIsFull` throws when
the queue strictly exceeds `MAX_PRIORITY_QUEUE_SIZE`; popping an empty queue
in `printNextLogFromQueue` would be a JavaScript `TypeError`. -/
def tick (reorder : List Flight → List Flight) (st : AState) :
    Except String AState :=
  if st.maxSize < st.pq.length then .error "PriorityQueue exceeded MaxSize"
  else
    let mid := tickCore reorder st
    if allSourcesHaveBeenRead mid then
      match mid.pq with
      | [] => .error "TypeError: popped an empty priority queue"
      | c :: rest => .ok (tickFilter (printNextLogFromQueue c rest mid))
    else .ok (tickFilter mid)

/-- `continueLoop(logSources, priorityQueue)`. -/
def continueLoop (st : AState) : Bool :=
  !st.live.isEmpty || !st.pq.isEmpty

/-- Oracle giving, for each tick index, the order in which that tick's batch
of promise callbacks runs. -/
abbrev ReorderSeq := Nat → List Flight → List Flight

/-- Admissible oracles only permute the batch. -/
def ValidReorder (rs : ReorderSeq) : Prop := ∀ n l, (rs n l).Perm l

/-- The identity oracle: callbacks run in issue order. -/
def idReorder : ReorderSeq := fun _ l => l

instance {e a : Type} [DecidableEq e] [DecidableEq a] :
    DecidableEq (Except e a) := fun x y =>
  match x, y with
  | .error u, .error v =>
    if h : u = v then isTrue (by rw [h])
    else isFalse (fun hc => by cases hc; exact h rfl)
  | .error _, .ok _ => isFalse (fun hc => by cases hc)
  | .ok _, .error _ => isFalse (fun hc => by cases hc)
  | .ok u, .ok v =>
    if h : u = v then isTrue (by rw [h])
    else isFalse (fun hc => by cases hc; exact h rfl)

/-- Run up to `fuel` iterations of the driver loop. -/
def steps (rs : ReorderSeq) : Nat → AState → Except String AState
  | 0, st => .ok st
  | n + 1, st =>
    if continueLoop st then
      match tick (rs st.tickNo) st with
      | .error e => .error e
      | .ok st2 => steps rs n st2
    else .ok st

/-- `initializeSources` plus the surrounding `module.exports` setup:
`MAX_PRIORITY_QUEUE_SIZE = logSources.length * 10`. -/
def initAsync (sources : List (List LogEntry)) : AState :=
  { srcs := sources.map (fun l => ⟨l, false, 0, false⟩),
    live := List.range sources.length,
    pq := [], inflight := [], printed := [],
    maxSize := 10 * sources.length,
    maxInflightEver := 0, tickNo := 0 }

/-- Printer trace of a complete async run: if the loop has exited, all
`print` calls in order followed by the single `done` call; `none` while the
loop still runs. -/
def runAsync (rs : ReorderSeq) (fuel : Nat) (sources : List (List LogEntry)) :
    Except String (Option (List PEvent)) :=
  match steps rs fuel (initAsync sources) with
  | .error e => .error e
  | .ok st =>
    .ok (if continueLoop st then none
      else some (st.printed.map (fun e => PEvent.print (some e)) ++
        [PEvent.done]))

example : (steps idReorder 20
    (initAsync [[⟨1, 0⟩, ⟨5, 0⟩, ⟨9, 0⟩], [⟨2, 0⟩, ⟨3, 0⟩, ⟨10, 0⟩],
      [⟨4, 0⟩, ⟨6, 0⟩, ⟨7, 0⟩]])).map (fun st => st.printed.map (·.date)) =
    .ok [1, 2, 3, 4, 5, 6, 7, 9, 10] := by decide

/-! ### Basic state-access lemmas -/

theorem length_setSrc (st : AState) (i : Nat) (s : ASrc) :
    (st.setSrc i s).srcs.length = st.srcs.length := by
  simp [AState.setSrc]

theorem getSrc_setSrc_self (st : AState) (i : Nat) (s : ASrc)
    (h : i < st.srcs.length) : (st.setSrc i s).getSrc i = s := by
  simp [AState.getSrc, AState.setSrc, List.getD, List.getElem?_set_self, h]

theorem getSrc_setSrc_ne (st : AState) (i j : Nat) (s : ASrc) (h : j ≠ i) :
    (st.setSrc i s).getSrc j = st.getSrc j := by
  simp [AState.getSrc, AState.setSrc, List.getD,
    List.getElem?_set_ne (fun hc => h hc.symm)]

theorem getSrc_oob (st : AState) (i : Nat) (h : st.srcs.length ≤ i) :
    st.getSrc i = defaultASrc := List.getD_eq_default _ _ h

/-- Number of candidates of source `i` resident in the priority queue. -/
def residentCount (st : AState) (i : Nat) : Nat :=
  st.pq.countP (fun c => decide (c.2 = i))

/-- Number of working-list sources that are live (not drained), have an empty
buffer and no fetch in flight — the sources whose absence from the frontier
is blocking the emission gate. -/
def znl (st : AState) : Nat :=
  (st.live.filter (fun i => !(st.getSrc i).drained &&
    decide ((st.getSrc i).bufferCount = 0) && !(st.getSrc i).loading)).length

/-- Scheduler invariant, stable at loop boundaries and across the phases of a
tick (the in-flight bound is `51` here; at loop boundaries it tightens to
`50`, see `SchedInv`).  The fields:

* `live_sub`/`live_compl` — the working list is an increasing list of source
  indices containing every non-drained source (it can transiently also hold
  sources drained earlier in the same tick, until the end-of-tick filter);
* `bc_count` — `bufferCount` counts exactly the owned resident candidates;
* `load_iff`/`fst_nodup` — `loading` marks exactly the sources with a
  pending promise, and no source has two pending promises;
* `drained_rem`/`fl_none_iff` — a drained source has been read past its
  end, and a pending promise resolves to the exhausted signal exactly when
  its source is already marked drained;
* `size_le` — resident plus in-flight never exceeds the queue ceiling;
* `inv3` — resident plus in-flight plus gate-blocking sources never exceeds
  the ceiling (this is what rules out a stalled scheduler);
* `maxIE_le` — the promise queue high-water mark is at most `51`;
* `pq_sorted` — the queue is min-ordered by timestamp. -/
structure InvA (st : AState) : Prop where
  live_sub : st.live.Sublist (List.range st.srcs.length)
  live_compl : ∀ i, i < st.srcs.length → (st.getSrc i).drained = false →
    i ∈ st.live
  bc_count : ∀ i, (st.getSrc i).bufferCount = (residentCount st i : Int)
  load_iff : ∀ i, (st.getSrc i).loading = true ↔ i ∈ st.inflight.map Prod.fst
  fst_nodup : (st.inflight.map Prod.fst).Nodup
  fl_valid : ∀ f ∈ st.inflight, f.1 < st.srcs.length
  pq_valid : ∀ c ∈ st.pq, c.2 < st.srcs.length
  drained_rem : ∀ i, (st.getSrc i).drained = true →
    (st.getSrc i).remaining = []
  fl_none_iff : ∀ f ∈ st.inflight,
    (f.2 = none ↔ (st.getSrc f.1).drained = true)
  size_le : st.pq.length + st.inflight.length ≤ st.maxSize
  inv3 : st.pq.length + st.inflight.length + znl st ≤ st.maxSize
  maxIE_le : st.maxInflightEver ≤ 51
  pq_sorted : List.Sorted candLE st.pq
  maxSize_eq : st.maxSize = 10 * st.srcs.length

/-- Boundary invariant (holding between loop iterations): `InvA` plus the
boundary bound on the promise queue, plus the fact that the end-of-tick
filter has already removed every drained source from the working list. -/
structure SchedInv (st : AState) : Prop where
  toInvA : InvA st
  infl50 : st.inflight.length ≤ 50
  live_nondrained : ∀ i ∈ st.live, (st.getSrc i).drained = false

theorem initAsync_srcs_length (sources : List (List LogEntry)) :
    (initAsync sources).srcs.length = sources.length := by
  simp [initAsync]

theorem getSrc_init (sources : List (List LogEntry)) (i : Nat)
    (h : i < sources.length) :
    (initAsync sources).getSrc i = ⟨sources.get ⟨i, h⟩, false, 0, false⟩ := by
  simp [initAsync, AState.getSrc, List.getD, List.getElem?_map,
    List.getElem?_eq_getElem (by simpa using h)]

theorem getSrc_init_cases (sources : List (List LogEntry)) (i : Nat) :
    ((initAsync sources).getSrc i).drained = decide (sources.length ≤ i) ∧
      ((initAsync sources).getSrc i).bufferCount = 0 ∧
      ((initAsync sources).getSrc i).loading = false := by
  by_cases h : i < sources.length
  · rw [getSrc_init sources i h]
    simp [Nat.not_le.mpr h]
  · rw [getSrc_oob _ _ (by rw [initAsync_srcs_length]; omega)]
    simp [defaultASrc, Nat.not_lt.mp h]

theorem inv_init (sources : List (List LogEntry)) :
    SchedInv (initAsync sources) := by
  have hlen := initAsync_srcs_length sources
  refine ⟨⟨?_, ?_, ?_, ?_, ?_, ?_, ?_, ?_, ?_, ?_, ?_, ?_, ?_, ?_⟩, ?_, ?_⟩
  · rw [hlen]
    exact List.Sublist.refl _
  · intro i hi _
    rw [hlen] at hi
    simp [initAsync, List.mem_range, hi]
  · intro i
    rw [(getSrc_init_cases sources i).2.1]
    simp [residentCount, initAsync]
  · intro i
    rw [(getSrc_init_cases sources i).2.2]
    simp [initAsync]
  · simp [initAsync]
  · simp [initAsync]
  · simp [initAsync]
  · intro i hdr
    rw [(getSrc_init_cases sources i).1] at hdr
    have hle : sources.length ≤ i := by simpa using hdr
    have := getSrc_oob (initAsync sources) i (by rw [hlen]; omega)
    rw [this]
    simp [defaultASrc]
  · simp [initAsync]
  · simp [initAsync]
  · have hz : znl (initAsync sources) ≤ (initAsync sources).live.length :=
      List.length_filter_le _ _
    have hlive : (initAsync sources).live.length = sources.length := by
      simp [initAsync]
    simp only [initAsync, List.length_nil] at hz hlive ⊢
    omega
  · simp [initAsync]
  · simp [initAsync, List.Sorted]
  · simp [initAsync]
  · simp [initAsync]
  · intro i hi
    simp only [initAsync, List.mem_range] at hi
    exact ((getSrc_init_cases sources i).1).trans (by simp [Nat.not_le.mpr hi])

/-! ### Properties of the fetch-target selection -/

theorem findNextGo_some (st : AState) :
    ∀ (l : List Nat) (acc : Option Nat) (j : Nat),
      findNextGo st l acc = some j → j ∈ l ∨ acc = some j := by
  intro l
  induction l with
  | nil => intro acc j h; right; exact h
  | cons i rest ih =>
    intro acc j h
    simp only [findNextGo] at h
    by_cases hl : (st.getSrc i).loading
    · rw [if_pos hl] at h
      rcases ih acc j h with hm | he
      · exact Or.inl (List.mem_cons_of_mem _ hm)
      · exact Or.inr he
    · rw [if_neg hl] at h
      by_cases hz : (st.getSrc i).bufferCount = 0
      · rw [if_pos hz] at h
        cases h
        exact Or.inl (List.mem_cons_self _ _)
      · rw [if_neg hz] at h
        by_cases hb : beatsAcc st (st.getSrc i).bufferCount acc = true
        · rw [if_pos hb] at h
          rcases ih _ j h with hm | he
          · exact Or.inl (List.mem_cons_of_mem _ hm)
          · cases he; exact Or.inl (List.mem_cons_self _ _)
        · rw [if_neg hb] at h
          rcases ih _ j h with hm | he
          · exact Or.inl (List.mem_cons_of_mem _ hm)
          · exact Or.inr he

theorem findNextGo_not_loading (st : AState) :
    ∀ (l : List Nat) (acc : Option Nat)
      (hacc : ∀ j, acc = some j → (st.getSrc j).loading = false) (j : Nat),
      findNextGo st l acc = some j → (st.getSrc j).loading = false := by
  intro l
  induction l with
  | nil => intro acc hacc j h; exact hacc j h
  | cons i rest ih =>
    intro acc hacc j h
    simp only [findNextGo] at h
    by_cases hl : (st.getSrc i).loading
    · rw [if_pos hl] at h
      exact ih acc hacc j h
    · rw [if_neg hl] at h
      by_cases hz : (st.getSrc i).bufferCount = 0
      · rw [if_pos hz] at h
        cases h
        simpa using hl
      · rw [if_neg hz] at h
        by_cases hb : beatsAcc st (st.getSrc i).bufferCount acc = true
        · rw [if_pos hb] at h
          refine ih _ ?_ j h
          intro k hk
          cases hk
          simpa using hl
        · rw [if_neg hb] at h
          exact ih _ hacc j h

theorem findNextGo_none (st : AState) :
    ∀ (l : List Nat) (acc : Option Nat),
      findNextGo st l acc = none →
        (∀ i ∈ l, (st.getSrc i).loading = true) ∧ acc = none := by
  intro l
  induction l with
  | nil => intro acc h; exact ⟨by simp, h⟩
  | cons i rest ih =>
    intro acc h
    simp only [findNextGo] at h
    by_cases hl : (st.getSrc i).loading
    · rw [if_pos hl] at h
      obtain ⟨hall, hacc⟩ := ih acc h
      refine ⟨?_, hacc⟩
      intro k hk
      rcases List.mem_cons.mp hk with rfl | hk2
      · exact hl
      · exact hall k hk2
    · rw [if_neg hl] at h
      by_cases hz : (st.getSrc i).bufferCount = 0
      · rw [if_pos hz] at h
        cases h
      · rw [if_neg hz] at h
        by_cases hb : beatsAcc st (st.getSrc i).bufferCount acc = true
        · rw [if_pos hb] at h
          obtain ⟨_, hacc⟩ := ih _ h
          cases hacc
        · rw [if_neg hb] at h
          obtain ⟨_, hacc⟩ := ih _ h
          subst hacc
          simp [beatsAcc] at hb

theorem findNextGo_zero (st : AState) :
    ∀ (l : List Nat) (acc : Option Nat),
      (∃ i ∈ l, (st.getSrc i).loading = false ∧
        (st.getSrc i).bufferCount = 0) →
      ∃ j, findNextGo st l acc = some j ∧ j ∈ l ∧
        (st.getSrc j).loading = false ∧ (st.getSrc j).bufferCount = 0 := by
  intro l
  induction l with
  | nil => intro acc h; obtain ⟨i, hi, _⟩ := h; cases hi
  | cons i rest ih =>
    intro acc h
    by_cases hl : (st.getSrc i).loading
    · obtain ⟨w, hw, hwl, hwz⟩ := h
      rcases List.mem_cons.mp hw with rfl | hw2
      · rw [hl] at hwl; cases hwl
      · obtain ⟨j, hj, hjm, hjl, hjz⟩ := ih acc ⟨w, hw2, hwl, hwz⟩
        refine ⟨j, ?_, List.mem_cons_of_mem _ hjm, hjl, hjz⟩
        simpa only [findNextGo, if_pos hl] using hj
    · by_cases hz : (st.getSrc i).bufferCount = 0
      · refine ⟨i, ?_, List.mem_cons_self _ _, by simpa using hl, hz⟩
        simp only [findNextGo, if_neg hl, if_pos hz]
      · obtain ⟨w, hw, hwl, hwz⟩ := h
        rcases List.mem_cons.mp hw with rfl | hw2
        · exact absurd hwz hz
        · have hex : ∃ w2 ∈ rest, (st.getSrc w2).loading = false ∧
            (st.getSrc w2).bufferCount = 0 := ⟨w, hw2, hwl, hwz⟩
          by_cases hb : beatsAcc st (st.getSrc i).bufferCount acc = true
          · obtain ⟨j, hj, hjm, hjl, hjz⟩ := ih (some i) hex
            refine ⟨j, ?_, List.mem_cons_of_mem _ hjm, hjl, hjz⟩
            simp only [findNextGo, if_neg hl, if_neg hz, if_pos hb]
            exact hj
          · obtain ⟨j, hj, hjm, hjl, hjz⟩ := ih acc hex
            refine ⟨j, ?_, List.mem_cons_of_mem _ hjm, hjl, hjz⟩
            simp only [findNextGo, if_neg hl, if_neg hz, if_neg hb]
            exact hj

theorem findNext_mem (st : AState) (j : Nat)
    (h : findNextLogSourceToQueue st = some j) : j ∈ st.live := by
  rcases findNextGo_some st st.live none j h with hm | he
  · exact hm
  · cases he

theorem findNext_not_loading (st : AState) (j : Nat)
    (h : findNextLogSourceToQueue st = some j) :
    (st.getSrc j).loading = false :=
  findNextGo_not_loading st st.live none (fun _ hk => by cases hk) j h

theorem findNext_none (st : AState)
    (h : findNextLogSourceToQueue st = none) :
    ∀ i ∈ st.live, (st.getSrc i).loading = true :=
  (findNextGo_none st st.live none h).1

theorem findNext_zero (st : AState)
    (h : ∃ i ∈ st.live, (st.getSrc i).loading = false ∧
      (st.getSrc i).bufferCount = 0) :
    ∃ j, findNextLogSourceToQueue st = some j ∧ j ∈ st.live ∧
      (st.getSrc j).loading = false ∧ (st.getSrc j).bufferCount = 0 :=
  findNextGo_zero st st.live none h

/-! ### Counting helpers -/

theorem length_filter_update_false (l : List Nat) (hnd : l.Nodup)
    (p q : Nat → Bool) (i : Nat) (hi : i ∈ l)
    (hagree : ∀ j ∈ l, j ≠ i → q j = p j) (hpi : p i = true)
    (hqi : q i = false) :
    (l.filter q).length + 1 = (l.filter p).length := by
  induction l with
  | nil => cases hi
  | cons a rest ih =>
    obtain ⟨hna, hndr⟩ := List.nodup_cons.mp hnd
    by_cases hai : a = i
    · subst hai
      have hfq : rest.filter q = rest.filter p :=
        List.filter_congr (fun j hj =>
          hagree j (List.mem_cons_of_mem _ hj) (fun hji => hna (hji ▸ hj)))
      rw [List.filter_cons, List.filter_cons, hpi, hqi]
      simp [hfq]
    · have hmem : i ∈ rest := by
        rcases List.mem_cons.mp hi with rfl | hm
        · exact absurd rfl hai
        · exact hm
      have hqa : q a = p a := hagree a (List.mem_cons_self _ _) hai
      have hrec := ih hndr hmem
        (fun j hj hji => hagree j (List.mem_cons_of_mem _ hj) hji)
      rw [List.filter_cons, List.filter_cons, hqa]
      cases hpa : p a with
      | true => simp [hrec, Nat.add_right_comm]
      | false => simpa using hrec

theorem length_filter_congr_on (l : List Nat) (p q : Nat → Bool)
    (hagree : ∀ j ∈ l, q j = p j) :
    (l.filter q).length = (l.filter p).length := by
  rw [List.filter_congr hagree]

/-! ### Field lemmas for the scheduler operations -/

theorem printNext_srcs_length (c : Cand) (rest : List Cand) (st : AState) :
    (printNextLogFromQueue c rest st).srcs.length = st.srcs.length := by
  simp [printNextLogFromQueue, AState.setSrc]

theorem printNext_live (c : Cand) (rest : List Cand) (st : AState) :
    (printNextLogFromQueue c rest st).live = st.live := rfl

theorem printNext_inflight (c : Cand) (rest : List Cand) (st : AState) :
    (printNextLogFromQueue c rest st).inflight = st.inflight := rfl

theorem printNext_pq (c : Cand) (rest : List Cand) (st : AState) :
    (printNextLogFromQueue c rest st).pq = rest := rfl

theorem printNext_printed (c : Cand) (rest : List Cand) (st : AState) :
    (printNextLogFromQueue c rest st).printed = st.printed ++ [c.1] := rfl

theorem printNext_maxSize (c : Cand) (rest : List Cand) (st : AState) :
    (printNextLogFromQueue c rest st).maxSize = st.maxSize := rfl

theorem printNext_maxIE (c : Cand) (rest : List Cand) (st : AState) :
    (printNextLogFromQueue c rest st).maxInflightEver = st.maxInflightEver :=
  rfl

theorem printNext_getSrc_self (c : Cand) (rest : List Cand) (st : AState)
    (h : c.2 < st.srcs.length) :
    (printNextLogFromQueue c rest st).getSrc c.2 =
      { st.getSrc c.2 with
        bufferCount := (st.getSrc c.2).bufferCount - 1 } := by
  have := getSrc_setSrc_self
    { st with pq := rest, printed := st.printed ++ [c.1] } c.2
    { st.getSrc c.2 with bufferCount := (st.getSrc c.2).bufferCount - 1 }
    (by simpa using h)
  simpa [printNextLogFromQueue, AState.getSrc] using this

theorem printNext_getSrc_ne (c : Cand) (rest : List Cand) (st : AState)
    (j : Nat) (h : j ≠ c.2) :
    (printNextLogFromQueue c rest st).getSrc j = st.getSrc j := by
  have := getSrc_setSrc_ne
    { st with pq := rest, printed := st.printed ++ [c.1] } c.2 j
    { st.getSrc c.2 with bufferCount := (st.getSrc c.2).bufferCount - 1 } h
  simpa [printNextLogFromQueue, AState.getSrc] using this

theorem resolveFlight_some_srcs_length (st : AState) (i : Nat) (e : LogEntry) :
    (resolveFlight st (i, some e)).srcs.length = st.srcs.length := by
  simp [resolveFlight, AState.setSrc]

theorem resolveFlight_some_pq (st : AState) (i : Nat) (e : LogEntry) :
    (resolveFlight st (i, some e)).pq =
      List.orderedInsert candLE (e, i) st.pq := rfl

theorem resolveFlight_some_live (st : AState) (i : Nat) (e : LogEntry) :
    (resolveFlight st (i, some e)).live = st.live := rfl

theorem resolveFlight_some_inflight (st : AState) (i : Nat) (e : LogEntry) :
    (resolveFlight st (i, some e)).inflight = st.inflight := rfl

theorem resolveFlight_some_printed (st : AState) (i : Nat) (e : LogEntry) :
    (resolveFlight st (i, some e)).printed = st.printed := rfl

theorem resolveFlight_some_maxSize (st : AState) (i : Nat) (e : LogEntry) :
    (resolveFlight st (i, some e)).maxSize = st.maxSize := rfl

theorem resolveFlight_some_maxIE (st : AState) (i : Nat) (e : LogEntry) :
    (resolveFlight st (i, some e)).maxInflightEver = st.maxInflightEver := rfl

theorem resolveFlight_some_getSrc_self (st : AState) (i : Nat) (e : LogEntry)
    (h : i < st.srcs.length) :
    (resolveFlight st (i, some e)).getSrc i =
      { st.getSrc i with
        bufferCount := (st.getSrc i).bufferCount + 1, loading := false } := by
  have := getSrc_setSrc_self
    { st with pq := List.orderedInsert candLE (e, i) st.pq } i
    { st.getSrc i with
      bufferCount := (st.getSrc i).bufferCount + 1, loading := false }
    (by simpa using h)
  simpa [resolveFlight, AState.getSrc] using this

theorem resolveFlight_some_getSrc_ne (st : AState) (i : Nat) (e : LogEntry)
    (j : Nat) (h : j ≠ i) :
    (resolveFlight st (i, some e)).getSrc j = st.getSrc j := by
  have := getSrc_setSrc_ne
    { st with pq := List.orderedInsert candLE (e, i) st.pq } i j
    { st.getSrc i with
      bufferCount := (st.getSrc i).bufferCount + 1, loading := false } h
  simpa [resolveFlight, AState.getSrc] using this

theorem resolveFlight_none_srcs_length (st : AState) (i : Nat) :
    (resolveFlight st (i, none)).srcs.length = st.srcs.length := by
  simp [resolveFlight, AState.setSrc]

theorem resolveFlight_none_pq (st : AState) (i : Nat) :
    (resolveFlight st (i, none)).pq = st.pq := rfl

theorem resolveFlight_none_live (st : AState) (i : Nat) :
    (resolveFlight st (i, none)).live = st.live := rfl

theorem resolveFlight_none_inflight (st : AState) (i : Nat) :
    (resolveFlight st (i, none)).inflight = st.inflight := rfl

theorem resolveFlight_none_printed (st : AState) (i : Nat) :
    (resolveFlight st (i, none)).printed = st.printed := rfl

theorem resolveFlight_none_maxSize (st : AState) (i : Nat) :
    (resolveFlight st (i, none)).maxSize = st.maxSize := rfl

theorem resolveFlight_none_maxIE (st : AState) (i : Nat) :
    (resolveFlight st (i, none)).maxInflightEver = st.maxInflightEver := rfl

theorem resolveFlight_none_getSrc_self (st : AState) (i : Nat)
    (h : i < st.srcs.length) :
    (resolveFlight st (i, none)).getSrc i =
      { st.getSrc i with loading := false } := by
  have := getSrc_setSrc_self st i { st.getSrc i with loading := false }
    (by simpa using h)
  simpa [resolveFlight, AState.getSrc] using this

theorem resolveFlight_none_getSrc_ne (st : AState) (i : Nat) (j : Nat)
    (h : j ≠ i) :
    (resolveFlight st (i, none)).getSrc j = st.getSrc j := by
  have := getSrc_setSrc_ne st i j { st.getSrc i with loading := false } h
  simpa [resolveFlight, AState.getSrc] using this

theorem queueLog_srcs_length (st : AState) (i : Nat) :
    (queueLogFromSource st i).srcs.length = st.srcs.length := by
  cases hrem : (st.getSrc i).remaining <;>
    simp [queueLogFromSource, hrem, AState.setSrc]

theorem queueLog_pq (st : AState) (i : Nat) :
    (queueLogFromSource st i).pq = st.pq := by
  cases hrem : (st.getSrc i).remaining <;>
    simp [queueLogFromSource, hrem, AState.setSrc]

theorem queueLog_live (st : AState) (i : Nat) :
    (queueLogFromSource st i).live = st.live := by
  cases hrem : (st.getSrc i).remaining <;>
    simp [queueLogFromSource, hrem, AState.setSrc]

theorem queueLog_printed (st : AState) (i : Nat) :
    (queueLogFromSource st i).printed = st.printed := by
  cases hrem : (st.getSrc i).remaining <;>
    simp [queueLogFromSource, hrem, AState.setSrc]

theorem queueLog_maxSize (st : AState) (i : Nat) :
    (queueLogFromSource st i).maxSize = st.maxSize := by
  cases hrem : (st.getSrc i).remaining <;>
    simp [queueLogFromSource, hrem, AState.setSrc]

theorem queueLog_inflight (st : AState) (i : Nat) :
    (queueLogFromSource st i).inflight =
      st.inflight ++ [(i, (st.getSrc i).remaining.head?)] := by
  cases hrem : (st.getSrc i).remaining <;>
    simp [queueLogFromSource, hrem, AState.setSrc]

theorem queueLog_maxIE (st : AState) (i : Nat) :
    (queueLogFromSource st i).maxInflightEver =
      max st.maxInflightEver (st.inflight.length + 1) := by
  cases hrem : (st.getSrc i).remaining <;>
    simp [queueLogFromSource, hrem, AState.setSrc]

theorem queueLog_getSrc_self_nil (st : AState) (i : Nat)
    (h : i < st.srcs.length) (hrem : (st.getSrc i).remaining = []) :
    (queueLogFromSource st i).getSrc i =
      { st.getSrc i with drained := true, loading := true } := by
  have := getSrc_setSrc_self st i
    { st.getSrc i with drained := true, loading := true } h
  simp only [hrem] at this
  simp only [queueLogFromSource, hrem]
  simpa [AState.getSrc] using this

theorem queueLog_getSrc_self_cons (st : AState) (i : Nat)
    (h : i < st.srcs.length) (e : LogEntry) (rest : List LogEntry)
    (hrem : (st.getSrc i).remaining = e :: rest) :
    (queueLogFromSource st i).getSrc i =
      { st.getSrc i with remaining := rest, loading := true } := by
  have := getSrc_setSrc_self st i
    { st.getSrc i with remaining := rest, loading := true } h
  simp only [queueLogFromSource, hrem]
  simpa [AState.getSrc] using this

theorem queueLog_getSrc_ne (st : AState) (i : Nat) (j : Nat) (h : j ≠ i) :
    (queueLogFromSource st i).getSrc j = st.getSrc j := by
  cases hrem : (st.getSrc i).remaining with
  | nil =>
    have := getSrc_setSrc_ne st i j
      { st.getSrc i with drained := true, loading := true } h
    simp only [hrem] at this
    simp only [queueLogFromSource, hrem]
    simpa [AState.getSrc] using this
  | cons e rest =>
    have := getSrc_setSrc_ne st i j
      { st.getSrc i with remaining := rest, loading := true } h
    simp only [queueLogFromSource, hrem]
    simpa [AState.getSrc] using this

/-! ### The barrier invariant -/

/-- Invariant of a mid-barrier state: the promise queue has been captured and
cleared, and `pending` holds the callbacks not yet run.  The fields mirror
`InvA` with `pending` in place of the promise queue. -/
structure Mid (st : AState) (pending : List Flight) : Prop where
  live_sub : st.live.Sublist (List.range st.srcs.length)
  live_compl : ∀ i, i < st.srcs.length → (st.getSrc i).drained = false →
    i ∈ st.live
  bc_count : ∀ i, (st.getSrc i).bufferCount = (residentCount st i : Int)
  load_iff : ∀ i, (st.getSrc i).loading = true ↔ i ∈ pending.map Prod.fst
  fst_nodup : (pending.map Prod.fst).Nodup
  fl_valid : ∀ f ∈ pending, f.1 < st.srcs.length
  pq_valid : ∀ c ∈ st.pq, c.2 < st.srcs.length
  drained_rem : ∀ i, (st.getSrc i).drained = true →
    (st.getSrc i).remaining = []
  fl_none_iff : ∀ f ∈ pending,
    (f.2 = none ↔ (st.getSrc f.1).drained = true)
  size_le : st.pq.length + pending.length ≤ st.maxSize
  inv3 : st.pq.length + pending.length + znl st ≤ st.maxSize
  maxIE_le : st.maxInflightEver ≤ 51
  pq_sorted : List.Sorted candLE st.pq
  maxSize_eq : st.maxSize = 10 * st.srcs.length
  infl_nil : st.inflight = []

/-- The predicate underlying `znl`. -/
def znlP (st : AState) (j : Nat) : Bool :=
  !(st.getSrc j).drained && decide ((st.getSrc j).bufferCount = 0) &&
    !(st.getSrc j).loading

theorem znl_eq_filter (st : AState) :
    znl st = (st.live.filter (znlP st)).length := rfl

theorem znl_eq (st st2 : AState) (hlive : st2.live = st.live)
    (h : ∀ j ∈ st.live, znlP st2 j = znlP st j) : znl st2 = znl st := by
  rw [znl_eq_filter, znl_eq_filter, hlive]
  exact congrArg List.length (List.filter_congr h)

theorem mid_of_invA (st : AState) (hInv : InvA st) (l : List Flight)
    (hperm : l.Perm st.inflight) : Mid { st with inflight := [] } l := by
  have hmapperm : (l.map Prod.fst).Perm (st.inflight.map Prod.fst) :=
    hperm.map Prod.fst
  have hlen := hperm.length_eq
  refine ⟨hInv.live_sub, hInv.live_compl, hInv.bc_count, ?_, ?_, ?_,
    hInv.pq_valid, hInv.drained_rem, ?_, ?_, ?_, hInv.maxIE_le,
    hInv.pq_sorted, hInv.maxSize_eq, rfl⟩
  · intro i
    show (st.getSrc i).loading = true ↔ i ∈ l.map Prod.fst
    rw [hInv.load_iff i]
    exact ⟨fun hm => hmapperm.mem_iff.mpr hm, fun hm => hmapperm.mem_iff.mp hm⟩
  · exact hmapperm.nodup_iff.mpr hInv.fst_nodup
  · intro f hf
    exact hInv.fl_valid f (hperm.mem_iff.mp hf)
  · intro f hf
    exact hInv.fl_none_iff f (hperm.mem_iff.mp hf)
  · rw [hlen]
    exact hInv.size_le
  · rw [hlen]
    exact hInv.inv3

theorem resolveFlight_mid (st : AState) (f : Flight) (rest : List Flight)
    (hm : Mid st (f :: rest)) : Mid (resolveFlight st f) rest := by
  obtain ⟨i, v⟩ := f
  have hvalid : i < st.srcs.length :=
    hm.fl_valid (i, v) (List.mem_cons_self _ _)
  have hload : (st.getSrc i).loading = true :=
    (hm.load_iff i).mpr (by simp)
  have hnotin : i ∉ rest.map Prod.fst := by
    have := hm.fst_nodup
    simp only [List.map_cons, List.nodup_cons] at this
    exact this.1
  cases v with
  | some e =>
    have hdr : (st.getSrc i).drained = false := by
      by_contra hcon
      have hd : (st.getSrc i).drained = true := by
        cases hx : (st.getSrc i).drained
        · rw [hx] at hcon; exact absurd rfl hcon
        · rfl
      have := (hm.fl_none_iff (i, some e) (List.mem_cons_self _ _)).mpr hd
      cases this
    have hbc0 : (0 : Int) ≤ (st.getSrc i).bufferCount := by
      rw [hm.bc_count i]
      exact Int.natCast_nonneg _
    have hgetself := resolveFlight_some_getSrc_self st i e hvalid
    have hgetne := resolveFlight_some_getSrc_ne st i e
    have hlen := resolveFlight_some_srcs_length st i e
    have hpq := resolveFlight_some_pq st i e
    have hlive := resolveFlight_some_live st i e
    have hpqperm : (resolveFlight st (i, some e)).pq.Perm ((e, i) :: st.pq) := by
      rw [hpq]
      exact List.perm_orderedInsert _ _ _
    have hpqlen : (resolveFlight st (i, some e)).pq.length =
        st.pq.length + 1 := by
      rw [hpq]
      exact List.orderedInsert_length _ _ _
    have hcount : ∀ j, residentCount (resolveFlight st (i, some e)) j =
        (if j = i then residentCount st j + 1 else residentCount st j) := by
      intro j
      unfold residentCount
      rw [hpqperm.countP_eq, List.countP_cons]
      by_cases hji : j = i
      · subst hji
        simp
      · simp [show i ≠ j from fun h => hji h.symm, hji]
    have hznl : znl (resolveFlight st (i, some e)) = znl st := by
      refine znl_eq _ _ hlive ?_
      intro j hj
      by_cases hji : j = i
      · subst hji
        have hne : ¬((st.getSrc j).bufferCount + 1 = 0) := by omega
        simp [znlP, hgetself, hload, hne]
      · simp [znlP, hgetne j hji]
    refine ⟨?_, ?_, ?_, ?_, ?_, ?_, ?_, ?_, ?_, ?_, ?_, ?_, ?_, ?_, ?_⟩
    · rw [hlive, hlen]
      exact hm.live_sub
    · intro j hjv hjd
      rw [hlen] at hjv
      rw [hlive]
      by_cases hji : j = i
      · subst hji
        rw [hgetself] at hjd
        exact hm.live_compl j hjv (by simpa using hjd)
      · rw [hgetne j hji] at hjd
        exact hm.live_compl j hjv hjd
    · intro j
      rw [hcount j]
      by_cases hji : j = i
      · subst hji
        rw [hgetself]
        simp only [if_pos rfl]
        rw [hm.bc_count j]
        push_cast
        ring
      · rw [hgetne j hji, if_neg hji]
        exact hm.bc_count j
    · intro j
      by_cases hji : j = i
      · subst hji
        rw [hgetself]
        simpa using hnotin
      · rw [hgetne j hji, hm.load_iff j]
        simp only [List.map_cons, List.mem_cons]
        exact ⟨fun h => h.elim (fun he => absurd he hji) id, Or.inr⟩
    · have := hm.fst_nodup
      simp only [List.map_cons, List.nodup_cons] at this
      exact this.2
    · intro g hg
      rw [hlen]
      exact hm.fl_valid g (List.mem_cons_of_mem _ hg)
    · intro c hc
      rw [hlen]
      rw [hpq] at hc
      rcases (List.mem_orderedInsert candLE).mp hc with rfl | hcm
      · exact hvalid
      · exact hm.pq_valid c hcm
    · intro j hjd
      by_cases hji : j = i
      · subst hji
        rw [hgetself] at hjd ⊢
        exact hm.drained_rem j (by simpa using hjd)
      · rw [hgetne j hji] at hjd ⊢
        exact hm.drained_rem j hjd
    · intro g hg
      have hgf : ((resolveFlight st (i, some e)).getSrc g.1).drained =
          (st.getSrc g.1).drained := by
        by_cases hgi : g.1 = i
        · rw [hgi]
          simp [hgetself]
        · rw [hgetne g.1 hgi]
      rw [hgf]
      exact hm.fl_none_iff g (List.mem_cons_of_mem _ hg)
    · rw [hpqlen, resolveFlight_some_maxSize]
      have := hm.size_le
      simp only [List.length_cons] at this
      omega
    · rw [hpqlen, hznl, resolveFlight_some_maxSize]
      have := hm.inv3
      simp only [List.length_cons] at this
      omega
    · have : (resolveFlight st (i, some e)).maxInflightEver =
          st.maxInflightEver := resolveFlight_some_maxIE st i e
      rw [this]
      exact hm.maxIE_le
    · rw [hpq]
      exact hm.pq_sorted.orderedInsert _ _
    · rw [resolveFlight_some_maxSize, hlen]
      exact hm.maxSize_eq
    · rw [resolveFlight_some_inflight]
      exact hm.infl_nil
  | none =>
    have hdr : (st.getSrc i).drained = true :=
      (hm.fl_none_iff (i, none) (List.mem_cons_self _ _)).mp rfl
    have hgetself := resolveFlight_none_getSrc_self st i hvalid
    have hgetne := resolveFlight_none_getSrc_ne st i
    have hlen := resolveFlight_none_srcs_length st i
    have hpq := resolveFlight_none_pq st i
    have hlive := resolveFlight_none_live st i
    have hznl : znl (resolveFlight st (i, none)) = znl st := by
      refine znl_eq _ _ hlive ?_
      intro j hj
      by_cases hji : j = i
      · subst hji
        simp [znlP, hgetself, hload, hdr]
      · simp [znlP, hgetne j hji]
    have hcount : ∀ j, residentCount (resolveFlight st (i, none)) j =
        residentCount st j := by
      intro j
      unfold residentCount
      rw [hpq]
    refine ⟨?_, ?_, ?_, ?_, ?_, ?_, ?_, ?_, ?_, ?_, ?_, ?_, ?_, ?_, ?_⟩
    · rw [hlive, hlen]
      exact hm.live_sub
    · intro j hjv hjd
      rw [hlen] at hjv
      rw [hlive]
      by_cases hji : j = i
      · subst hji
        refine hm.live_compl j hjv ?_
        simpa [hgetself] using hjd
      · rw [hgetne j hji] at hjd
        exact hm.live_compl j hjv hjd
    · intro j
      rw [hcount j]
      by_cases hji : j = i
      · subst hji
        have hbcu : ((resolveFlight st (j, none)).getSrc j).bufferCount =
            (st.getSrc j).bufferCount := by simp [hgetself]
        rw [hbcu]
        exact hm.bc_count j
      · rw [hgetne j hji]
        exact hm.bc_count j
    · intro j
      by_cases hji : j = i
      · subst hji
        have hldu : ((resolveFlight st (j, none)).getSrc j).loading = false := by
          simp [hgetself]
        rw [hldu]
        simp [hnotin]
      · rw [hgetne j hji, hm.load_iff j]
        simp only [List.map_cons, List.mem_cons]
        exact ⟨fun h => h.elim (fun he => absurd he hji) id, Or.inr⟩
    · have := hm.fst_nodup
      simp only [List.map_cons, List.nodup_cons] at this
      exact this.2
    · intro g hg
      rw [hlen]
      exact hm.fl_valid g (List.mem_cons_of_mem _ hg)
    · intro c hc
      rw [hpq] at hc
      rw [hlen]
      exact hm.pq_valid c hc
    · intro j hjd
      by_cases hji : j = i
      · subst hji
        have h1 : ((resolveFlight st (j, none)).getSrc j).drained =
            (st.getSrc j).drained := by simp [hgetself]
        have h2 : ((resolveFlight st (j, none)).getSrc j).remaining =
            (st.getSrc j).remaining := by simp [hgetself]
        rw [h1] at hjd
        rw [h2]
        exact hm.drained_rem j hjd
      · rw [hgetne j hji] at hjd ⊢
        exact hm.drained_rem j hjd
    · intro g hg
      have hgf : ((resolveFlight st (i, none)).getSrc g.1).drained =
          (st.getSrc g.1).drained := by
        by_cases hgi : g.1 = i
        · rw [hgi]
          simp [hgetself]
        · rw [hgetne g.1 hgi]
      rw [hgf]
      exact hm.fl_none_iff g (List.mem_cons_of_mem _ hg)
    · rw [hpq, resolveFlight_none_maxSize]
      have := hm.size_le
      simp only [List.length_cons] at this
      omega
    · rw [hpq, hznl, resolveFlight_none_maxSize]
      have := hm.inv3
      simp only [List.length_cons] at this
      omega
    · rw [resolveFlight_none_maxIE]
      exact hm.maxIE_le
    · rw [hpq]
      exact hm.pq_sorted
    · rw [resolveFlight_none_maxSize, hlen]
      exact hm.maxSize_eq
    · rw [resolveFlight_none_inflight]
      exact hm.infl_nil

theorem processBatch_mid :
    ∀ (l : List Flight) (st : AState), Mid st l →
      Mid (processBatch l st) [] := by
  intro l
  induction l with
  | nil => intro st hm; exact hm
  | cons f rest ih =>
    intro st hm
    exact ih (resolveFlight st f) (resolveFlight_mid st f rest hm)

theorem mid_invA (st : AState) (hm : Mid st []) : InvA st := by
  refine ⟨hm.live_sub, hm.live_compl, hm.bc_count, ?_, ?_, ?_, hm.pq_valid,
    hm.drained_rem, ?_, ?_, ?_, hm.maxIE_le, hm.pq_sorted, hm.maxSize_eq⟩
  · intro i
    rw [hm.infl_nil]
    have := hm.load_iff i
    simpa using this
  · rw [hm.infl_nil]
    simp
  · intro f hf
    rw [hm.infl_nil] at hf
    cases hf
  · intro f hf
    rw [hm.infl_nil] at hf
    cases hf
  · rw [hm.infl_nil]
    have := hm.size_le
    simpa using this
  · rw [hm.infl_nil]
    have := hm.inv3
    simpa using this

/-- Issuing an admitted fetch preserves the tick invariant.  `hz` is the
fetch-selection fact making the bookkeeping go through: either the target has
an empty buffer (`findNextLogSourceToQueue` prefers those), or no live source
has an idle empty buffer at all. -/
theorem queueLog_invA (st : AState) (i : Nat) (hInv : InvA st)
    (h50 : st.inflight.length ≤ 50)
    (hnd : ∀ j ∈ st.live, (st.getSrc j).drained = false)
    (hmem : i ∈ st.live) (hnl : (st.getSrc i).loading = false)
    (hfull : st.pq.length + st.inflight.length < st.maxSize)
    (hz : (st.getSrc i).bufferCount = 0 ∨ znl st = 0) :
    InvA (queueLogFromSource st i) := by
  have hvalid : i < st.srcs.length :=
    List.mem_range.mp (hInv.live_sub.subset hmem)
  have hdri : (st.getSrc i).drained = false := hnd i hmem
  have hnotin : i ∉ st.inflight.map Prod.fst := by
    intro hc
    rw [← hInv.load_iff i] at hc
    rw [hnl] at hc
    cases hc
  have hlive := queueLog_live st i
  have hpq := queueLog_pq st i
  have hlen := queueLog_srcs_length st i
  have hinfl := queueLog_inflight st i
  have hms := queueLog_maxSize st i
  have hgetne := queueLog_getSrc_ne st i
  have hlivend : st.live.Nodup :=
    hInv.live_sub.nodup (List.nodup_range _)
  -- the target's record after the call, by cases on its remaining entries
  have hself : ((queueLogFromSource st i).getSrc i).bufferCount =
      (st.getSrc i).bufferCount ∧
      ((queueLogFromSource st i).getSrc i).loading = true ∧
      ((queueLogFromSource st i).getSrc i).drained =
        ((st.getSrc i).remaining.isEmpty || (st.getSrc i).drained) ∧
      ((queueLogFromSource st i).getSrc i).remaining =
        (st.getSrc i).remaining.tail := by
    cases hrem : (st.getSrc i).remaining with
    | nil => simp [queueLog_getSrc_self_nil st i hvalid hrem, hrem]
    | cons e rest => simp [queueLog_getSrc_self_cons st i hvalid e rest hrem, hrem]
  have hznl : znl (queueLogFromSource st i) + 1 = znl st ∨
      (znl (queueLogFromSource st i) = znl st ∧ znl st = 0) := by
    have hq_ne : ∀ j ∈ st.live, j ≠ i →
        znlP (queueLogFromSource st i) j = znlP st j := by
      intro j _ hji
      unfold znlP
      rw [hgetne j hji]
    have hqi : znlP (queueLogFromSource st i) i = false := by
      unfold znlP
      rw [hself.2.1]
      simp
    rcases hz with hbz | hz0
    · left
      have hpi : znlP st i = true := by
        unfold znlP
        rw [hdri, hnl, hbz]
        simp
      have := length_filter_update_false st.live hlivend (znlP st)
        (znlP (queueLogFromSource st i)) i hmem hq_ne hpi hqi
      rw [znl_eq_filter, znl_eq_filter, hlive]
      exact this
    · right
      refine ⟨?_, hz0⟩
      have hpi : znlP st i = false := by
        have : znl st ≠ 0 ∨ znlP st i = false := by
          by_cases hp : znlP st i = true
          · left
            rw [znl_eq_filter]
            have : i ∈ st.live.filter (znlP st) :=
              List.mem_filter.mpr ⟨hmem, hp⟩
            intro hcon
            rw [List.length_eq_zero] at hcon
            rw [hcon] at this
            cases this
          · right
            simpa using hp
        rcases this with hcon | hok
        · exact absurd hz0 hcon
        · exact hok
      rw [znl_eq_filter, znl_eq_filter, hlive]
      refine length_filter_congr_on _ _ _ ?_
      intro j hj
      by_cases hji : j = i
      · subst hji
        rw [hqi, hpi]
      · exact hq_ne j hj hji
  refine ⟨?_, ?_, ?_, ?_, ?_, ?_, ?_, ?_, ?_, ?_, ?_, ?_, ?_, ?_⟩
  · rw [hlive, hlen]
    exact hInv.live_sub
  · intro j hjv hjd
    rw [hlen] at hjv
    rw [hlive]
    by_cases hji : j = i
    · subst hji
      exact hmem
    · rw [hgetne j hji] at hjd
      exact hInv.live_compl j hjv hjd
  · intro j
    have hrc : residentCount (queueLogFromSource st i) j =
        residentCount st j := by
      unfold residentCount
      rw [hpq]
    rw [hrc]
    by_cases hji : j = i
    · subst hji
      rw [hself.1]
      exact hInv.bc_count j
    · rw [hgetne j hji]
      exact hInv.bc_count j
  · intro j
    rw [hinfl]
    by_cases hji : j = i
    · subst hji
      rw [hself.2.1]
      simp
    · rw [hgetne j hji, hInv.load_iff j]
      simp [hji]
  · rw [hinfl]
    simp only [List.map_append, List.map_cons, List.map_nil]
    rw [List.nodup_append]
    refine ⟨hInv.fst_nodup, List.nodup_singleton _, ?_⟩
    intro a ha hb
    simp only [List.mem_singleton] at hb
    subst hb
    exact hnotin ha
  · intro f hf
    rw [hlen]
    rw [hinfl] at hf
    rcases List.mem_append.mp hf with hold | hnew
    · exact hInv.fl_valid f hold
    · simp only [List.mem_singleton] at hnew
      subst hnew
      exact hvalid
  · intro c hc
    rw [hpq] at hc
    rw [hlen]
    exact hInv.pq_valid c hc
  · intro j hjd
    by_cases hji : j = i
    · subst hji
      rw [hself.2.2.2]
      cases hrem : (st.getSrc j).remaining with
      | nil => simp
      | cons e rest =>
        exfalso
        rw [hself.2.2.1, hrem, hdri] at hjd
        simp at hjd
    · rw [hgetne j hji] at hjd ⊢
      exact hInv.drained_rem j hjd
  · intro f hf
    rw [hinfl] at hf
    rcases List.mem_append.mp hf with hold | hnew
    · have hfi : f.1 ≠ i := by
        intro hc
        exact hnotin (hc ▸ List.mem_map_of_mem Prod.fst hold)
      rw [hgetne f.1 hfi]
      exact hInv.fl_none_iff f hold
    · simp only [List.mem_singleton] at hnew
      subst hnew
      cases hrem : (st.getSrc i).remaining with
      | nil =>
        rw [hself.2.2.1, hrem]
        simp [hrem]
      | cons e rest =>
        rw [hself.2.2.1, hrem, hdri]
        simp [hrem]
  · rw [hpq, hinfl, hms]
    simp only [List.length_append, List.length_cons, List.length_nil]
    omega
  · rw [hpq, hinfl, hms]
    simp only [List.length_append, List.length_cons, List.length_nil]
    rcases hznl with h1 | ⟨h2, h3⟩
    · have := hInv.inv3
      omega
    · rw [h2, h3]
      omega
  · rw [queueLog_maxIE]
    have := hInv.maxIE_le
    omega
  · rw [hpq]
    exact hInv.pq_sorted
  · rw [hms, hlen]
    exact hInv.maxSize_eq

theorem processBatch_live :
    ∀ (l : List Flight) (st : AState), (processBatch l st).live = st.live := by
  intro l
  induction l with
  | nil => intro st; rfl
  | cons f rest ih =>
    intro st
    have h1 : (resolveFlight st f).live = st.live := by
      obtain ⟨i, v⟩ := f
      cases v
      · exact resolveFlight_none_live st i
      · exact resolveFlight_some_live st i _
    exact (ih (resolveFlight st f)).trans h1

theorem processBatch_printed :
    ∀ (l : List Flight) (st : AState),
      (processBatch l st).printed = st.printed := by
  intro l
  induction l with
  | nil => intro st; rfl
  | cons f rest ih =>
    intro st
    have h1 : (resolveFlight st f).printed = st.printed := by
      obtain ⟨i, v⟩ := f
      cases v
      · exact resolveFlight_none_printed st i
      · exact resolveFlight_some_printed st i _
    exact (ih (resolveFlight st f)).trans h1

theorem processBatch_inflight :
    ∀ (l : List Flight) (st : AState),
      (processBatch l st).inflight = st.inflight := by
  intro l
  induction l with
  | nil => intro st; rfl
  | cons f rest ih =>
    intro st
    have h1 : (resolveFlight st f).inflight = st.inflight := by
      obtain ⟨i, v⟩ := f
      cases v
      · exact resolveFlight_none_inflight st i
      · exact resolveFlight_some_inflight st i _
    exact (ih (resolveFlight st f)).trans h1

theorem processBatch_pq_len :
    ∀ (l : List Flight) (st : AState),
      st.pq.length ≤ (processBatch l st).pq.length := by
  intro l
  induction l with
  | nil => intro st; exact Nat.le_refl _
  | cons f rest ih =>
    intro st
    refine Nat.le_trans ?_ (ih (resolveFlight st f))
    obtain ⟨i, v⟩ := f
    cases v
    · rw [resolveFlight_none_pq]
    · rw [resolveFlight_some_pq, List.orderedInsert_length]
      omega

theorem addNext_cases (st : AState) :
    addNextLogToQueue st = st ∨
      ∃ i, findNextLogSourceToQueue st = some i ∧
        addNextLogToQueue st = queueLogFromSource st i := by
  unfold addNextLogToQueue
  cases h : findNextLogSourceToQueue st with
  | none => exact Or.inl rfl
  | some i => exact Or.inr ⟨i, rfl, rfl⟩

/-- The full pre-gate part of a tick preserves the invariant, keeps the
working list and the printed trace, and can only grow the priority queue;
after it the promise queue is back within its boundary bound. -/
theorem tickCore_facts (reorder : List Flight → List Flight)
    (hperm : ∀ l, (reorder l).Perm l) (st : AState) (hInv : SchedInv st) :
    InvA (tickCore reorder st) ∧ (tickCore reorder st).inflight.length ≤ 50 ∧
      (tickCore reorder st).live = st.live ∧
      (tickCore reorder st).printed = st.printed ∧
      st.pq.length ≤ (tickCore reorder st).pq.length := by
  have hkey : ∀ st1 : AState, InvA st1 → st1.live = st.live →
      st1.printed = st.printed → st1.pq = st.pq →
      (st1.inflight = st.inflight ∨
        st1.inflight.length = st.inflight.length + 1) →
      InvA (if st1.inflight.length ≠ 0 ∧
          (st.maxSize ≤ st.pq.length + st.inflight.length ∨
            50 ≤ st.inflight.length ∨ allSourcesAreLoading st1 = true)
        then processBatch (reorder st1.inflight) { st1 with inflight := [] }
        else st1) ∧
      (if st1.inflight.length ≠ 0 ∧
          (st.maxSize ≤ st.pq.length + st.inflight.length ∨
            50 ≤ st.inflight.length ∨ allSourcesAreLoading st1 = true)
        then processBatch (reorder st1.inflight) { st1 with inflight := [] }
        else st1).inflight.length ≤ 50 ∧
      (if st1.inflight.length ≠ 0 ∧
          (st.maxSize ≤ st.pq.length + st.inflight.length ∨
            50 ≤ st.inflight.length ∨ allSourcesAreLoading st1 = true)
        then processBatch (reorder st1.inflight) { st1 with inflight := [] }
        else st1).live = st.live ∧
      (if st1.inflight.length ≠ 0 ∧
          (st.maxSize ≤ st.pq.length + st.inflight.length ∨
            50 ≤ st.inflight.length ∨ allSourcesAreLoading st1 = true)
        then processBatch (reorder st1.inflight) { st1 with inflight := [] }
        else st1).printed = st.printed ∧
      st.pq.length ≤ (if st1.inflight.length ≠ 0 ∧
          (st.maxSize ≤ st.pq.length + st.inflight.length ∨
            50 ≤ st.inflight.length ∨ allSourcesAreLoading st1 = true)
        then processBatch (reorder st1.inflight) { st1 with inflight := [] }
        else st1).pq.length := by
    intro st1 hInv1 hlive1 hprinted1 hpq1 hinfl1
    by_cases hb : st1.inflight.length ≠ 0 ∧
        (st.maxSize ≤ st.pq.length + st.inflight.length ∨
          50 ≤ st.inflight.length ∨ allSourcesAreLoading st1 = true)
    · rw [if_pos hb]
      have hmid := mid_of_invA st1 hInv1 (reorder st1.inflight)
        ((hperm st1.inflight).trans (List.Perm.refl _))
      have hfinal := processBatch_mid _ _ hmid
      have hInvFin := mid_invA _ hfinal
      refine ⟨hInvFin, ?_, ?_, ?_, ?_⟩
      · rw [hfinal.infl_nil]
        simp
      · rw [processBatch_live]
        exact hlive1
      · rw [processBatch_printed]
        exact hprinted1
      · have h2 := processBatch_pq_len (reorder st1.inflight)
          { st1 with inflight := [] }
        have h3 : ({ st1 with inflight := [] } : AState).pq.length =
            st.pq.length := by
          rw [show ({ st1 with inflight := [] } : AState).pq = st1.pq from rfl,
            hpq1]
        omega
    · rw [if_neg hb]
      refine ⟨hInv1, ?_, hlive1, hprinted1, by rw [hpq1]⟩
      rcases hinfl1 with heq | hsucc
      · rw [heq]
        exact hInv.infl50
      · rw [hsucc]
        rcases Decidable.em (st1.inflight.length = 0) with hz | hnz
        · omega
        · have hnot : ¬(st.maxSize ≤ st.pq.length + st.inflight.length ∨
              50 ≤ st.inflight.length ∨ allSourcesAreLoading st1 = true) :=
            fun hd => hb ⟨hnz, hd⟩
          push_neg at hnot
          have := hnot.2.1
          omega
  have hmain : ∀ st1 : AState,
      (st1 = if st.maxSize ≤ st.pq.length + st.inflight.length then st
        else addNextLogToQueue st) →
      InvA st1 ∧ st1.live = st.live ∧ st1.printed = st.printed ∧
        st1.pq = st.pq ∧
        (st1.inflight = st.inflight ∨
          st1.inflight.length = st.inflight.length + 1) := by
    intro st1 hdef
    by_cases hfp : st.maxSize ≤ st.pq.length + st.inflight.length
    · rw [if_pos hfp] at hdef
      subst hdef
      exact ⟨hInv.toInvA, rfl, rfl, rfl, Or.inl rfl⟩
    · rw [if_neg hfp] at hdef
      rcases addNext_cases st with hid | ⟨i, hfind, heq⟩
      · rw [hid] at hdef
        subst hdef
        exact ⟨hInv.toInvA, rfl, rfl, rfl, Or.inl rfl⟩
      · rw [heq] at hdef
        subst hdef
        have hmem := findNext_mem st i hfind
        have hnl := findNext_not_loading st i hfind
        have hz : (st.getSrc i).bufferCount = 0 ∨ znl st = 0 := by
          by_cases hzn : znl st = 0
          · exact Or.inr hzn
          · left
            have hex : ∃ j ∈ st.live, (st.getSrc j).loading = false ∧
                (st.getSrc j).bufferCount = 0 := by
              rw [znl_eq_filter] at hzn
              have hne : st.live.filter (znlP st) ≠ [] := by
                intro hc
                rw [hc] at hzn
                exact hzn rfl
              obtain ⟨j, hj⟩ := List.exists_mem_of_ne_nil _ hne
              have := List.mem_filter.mp hj
              refine ⟨j, this.1, ?_, ?_⟩
              · have := this.2
                unfold znlP at this
                simp only [Bool.and_eq_true, Bool.not_eq_true',
                  decide_eq_true_eq] at this
                exact this.2
              · have := this.2
                unfold znlP at this
                simp only [Bool.and_eq_true, Bool.not_eq_true',
                  decide_eq_true_eq] at this
                exact this.1.2
            obtain ⟨j, hjres, _, _, hjz⟩ := findNext_zero st hex
            rw [hfind] at hjres
            cases hjres
            exact hjz
        refine ⟨queueLog_invA st i hInv.toInvA hInv.infl50
          hInv.live_nondrained hmem hnl (by omega) hz,
          queueLog_live st i, queueLog_printed st i, queueLog_pq st i, ?_⟩
        rw [queueLog_inflight]
        right
        simp
  have := hmain _ rfl
  obtain ⟨hInv1, hlive1, hprinted1, hpq1, hinfl1⟩ := this
  have := hkey _ hInv1 hlive1 hprinted1 hpq1 hinfl1
  simpa [tickCore] using this

theorem printNext_invA (c : Cand) (rest : List Cand) (st : AState)
    (hInv : InvA st) (hpq : st.pq = c :: rest) :
    InvA (printNextLogFromQueue c rest st) := by
  have hvalid : c.2 < st.srcs.length :=
    hInv.pq_valid c (by rw [hpq]; exact List.mem_cons_self _ _)
  have hgetself := printNext_getSrc_self c rest st hvalid
  have hgetne := printNext_getSrc_ne c rest st
  have hlen := printNext_srcs_length c rest st
  have hcount : residentCount st c.2 =
      residentCount (printNextLogFromQueue c rest st) c.2 + 1 := by
    unfold residentCount
    rw [printNext_pq, hpq, List.countP_cons]
    simp
  have hcount_ne : ∀ j, j ≠ c.2 →
      residentCount (printNextLogFromQueue c rest st) j =
        residentCount st j := by
    intro j hj
    unfold residentCount
    rw [printNext_pq, hpq, List.countP_cons]
    have hne : ¬(c.2 = j) := fun h => hj h.symm
    simp [hne]
  have hbcpos : 0 < residentCount st c.2 := by omega
  have hpfalse : znlP st c.2 = false := by
    unfold znlP
    have hbc : (st.getSrc c.2).bufferCount = (residentCount st c.2 : Int) :=
      hInv.bc_count c.2
    have hne : ¬((st.getSrc c.2).bufferCount = 0) := by omega
    simp [hne]
  have hznl : znl (printNextLogFromQueue c rest st) ≤ znl st + 1 := by
    by_cases hc2 : c.2 ∈ st.live
    · by_cases hq : znlP (printNextLogFromQueue c rest st) c.2 = true
      · have := length_filter_update_false st.live
          (hInv.live_sub.nodup (List.nodup_range _))
          (znlP (printNextLogFromQueue c rest st)) (znlP st) c.2 hc2
          (fun j _ hj => by unfold znlP; rw [hgetne j hj]) hq hpfalse
        rw [znl_eq_filter, znl_eq_filter, printNext_live]
        omega
      · have heq : znl (printNextLogFromQueue c rest st) = znl st := by
          rw [znl_eq_filter, znl_eq_filter, printNext_live]
          refine length_filter_congr_on _ _ _ ?_
          intro j hj
          by_cases hji : j = c.2
          · rw [hji, hpfalse]
            simpa using hq
          · unfold znlP
            rw [hgetne j hji]
        omega
    · have heq : znl (printNextLogFromQueue c rest st) = znl st := by
        rw [znl_eq_filter, znl_eq_filter, printNext_live]
        refine length_filter_congr_on _ _ _ ?_
        intro j hj
        have hji : j ≠ c.2 := fun hcon => hc2 (hcon ▸ hj)
        unfold znlP
        rw [hgetne j hji]
      omega
  refine ⟨?_, ?_, ?_, ?_, ?_, ?_, ?_, ?_, ?_, ?_, ?_, ?_, ?_, ?_⟩
  · rw [printNext_live, hlen]
    exact hInv.live_sub
  · intro j hjv hjd
    rw [hlen] at hjv
    rw [printNext_live]
    by_cases hji : j = c.2
    · rw [hji] at hjd ⊢
      refine hInv.live_compl c.2 (hji ▸ hjv) ?_
      simpa [hgetself] using hjd
    · rw [hgetne j hji] at hjd
      exact hInv.live_compl j hjv hjd
  · intro j
    by_cases hji : j = c.2
    · rw [hji]
      have hb : ((printNextLogFromQueue c rest st).getSrc c.2).bufferCount =
          (st.getSrc c.2).bufferCount - 1 := by simp [hgetself]
      rw [hb, hInv.bc_count c.2]
      omega
    · rw [hgetne j hji, hcount_ne j hji]
      exact hInv.bc_count j
  · intro j
    rw [printNext_inflight]
    by_cases hji : j = c.2
    · rw [hji]
      have hl : ((printNextLogFromQueue c rest st).getSrc c.2).loading =
          (st.getSrc c.2).loading := by simp [hgetself]
      rw [hl]
      exact hInv.load_iff c.2
    · rw [hgetne j hji]
      exact hInv.load_iff j
  · rw [printNext_inflight]
    exact hInv.fst_nodup
  · intro f hf
    rw [printNext_inflight] at hf
    rw [hlen]
    exact hInv.fl_valid f hf
  · intro d hd
    rw [printNext_pq] at hd
    rw [hlen]
    exact hInv.pq_valid d (by rw [hpq]; exact List.mem_cons_of_mem _ hd)
  · intro j hjd
    by_cases hji : j = c.2
    · rw [hji] at hjd ⊢
      have h1 : ((printNextLogFromQueue c rest st).getSrc c.2).drained =
          (st.getSrc c.2).drained := by simp [hgetself]
      have h2 : ((printNextLogFromQueue c rest st).getSrc c.2).remaining =
          (st.getSrc c.2).remaining := by simp [hgetself]
      rw [h1] at hjd
      rw [h2]
      exact hInv.drained_rem c.2 hjd
    · rw [hgetne j hji] at hjd ⊢
      exact hInv.drained_rem j hjd
  · intro f hf
    rw [printNext_inflight] at hf
    have hdr : ((printNextLogFromQueue c rest st).getSrc f.1).drained =
        (st.getSrc f.1).drained := by
      by_cases hfi : f.1 = c.2
      · rw [hfi]
        simp [hgetself]
      · rw [hgetne f.1 hfi]
    rw [hdr]
    exact hInv.fl_none_iff f hf
  · rw [printNext_pq, printNext_inflight, printNext_maxSize]
    have := hInv.size_le
    rw [hpq] at this
    simp only [List.length_cons] at this
    omega
  · rw [printNext_pq, printNext_inflight, printNext_maxSize]
    have := hInv.inv3
    rw [hpq] at this
    simp only [List.length_cons] at this
    omega
  · rw [printNext_maxIE]
    exact hInv.maxIE_le
  · rw [printNext_pq]
    have := hInv.pq_sorted
    rw [hpq] at this
    exact this.of_cons
  · rw [printNext_maxSize, hlen]
    exact hInv.maxSize_eq

theorem tickFilter_sched (st : AState) (hInv : InvA st)
    (h50 : st.inflight.length ≤ 50) : SchedInv (tickFilter st) := by
  have hznl : znl (tickFilter st) = znl st := by
    rw [znl_eq_filter, znl_eq_filter]
    show ((st.live.filter (fun i => !(st.getSrc i).drained)).filter
      (znlP st)).length = (st.live.filter (znlP st)).length
    rw [List.filter_filter]
    refine congrArg List.length (List.filter_congr ?_)
    intro j _
    cases hd : (st.getSrc j).drained <;> simp [znlP, hd]
  refine ⟨⟨?_, ?_, hInv.bc_count, hInv.load_iff, hInv.fst_nodup,
    hInv.fl_valid, hInv.pq_valid, hInv.drained_rem, hInv.fl_none_iff,
    hInv.size_le, ?_, hInv.maxIE_le, hInv.pq_sorted, hInv.maxSize_eq⟩,
    h50, ?_⟩
  · exact (List.filter_sublist _).trans hInv.live_sub
  · intro i hiv hid
    have hid2 : (st.getSrc i).drained = false := hid
    have := hInv.live_compl i hiv hid2
    show i ∈ st.live.filter (fun i => !(st.getSrc i).drained)
    exact List.mem_filter.mpr ⟨this, by simp [hid2]⟩
  · show st.pq.length + st.inflight.length + znl (tickFilter st) ≤ st.maxSize
    rw [hznl]
    exact hInv.inv3
  · intro i hi
    have := List.mem_filter.mp hi
    simpa using this.2

theorem allRead_iff (st : AState) :
    allSourcesHaveBeenRead st = true ↔
      ∀ i ∈ st.live, 0 < (st.getSrc i).bufferCount := by
  unfold allSourcesHaveBeenRead
  rw [List.all_eq_true]
  constructor
  · intro h i hi
    have := h i hi
    simpa using this
  · intro h i hi
    simpa using h i hi

theorem continueLoop_iff (st : AState) :
    continueLoop st = true ↔ (st.live ≠ [] ∨ st.pq ≠ []) := by
  unfold continueLoop
  rw [Bool.or_eq_true]
  simp [List.isEmpty_iff]

/-- A continuing tick on an invariant state succeeds (neither the queue-size
check nor the emission pop can fail) and re-establishes the invariant. -/
theorem tick_sched (reorder : List Flight → List Flight)
    (hperm : ∀ l, (reorder l).Perm l) (st : AState)
    (hInv : SchedInv st) (hc : continueLoop st = true) :
    ∃ st2, tick reorder st = .ok st2 ∧ SchedInv st2 ∧
      st2.printed.length = st.printed.length +
        (if allSourcesHaveBeenRead (tickCore reorder st) = true
          then 1 else 0) := by
  obtain ⟨hmidInv, hmid50, hmidlive, hmidprinted, hmidpq⟩ :=
    tickCore_facts reorder hperm st hInv
  have hthrow : ¬(st.maxSize < st.pq.length) := by
    have := hInv.toInvA.size_le
    omega
  by_cases hg : allSourcesHaveBeenRead (tickCore reorder st) = true
  · have hne : (tickCore reorder st).pq ≠ [] := by
      cases hl : st.live with
      | nil =>
        have hpqne : st.pq ≠ [] := by
          rcases (continueLoop_iff st).mp hc with hlv | hpq
          · exact absurd hl hlv
          · exact hpq
        have h1 : 0 < st.pq.length := List.length_pos.mpr hpqne
        have h2 : 0 < (tickCore reorder st).pq.length := by omega
        exact List.ne_nil_of_length_pos h2
      | cons j rest =>
        have hjm : j ∈ (tickCore reorder st).live := by
          rw [hmidlive, hl]
          exact List.mem_cons_self _ _
        have hgj := (allRead_iff _).mp hg j hjm
        rw [hmidInv.bc_count j] at hgj
        have hcp : 0 < residentCount (tickCore reorder st) j := by
          exact_mod_cast hgj
        unfold residentCount at hcp
        obtain ⟨cand, hcand, _⟩ := List.countP_pos_iff.mp hcp
        exact List.ne_nil_of_mem hcand
    obtain ⟨c, rest2, hcr⟩ := List.exists_cons_of_ne_nil hne
    refine ⟨tickFilter (printNextLogFromQueue c rest2 (tickCore reorder st)),
      ?_, ?_, ?_⟩
    · simp only [tick]
      rw [if_neg hthrow, if_pos hg, hcr]
    · exact tickFilter_sched _ (printNext_invA c rest2 _ hmidInv hcr)
        (by rw [printNext_inflight]; exact hmid50)
    · rw [if_pos hg]
      show (printNextLogFromQueue c rest2 (tickCore reorder st)).printed.length
        = st.printed.length + 1
      rw [printNext_printed, List.length_append, hmidprinted]
      simp
  · refine ⟨tickFilter (tickCore reorder st), ?_,
      tickFilter_sched _ hmidInv hmid50, ?_⟩
    · simp only [tick]
      rw [if_neg hthrow, if_neg hg]
    · rw [if_neg hg]
      show (tickCore reorder st).printed.length = st.printed.length + 0
      rw [hmidprinted]
      rfl

theorem steps_sched (rs : ReorderSeq) (hrs : ValidReorder rs) :
    ∀ (n : Nat) (st st2 : AState), SchedInv st →
      steps rs n st = .ok st2 → SchedInv st2 := by
  intro n
  induction n with
  | zero =>
    intro st st2 h hstep
    cases hstep
    exact h
  | succ m ih =>
    intro st st2 h hstep
    rw [steps] at hstep
    by_cases hc : continueLoop st = true
    · rw [if_pos hc] at hstep
      obtain ⟨st1, htick, hinv1, _⟩ := tick_sched (rs st.tickNo)
        (hrs st.tickNo) st h hc
      rw [htick] at hstep
      exact ih st1 st2 hinv1 hstep
    · rw [if_neg hc] at hstep
      cases hstep
      exact h

/-- Every state the driver loop reaches from an initial state satisfies the
scheduler invariant. -/
theorem steps_inv (sources : List (List LogEntry)) (rs : ReorderSeq)
    (hrs : ValidReorder rs) (n : Nat) (st : AState)
    (h : steps rs n (initAsync sources) = .ok st) : SchedInv st :=
  steps_sched rs hrs n (initAsync sources) st (inv_init sources) h

/-! ### Conservation of entries -/

theorem sum_map_set_gen {α : Type} (f : α → Nat) (l : List α) (i : Nat)
    (a d : α) (h : i < l.length) :
    ((l.set i a).map f).sum + f (l.getD i d) = (l.map f).sum + f a := by
  induction l generalizing i with
  | nil => simp at h
  | cons b bs ih =>
    cases i with
    | zero => simp [List.getD_cons_zero]; omega
    | succ j =>
      have hj : j < bs.length := by simpa using h
      have := ih j hj
      simp only [List.set_cons_succ, List.map_cons, List.sum_cons,
        List.getD_cons_succ]
      omega

/-- Total number of entries a state still holds inside its sources. -/
def srcsSum (st : AState) : Nat :=
  (st.srcs.map (fun s => s.remaining.length)).sum

/-- Entry count of a state relative to a pending batch: printed entries,
resident candidates, value-bearing pending promises, and entries not yet
read out of the sources. -/
def budgetWith (st : AState) (pending : List Flight) : Nat :=
  st.printed.length + st.pq.length +
    pending.countP (fun f => f.2.isSome) + srcsSum st

/-- Entry count of a state; every tick preserves it. -/
def entryBudget (st : AState) : Nat := budgetWith st st.inflight

theorem queueLog_srcs_nil (st : AState) (i : Nat)
    (hrem : (st.getSrc i).remaining = []) :
    (queueLogFromSource st i).srcs =
      st.srcs.set i { st.getSrc i with drained := true, loading := true } := by
  simp only [queueLogFromSource, hrem]
  rfl

theorem queueLog_srcs_cons (st : AState) (i : Nat) (e : LogEntry)
    (rest : List LogEntry) (hrem : (st.getSrc i).remaining = e :: rest) :
    (queueLogFromSource st i).srcs =
      st.srcs.set i { st.getSrc i with remaining := rest, loading := true } := by
  simp only [queueLogFromSource, hrem]
  rfl

theorem queueLog_srcsSum_nil (st : AState) (i : Nat)
    (hrem : (st.getSrc i).remaining = []) :
    srcsSum (queueLogFromSource st i) = srcsSum st := by
  show ((queueLogFromSource st i).srcs.map
    (fun s => s.remaining.length)).sum = _
  rw [queueLog_srcs_nil st i hrem]
  by_cases hi : i < st.srcs.length
  · have hs := sum_map_set_gen (fun s => s.remaining.length) st.srcs i
      { st.getSrc i with drained := true, loading := true } defaultASrc hi
    have hgd : st.srcs.getD i defaultASrc = st.getSrc i := rfl
    rw [hgd] at hs
    unfold srcsSum
    simp only [hrem, List.length_nil] at hs ⊢
    omega
  · rw [List.set_eq_of_length_le (by omega)]
    rfl

theorem queueLog_srcsSum_cons (st : AState) (i : Nat) (e : LogEntry)
    (rest : List LogEntry) (h : i < st.srcs.length)
    (hrem : (st.getSrc i).remaining = e :: rest) :
    srcsSum (queueLogFromSource st i) + 1 = srcsSum st := by
  show ((queueLogFromSource st i).srcs.map
    (fun s => s.remaining.length)).sum + 1 = _
  rw [queueLog_srcs_cons st i e rest hrem]
  have hs := sum_map_set_gen (fun s => s.remaining.length) st.srcs i
    { st.getSrc i with remaining := rest, loading := true } defaultASrc h
  have hgd : st.srcs.getD i defaultASrc = st.getSrc i := rfl
  rw [hgd] at hs
  unfold srcsSum
  simp only [hrem, List.length_cons] at hs ⊢
  omega

theorem queueLog_budget (st : AState) (i : Nat) (h : i < st.srcs.length) :
    entryBudget (queueLogFromSource st i) = entryBudget st := by
  have hinfl := queueLog_inflight st i
  have hpq := queueLog_pq st i
  have hprinted := queueLog_printed st i
  unfold entryBudget budgetWith
  rw [hinfl, hpq, hprinted, List.countP_append]
  cases hrem : (st.getSrc i).remaining with
  | nil =>
    rw [queueLog_srcsSum_nil st i hrem]
    simp
  | cons e rest =>
    have hsum := queueLog_srcsSum_cons st i e rest h hrem
    have hc1 : List.countP (fun f => f.2.isSome)
        [((i : Nat), (e :: rest).head?)] = 1 := by
      simp [List.countP_cons]
    rw [hc1]
    omega

theorem srcsSum_set_preserve (st : AState) (i : Nat) (s2 : ASrc)
    (hlen : s2.remaining.length = (st.getSrc i).remaining.length) :
    ((st.srcs.set i s2).map (fun s => s.remaining.length)).sum = srcsSum st := by
  by_cases hi : i < st.srcs.length
  · have hs := sum_map_set_gen (fun s => s.remaining.length) st.srcs i s2
      defaultASrc hi
    have hgd : st.srcs.getD i defaultASrc = st.getSrc i := rfl
    rw [hgd] at hs
    unfold srcsSum
    simp only at hs
    omega
  · rw [List.set_eq_of_length_le (by omega)]
    rfl

theorem resolveFlight_some_srcs (st : AState) (i : Nat) (e : LogEntry) :
    (resolveFlight st (i, some e)).srcs =
      st.srcs.set i { st.getSrc i with
        bufferCount := (st.getSrc i).bufferCount + 1, loading := false } := rfl

theorem resolveFlight_none_srcs (st : AState) (i : Nat) :
    (resolveFlight st (i, none)).srcs =
      st.srcs.set i { st.getSrc i with loading := false } := rfl

theorem printNext_srcs (c : Cand) (rest : List Cand) (st : AState) :
    (printNextLogFromQueue c rest st).srcs =
      st.srcs.set c.2 { st.getSrc c.2 with
        bufferCount := (st.getSrc c.2).bufferCount - 1 } := rfl

theorem resolveFlight_budgetWith (st : AState) (f : Flight)
    (rest : List Flight) (h : f.1 < st.srcs.length) :
    budgetWith (resolveFlight st f) rest = budgetWith st (f :: rest) := by
  obtain ⟨i, v⟩ := f
  cases v with
  | some e =>
    have hsum : srcsSum (resolveFlight st (i, some e)) = srcsSum st := by
      show (((resolveFlight st (i, some e)).srcs).map
        (fun s => s.remaining.length)).sum = _
      rw [resolveFlight_some_srcs]
      exact srcsSum_set_preserve st i _ rfl
    unfold budgetWith
    rw [resolveFlight_some_printed, resolveFlight_some_pq,
      List.orderedInsert_length, List.countP_cons, hsum]
    simp
    omega
  | none =>
    have hsum : srcsSum (resolveFlight st (i, none)) = srcsSum st := by
      show (((resolveFlight st (i, none)).srcs).map
        (fun s => s.remaining.length)).sum = _
      rw [resolveFlight_none_srcs]
      exact srcsSum_set_preserve st i _ rfl
    unfold budgetWith
    rw [resolveFlight_none_printed, resolveFlight_none_pq,
      List.countP_cons, hsum]
    simp

theorem resolveFlight_srcs_length (st : AState) (f : Flight) :
    (resolveFlight st f).srcs.length = st.srcs.length := by
  obtain ⟨i, v⟩ := f
  cases v
  · exact resolveFlight_none_srcs_length st i
  · exact resolveFlight_some_srcs_length st i _

theorem processBatch_budgetWith :
    ∀ (l : List Flight) (st : AState),
      (∀ f ∈ l, f.1 < st.srcs.length) →
      budgetWith (processBatch l st) [] = budgetWith st l := by
  intro l
  induction l with
  | nil => intro st _; rfl
  | cons f rest ih =>
    intro st hval
    have h1 := resolveFlight_budgetWith st f rest
      (hval f (List.mem_cons_self _ _))
    have h2 := ih (resolveFlight st f) (fun g hg => by
      rw [resolveFlight_srcs_length]
      exact hval g (List.mem_cons_of_mem _ hg))
    exact h2.trans h1

theorem budgetWith_perm (st : AState) (l l2 : List Flight)
    (h : l.Perm l2) : budgetWith st l = budgetWith st l2 := by
  unfold budgetWith
  rw [h.countP_eq]

theorem printNext_budget (c : Cand) (rest : List Cand) (st : AState)
    (hpq : st.pq = c :: rest) :
    entryBudget (printNextLogFromQueue c rest st) = entryBudget st := by
  have hsum : srcsSum (printNextLogFromQueue c rest st) = srcsSum st := by
    show (((printNextLogFromQueue c rest st).srcs).map
      (fun s => s.remaining.length)).sum = _
    rw [printNext_srcs]
    exact srcsSum_set_preserve st c.2 _ rfl
  unfold entryBudget budgetWith
  rw [printNext_printed, printNext_pq, printNext_inflight, hsum, hpq,
    List.length_append]
  simp only [List.length_cons, List.length_nil]
  omega

theorem tickFilter_budget (st : AState) :
    entryBudget (tickFilter st) = entryBudget st := rfl

/-- The pre-gate part of a tick does not create or lose entries. -/
theorem tickCore_budget (reorder : List Flight → List Flight)
    (hperm : ∀ l, (reorder l).Perm l) (st : AState)
    (hval : ∀ f ∈ st.inflight, f.1 < st.srcs.length)
    (hlivev : ∀ i ∈ st.live, i < st.srcs.length) :
    entryBudget (tickCore reorder st) = entryBudget st := by
  have hkey : ∀ st1 : AState, entryBudget st1 = entryBudget st →
      (∀ f ∈ st1.inflight, f.1 < st1.srcs.length) →
      entryBudget (if st1.inflight.length ≠ 0 ∧
          (st.maxSize ≤ st.pq.length + st.inflight.length ∨
            50 ≤ st.inflight.length ∨ allSourcesAreLoading st1 = true)
        then processBatch (reorder st1.inflight) { st1 with inflight := [] }
        else st1) = entryBudget st := by
    intro st1 hbud hval1
    by_cases hb : st1.inflight.length ≠ 0 ∧
        (st.maxSize ≤ st.pq.length + st.inflight.length ∨
          50 ≤ st.inflight.length ∨ allSourcesAreLoading st1 = true)
    · rw [if_pos hb]
      have hv2 : ∀ f ∈ reorder st1.inflight,
          f.1 < ({ st1 with inflight := [] } : AState).srcs.length := by
        intro f hf
        exact hval1 f ((hperm st1.inflight).mem_iff.mp hf)
      have h1 := processBatch_budgetWith (reorder st1.inflight)
        { st1 with inflight := [] } hv2
      have h2 : budgetWith ({ st1 with inflight := [] } : AState)
          (reorder st1.inflight) = budgetWith st1 st1.inflight := by
        have h3 := budgetWith_perm ({ st1 with inflight := [] } : AState)
          (reorder st1.inflight) st1.inflight (hperm st1.inflight)
        rw [h3]
        rfl
      show budgetWith (processBatch (reorder st1.inflight)
        { st1 with inflight := [] })
        (processBatch (reorder st1.inflight)
          { st1 with inflight := [] }).inflight = entryBudget st
      rw [processBatch_inflight]
      show budgetWith _ (({ st1 with inflight := [] } : AState).inflight) =
        entryBudget st
      calc budgetWith (processBatch (reorder st1.inflight)
            { st1 with inflight := [] }) [] =
          budgetWith ({ st1 with inflight := [] } : AState)
            (reorder st1.inflight) := h1
        _ = budgetWith st1 st1.inflight := h2
        _ = entryBudget st := hbud
    · rw [if_neg hb]
      exact hbud
  have hmain : ∀ st1 : AState,
      (st1 = if st.maxSize ≤ st.pq.length + st.inflight.length then st
        else addNextLogToQueue st) →
      entryBudget st1 = entryBudget st ∧
        (∀ f ∈ st1.inflight, f.1 < st1.srcs.length) := by
    intro st1 hdef
    by_cases hfp : st.maxSize ≤ st.pq.length + st.inflight.length
    · rw [if_pos hfp] at hdef
      subst hdef
      exact ⟨rfl, hval⟩
    · rw [if_neg hfp] at hdef
      rcases addNext_cases st with hid | ⟨i, hfind, heq⟩
      · rw [hid] at hdef
        subst hdef
        exact ⟨rfl, hval⟩
      · rw [heq] at hdef
        subst hdef
        have hmem := findNext_mem st i hfind
        have hless : i < st.srcs.length := hlivev i hmem
        refine ⟨queueLog_budget st i hless, ?_⟩
        intro f hf
        rw [queueLog_inflight] at hf
        rw [queueLog_srcs_length]
        rcases List.mem_append.mp hf with hold | hnew
        · exact hval f hold
        · simp only [List.mem_singleton] at hnew
          subst hnew
          exact hless
  obtain ⟨hbud1, hval1⟩ := hmain _ rfl
  have := hkey _ hbud1 hval1
  simpa [tickCore] using this

/-- One tick of the driver loop does not create or lose entries. -/
theorem tick_budget (reorder : List Flight → List Flight)
    (hperm : ∀ l, (reorder l).Perm l) (st st2 : AState)
    (hInv : SchedInv st) (htick : tick reorder st = .ok st2) :
    entryBudget st2 = entryBudget st := by
  have hcore := tickCore_budget reorder hperm st
    (hInv.toInvA.fl_valid)
    (fun i hi => List.mem_range.mp (hInv.toInvA.live_sub.subset hi))
  by_cases hthrow : st.maxSize < st.pq.length
  · simp only [tick, if_pos hthrow] at htick
    cases htick
  · simp only [tick, if_neg hthrow] at htick
    by_cases hg : allSourcesHaveBeenRead (tickCore reorder st) = true
    · rw [if_pos hg] at htick
      cases hpq : (tickCore reorder st).pq with
      | nil =>
        rw [hpq] at htick
        cases htick
      | cons c rest =>
        rw [hpq] at htick
        cases htick
        rw [tickFilter_budget, printNext_budget c rest _ hpq]
        exact hcore
    · rw [if_neg hg] at htick
      cases htick
      rw [tickFilter_budget]
      exact hcore

/-- Every reachable state holds exactly the entries of the input. -/
theorem steps_budget (rs : ReorderSeq) (hrs : ValidReorder rs) :
    ∀ (n : Nat) (st st2 : AState), SchedInv st →
      steps rs n st = .ok st2 → entryBudget st2 = entryBudget st := by
  intro n
  induction n with
  | zero =>
    intro st st2 h hstep
    cases hstep
    rfl
  | succ m ih =>
    intro st st2 h hstep
    rw [steps] at hstep
    by_cases hc : continueLoop st = true
    · rw [if_pos hc] at hstep
      obtain ⟨st1, htick, hinv1, _⟩ := tick_sched (rs st.tickNo)
        (hrs st.tickNo) st h hc
      rw [htick] at hstep
      have h1 := tick_budget (rs st.tickNo) (hrs st.tickNo) st st1 h htick
      have h2 := ih st1 st2 hinv1 hstep
      omega
    · rw [if_neg hc] at hstep
      cases hstep
      rfl

theorem entryBudget_eq (st : AState) :
    entryBudget st = st.printed.length + (st.pq.length +
      st.inflight.countP (fun f => f.2.isSome) + srcsSum st) := by
  unfold entryBudget budgetWith
  omega

theorem initAsync_budget (sources : List (List LogEntry)) :
    entryBudget (initAsync sources) = (sources.map List.length).sum := by
  unfold entryBudget budgetWith srcsSum initAsync
  simp only [List.length_nil, List.countP_nil, List.map_map, Nat.zero_add]
  rfl

theorem continueLoop_false (st : AState) (h : continueLoop st = false) :
    st.live = [] ∧ st.pq = [] := by
  unfold continueLoop at h
  simp only [Bool.or_eq_false_iff, Bool.not_eq_false', List.isEmpty_iff] at h
  exact h

/-- When the loop exits, every entry of the input has been printed: the
working list and queue are empty, hence every source is drained and read
out, and any leftover promises carry only exhausted signals. -/
theorem terminal_printed (sources : List (List LogEntry)) (rs : ReorderSeq)
    (hrs : ValidReorder rs) (n : Nat) (st : AState)
    (h : steps rs n (initAsync sources) = .ok st)
    (hdone : continueLoop st = false) :
    st.printed.length = (sources.map List.length).sum := by
  have hsched := steps_inv sources rs hrs n st h
  have hbud := steps_budget rs hrs n (initAsync sources) st
    (inv_init sources) h
  obtain ⟨hlive, hpq⟩ := continueLoop_false st hdone
  have hdr : ∀ i, i < st.srcs.length → (st.getSrc i).drained = true := by
    intro i hi
    cases hd : (st.getSrc i).drained with
    | true => rfl
    | false =>
      have := hsched.toInvA.live_compl i hi hd
      rw [hlive] at this
      cases this
  have hsum : srcsSum st = 0 := by
    unfold srcsSum
    refine List.sum_eq_zero ?_
    intro x hx
    obtain ⟨s, hs, hxs⟩ := List.mem_map.mp hx
    obtain ⟨i, hi⟩ := List.mem_iff_get.mp hs
    have hgi : st.getSrc ↑i = s := by
      unfold AState.getSrc
      rw [List.getD_eq_getElem st.srcs defaultASrc i.isLt]
      rw [← hi]
      exact (List.get_eq_getElem st.srcs i).symm
    have hrem : s.remaining = [] := by
      rw [← hgi]
      exact hsched.toInvA.drained_rem ↑i (hdr ↑i i.isLt)
    rw [← hxs]
    simp [hrem]
  have hcnt : st.inflight.countP (fun f => f.2.isSome) = 0 := by
    rw [List.countP_eq_zero]
    intro f hf
    have hv := hsched.toInvA.fl_valid f hf
    have := (hsched.toInvA.fl_none_iff f hf).mpr (hdr f.1 hv)
    rw [this]
    simp
  have hinit := initAsync_budget sources
  have heq := entryBudget_eq st
  rw [hpq] at heq
  simp only [List.length_nil] at heq
  omega

/-! ### Termination of the driver loop -/

/-- Entries not yet printed: resident in the queue, value-bearing in flight,
or still inside a source. -/
def pendingCount (st : AState) : Nat :=
  st.pq.length + st.inflight.countP (fun f => f.2.isSome) + srcsSum st

/-- Working-list sources with no fetch in flight. -/
def idleCount (st : AState) : Nat :=
  (st.live.filter (fun i => !(st.getSrc i).loading)).length

/-- Lexicographic termination measure of the driver loop: pending entries,
then live sources, then gate blockers, then idle sources, packed in base
`srcs.length + 1`. -/
def asyncMeasure (st : AState) : Nat :=
  ((pendingCount st * (st.srcs.length + 1) + st.live.length) *
      (st.srcs.length + 1) + znl st) * (st.srcs.length + 1) + idleCount st

theorem lex_base (B x y c c2 : Nat) (hxy : x < y) (hc : c < B) :
    x * B + c < y * B + c2 := by
  have h1 : (x + 1) * B = x * B + B := by ring
  have h2 : (x + 1) * B ≤ y * B := Nat.mul_le_mul_right B hxy
  omega

theorem pendingCount_eq (st : AState) :
    entryBudget st = st.printed.length + pendingCount st := by
  unfold entryBudget budgetWith pendingCount
  omega

theorem resolveFlight_drained (st : AState) (f : Flight) (j : Nat) :
    ((resolveFlight st f).getSrc j).drained = (st.getSrc j).drained := by
  obtain ⟨i, v⟩ := f
  by_cases hij : j = i
  · subst hij
    by_cases hlt : j < st.srcs.length
    · cases v with
      | some e => rw [resolveFlight_some_getSrc_self st j e hlt]
      | none => rw [resolveFlight_none_getSrc_self st j hlt]
    · have h1 : st.srcs.length ≤ j := Nat.not_lt.mp hlt
      have h2 : (resolveFlight st (j, v)).srcs.length ≤ j := by
        rw [resolveFlight_srcs_length]
        exact h1
      rw [getSrc_oob _ _ h2, getSrc_oob _ _ h1]
  · cases v with
    | some e => rw [resolveFlight_some_getSrc_ne st i e j hij]
    | none => rw [resolveFlight_none_getSrc_ne st i j hij]

theorem addNext_srcs_length (st : AState) :
    (addNextLogToQueue st).srcs.length = st.srcs.length := by
  unfold addNextLogToQueue
  cases h : findNextLogSourceToQueue st with
  | none => rfl
  | some i => exact queueLog_srcs_length st i

theorem processBatch_srcs_length :
    ∀ (l : List Flight) (st : AState),
      (processBatch l st).srcs.length = st.srcs.length := by
  intro l
  induction l with
  | nil => intro st; rfl
  | cons f rest ih =>
    intro st
    show (processBatch rest (resolveFlight st f)).srcs.length = _
    rw [ih, resolveFlight_srcs_length]

theorem processBatch_drained :
    ∀ (l : List Flight) (st : AState) (j : Nat),
      ((processBatch l st).getSrc j).drained = (st.getSrc j).drained := by
  intro l
  induction l with
  | nil => intro st j; rfl
  | cons f rest ih =>
    intro st j
    show ((processBatch rest (resolveFlight st f)).getSrc j).drained = _
    rw [ih, resolveFlight_drained]

theorem resolveFlight_resident_mono (st : AState) (f : Flight) (j : Nat) :
    residentCount st j ≤ residentCount (resolveFlight st f) j := by
  obtain ⟨i, v⟩ := f
  cases v with
  | some e =>
    unfold residentCount
    rw [resolveFlight_some_pq,
      (List.perm_orderedInsert candLE (e, i) st.pq).countP_eq,
      List.countP_cons]
    omega
  | none =>
    unfold residentCount
    rw [resolveFlight_none_pq]

theorem processBatch_resident_mono (j : Nat) :
    ∀ (l : List Flight) (st : AState),
      residentCount st j ≤ residentCount (processBatch l st) j := by
  intro l
  induction l with
  | nil => intro st; exact le_refl _
  | cons f rest ih =>
    intro st
    exact le_trans (resolveFlight_resident_mono st f j) (ih _)

theorem processBatch_real_resident (j : Nat) (e : LogEntry) :
    ∀ (l : List Flight) (st : AState), (j, some e) ∈ l →
      1 ≤ residentCount (processBatch l st) j := by
  intro l
  induction l with
  | nil => intro st hm; cases hm
  | cons f rest ih =>
    intro st hm
    show 1 ≤ residentCount (processBatch rest (resolveFlight st f)) j
    rcases List.mem_cons.mp hm with hfe | hm2
    · have h1 : 1 ≤ residentCount (resolveFlight st (j, some e)) j := by
        unfold residentCount
        rw [resolveFlight_some_pq,
          (List.perm_orderedInsert candLE (e, j) st.pq).countP_eq,
          List.countP_cons]
        simp
      rw [← hfe]
      exact le_trans h1 (processBatch_resident_mono j rest _)
    · exact ih _ hm2

theorem length_filter_lt (l : List Nat) (p : Nat → Bool) (x : Nat)
    (hx : x ∈ l) (hpx : p x = false) :
    (l.filter p).length < l.length := by
  induction l with
  | nil => cases hx
  | cons a rest ih =>
    rw [List.filter_cons]
    rcases List.mem_cons.mp hx with rfl | hm
    · rw [hpx]
      have h := List.length_filter_le p rest
      rw [if_neg (by simp : ¬ (false = true)), List.length_cons]
      omega
    · cases hpa : p a with
      | false =>
        rw [if_neg (by simp : ¬ (false = true)), List.length_cons]
        exact Nat.lt_succ_of_lt (ih hm)
      | true =>
        rw [if_pos rfl, List.length_cons, List.length_cons]
        exact Nat.succ_lt_succ (ih hm)

theorem allRead_false (st : AState) (h : allSourcesHaveBeenRead st = false) :
    ∃ w ∈ st.live, ¬ (0 < (st.getSrc w).bufferCount) := by
  unfold allSourcesHaveBeenRead at h
  rw [List.all_eq_false] at h
  obtain ⟨w, hw, hnp⟩ := h
  exact ⟨w, hw, by simpa using hnp⟩

theorem tickFilter_znl (st : AState) : znl (tickFilter st) = znl st := by
  rw [znl_eq_filter, znl_eq_filter]
  show ((st.live.filter (fun i => !(st.getSrc i).drained)).filter
    (znlP st)).length = (st.live.filter (znlP st)).length
  rw [List.filter_filter]
  refine congrArg List.length (List.filter_congr ?_)
  intro j _
  cases hd : (st.getSrc j).drained <;> simp [znlP, hd]

theorem tickCore_srcs_length (reorder : List Flight → List Flight)
    (st : AState) :
    (tickCore reorder st).srcs.length = st.srcs.length := by
  by_cases hFull : st.maxSize ≤ st.pq.length + st.inflight.length
  · simp only [tickCore]
    rw [if_pos hFull]
    split
    · rw [processBatch_srcs_length]
    · rfl
  · simp only [tickCore]
    rw [if_neg hFull]
    split
    · rw [processBatch_srcs_length]
      exact addNext_srcs_length st
    · exact addNext_srcs_length st

theorem tick_srcs_length (reorder : List Flight → List Flight)
    (st st2 : AState) (htick : tick reorder st = .ok st2) :
    st2.srcs.length = st.srcs.length := by
  by_cases hthrow : st.maxSize < st.pq.length
  · simp only [tick, if_pos hthrow] at htick
    cases htick
  · simp only [tick, if_neg hthrow] at htick
    by_cases hg : allSourcesHaveBeenRead (tickCore reorder st) = true
    · rw [if_pos hg] at htick
      cases hpq : (tickCore reorder st).pq with
      | nil =>
        rw [hpq] at htick
        cases htick
      | cons c rest =>
        rw [hpq] at htick
        cases htick
        show (tickFilter _).srcs.length = _
        rw [show (tickFilter (printNextLogFromQueue c rest
            (tickCore reorder st))).srcs.length =
          (printNextLogFromQueue c rest (tickCore reorder st)).srcs.length
          from rfl]
        rw [printNext_srcs_length]
        exact tickCore_srcs_length reorder st
    · rw [if_neg hg] at htick
      cases htick
      exact tickCore_srcs_length reorder st

theorem resolveFlight_getSrc_ne (st : AState) (f : Flight) (j : Nat)
    (h : j ≠ f.1) : (resolveFlight st f).getSrc j = st.getSrc j := by
  obtain ⟨i, v⟩ := f
  cases v with
  | some e => exact resolveFlight_some_getSrc_ne st i e j h
  | none => exact resolveFlight_none_getSrc_ne st i j h

theorem processBatch_getSrc_not_mem :
    ∀ (l : List Flight) (st : AState) (j : Nat), j ∉ l.map Prod.fst →
      (processBatch l st).getSrc j = st.getSrc j := by
  intro l
  induction l with
  | nil => intro st j _; rfl
  | cons f rest ih =>
    intro st j hj
    have hj1 : j ≠ f.1 := fun he =>
      hj (by rw [List.map_cons, he]; exact List.mem_cons_self _ _)
    have hj2 : j ∉ rest.map Prod.fst := fun hm =>
      hj (by rw [List.map_cons]; exact List.mem_cons_of_mem _ hm)
    show (processBatch rest (resolveFlight st f)).getSrc j = st.getSrc j
    rw [ih _ _ hj2, resolveFlight_getSrc_ne st f j hj1]

theorem znlP_false_of_resident (st : AState) (hInv : InvA st) (j : Nat)
    (h : 1 ≤ residentCount st j) : znlP st j = false := by
  have hne : decide ((st.getSrc j).bufferCount = 0) = false := by
    rw [decide_eq_false_iff_not, hInv.bc_count j]
    omega
  unfold znlP
  rw [hne]
  simp

theorem znlP_true_of (st : AState) (hInv : InvA st) (j : Nat)
    (hd : (st.getSrc j).drained = false) (hl : (st.getSrc j).loading = false)
    (hr : residentCount st j = 0) : znlP st j = true := by
  simp [znlP, hd, hl, hInv.bc_count j, hr]

theorem znl_pos_of (st : AState) (hInv : InvA st) (w : Nat) (hw : w ∈ st.live)
    (hd : (st.getSrc w).drained = false) (hl : (st.getSrc w).loading = false)
    (hr : residentCount st w = 0) : 1 ≤ znl st := by
  rw [znl_eq_filter]
  have hm : w ∈ st.live.filter (znlP st) :=
    List.mem_filter.mpr ⟨hw, znlP_true_of st hInv w hd hl hr⟩
  exact List.length_pos.mpr (List.ne_nil_of_mem hm)

theorem noread_resident (st mid : AState) (hmlive : mid.live = st.live)
    (hbc : ∀ i, (mid.getSrc i).bufferCount = (residentCount mid i : Int))
    (hg : allSourcesHaveBeenRead mid = false) :
    ∃ w ∈ st.live, residentCount mid w = 0 := by
  obtain ⟨w, hw, hb⟩ := allRead_false mid hg
  rw [hmlive] at hw
  refine ⟨w, hw, ?_⟩
  have := hbc w
  omega

theorem live_notloading_of_nobatch (st : AState) (hInv : SchedInv st)
    (w : Nat) (hw : w ∈ st.live)
    (hnb : ∀ e2 : LogEntry, (w, some e2) ∉ st.inflight) :
    (st.getSrc w).loading = false := by
  cases hlw : (st.getSrc w).loading with
  | false => rfl
  | true =>
    exfalso
    have hmem := (hInv.toInvA.load_iff w).mp hlw
    obtain ⟨f, hf, hf1⟩ := List.mem_map.mp hmem
    cases hv : f.2 with
    | none =>
      have hd := (hInv.toInvA.fl_none_iff f hf).mp hv
      rw [hf1] at hd
      exact absurd (hInv.live_nondrained w hw) (by rw [hd]; simp)
    | some e2 =>
      refine hnb e2 ?_
      have hfe : f = (w, some e2) := by
        rw [← hf1, ← hv]
      rw [← hfe]
      exact hf

/-- In a tick that ends without emission and without draining any working
source, either a blocked source got its fetch issued at the barrier (the
blocker count drops) or an idle source started loading (the idle count
drops); the remaining shapes of the tick are impossible. -/
theorem tickCore_noemit_key (reorder : List Flight → List Flight)
    (hperm : ∀ l, (reorder l).Perm l) (st : AState) (hInv : SchedInv st)
    (hg : allSourcesHaveBeenRead (tickCore reorder st) = false)
    (hdr : ∀ i ∈ st.live, ((tickCore reorder st).getSrc i).drained = false) :
    (st.live.filter (znlP (tickCore reorder st))).length < znl st ∨
      ((st.live.filter (znlP (tickCore reorder st))).length = znl st ∧
        (st.live.filter
          (fun i => !((tickCore reorder st).getSrc i).loading)).length <
          idleCount st) := by
  obtain ⟨hmidInv, hmid50, hmidlive, hmidprinted, hmidpq⟩ :=
    tickCore_facts reorder hperm st hInv
  have hnd : st.live.Nodup := hInv.toInvA.live_sub.nodup (List.nodup_range _)
  by_cases hFull : st.maxSize ≤ st.pq.length + st.inflight.length
  · exfalso
    by_cases hinfl : st.inflight.length = 0
    · have hmid : tickCore reorder st = st := by
        simp only [tickCore]
        rw [if_pos hFull, if_neg (fun hcond => hcond.1 hinfl)]
      rw [hmid] at hg
      obtain ⟨w, hw, hres0⟩ :=
        noread_resident st st rfl hInv.toInvA.bc_count hg
      have hnb : ∀ e2 : LogEntry, (w, some e2) ∉ st.inflight := by
        intro e2 hm
        rw [List.length_eq_zero.mp hinfl] at hm
        cases hm
      have hwl := live_notloading_of_nobatch st hInv w hw hnb
      have hz1 := znl_pos_of st hInv.toInvA w hw
        (hInv.live_nondrained w hw) hwl hres0
      have h3 := hInv.toInvA.inv3
      omega
    · have hmid : tickCore reorder st =
          processBatch (reorder st.inflight) { st with inflight := [] } := by
        simp only [tickCore]
        rw [if_pos hFull, if_pos ⟨hinfl, Or.inl hFull⟩]
      obtain ⟨w, hw, hres0⟩ := noread_resident st (tickCore reorder st)
        hmidlive hmidInv.bc_count hg
      have hnb : ∀ e2 : LogEntry, (w, some e2) ∉ st.inflight := by
        intro e2 hm
        have hm2 : (w, some e2) ∈ reorder st.inflight :=
          (hperm st.inflight).mem_iff.mpr hm
        have := processBatch_real_resident w e2 (reorder st.inflight)
          { st with inflight := [] } hm2
        rw [← hmid] at this
        omega
      have hwl := live_notloading_of_nobatch st hInv w hw hnb
      have hwres : residentCount st w = 0 := by
        have hmono := processBatch_resident_mono w (reorder st.inflight)
          { st with inflight := [] }
        rw [← hmid] at hmono
        have he : residentCount { st with inflight := [] } w
            = residentCount st w := rfl
        omega
      have hz1 := znl_pos_of st hInv.toInvA w hw
        (hInv.live_nondrained w hw) hwl hwres
      have h3 := hInv.toInvA.inv3
      omega
  · cases hfn : findNextLogSourceToQueue st with
    | none =>
      exfalso
      have hst1 : addNextLogToQueue st = st := by
        unfold addNextLogToQueue
        rw [hfn]
      have hall := findNext_none st hfn
      cases hl : st.live with
      | nil =>
        have hgt : allSourcesHaveBeenRead (tickCore reorder st) = true := by
          unfold allSourcesHaveBeenRead
          rw [hmidlive, hl]
          rfl
        rw [hgt] at hg
        cases hg
      | cons u rest =>
        have hul : (st.getSrc u).loading = true := by
          apply hall
          rw [hl]
          exact List.mem_cons_self u rest
        have humem := (hInv.toInvA.load_iff u).mp hul
        have hinfl : st.inflight.length ≠ 0 := by
          intro h0
          rw [List.length_eq_zero.mp h0] at humem
          simp at humem
        have hals : allSourcesAreLoading st = true := by
          unfold allSourcesAreLoading
          rw [List.all_eq_true]
          exact hall
        have hmid : tickCore reorder st =
            processBatch (reorder st.inflight) { st with inflight := [] } := by
          simp only [tickCore]
          rw [if_neg hFull, hst1, if_pos ⟨hinfl, Or.inr (Or.inr hals)⟩]
        obtain ⟨w, hw, hres0⟩ := noread_resident st (tickCore reorder st)
          hmidlive hmidInv.bc_count hg
        have hnb : ∀ e2 : LogEntry, (w, some e2) ∉ st.inflight := by
          intro e2 hm
          have hm2 : (w, some e2) ∈ reorder st.inflight :=
            (hperm st.inflight).mem_iff.mpr hm
          have := processBatch_real_resident w e2 (reorder st.inflight)
            { st with inflight := [] } hm2
          rw [← hmid] at this
          omega
        have hwl := live_notloading_of_nobatch st hInv w hw hnb
        rw [hall w hw] at hwl
        cases hwl
    | some t =>
      have hst1 : addNextLogToQueue st = queueLogFromSource st t := by
        unfold addNextLogToQueue
        rw [hfn]
      have htl : t ∈ st.live := findNext_mem st t hfn
      have htnl : (st.getSrc t).loading = false :=
        findNext_not_loading st t hfn
      have htd : (st.getSrc t).drained = false := hInv.live_nondrained t htl
      have htv : t < st.srcs.length :=
        List.mem_range.mp (hInv.toInvA.live_sub.subset htl)
      cases hrem : (st.getSrc t).remaining with
      | nil =>
        exfalso
        have h1 : ((queueLogFromSource st t).getSrc t).drained = true := by
          rw [queueLog_getSrc_self_nil st t htv hrem]
        have h2 : ((tickCore reorder st).getSrc t).drained = true := by
          simp only [tickCore]
          rw [if_neg hFull, hst1]
          split
          · rw [processBatch_drained]
            exact h1
          · exact h1
        rw [hdr t htl] at h2
        cases h2
      | cons e rest0 =>
        have hhead : (st.getSrc t).remaining.head? = some e := by
          rw [hrem]
          rfl
        have hflight : (t, some e) ∈ (queueLogFromSource st t).inflight := by
          rw [queueLog_inflight, hhead]
          exact List.mem_append_right _ (List.mem_cons_self _ _)
        by_cases hbar : 50 ≤ st.inflight.length ∨
            allSourcesAreLoading (queueLogFromSource st t) = true
        · have hlen1 : (queueLogFromSource st t).inflight.length ≠ 0 := by
            rw [queueLog_inflight]
            simp
          have hmid : tickCore reorder st =
              processBatch (reorder (queueLogFromSource st t).inflight)
                { queueLogFromSource st t with inflight := [] } := by
            simp only [tickCore]
            rw [if_neg hFull, hst1, if_pos ⟨hlen1, Or.inr hbar⟩]
          obtain ⟨w, hw, hres0⟩ := noread_resident st (tickCore reorder st)
            hmidlive hmidInv.bc_count hg
          have hnbw : ∀ e2 : LogEntry, (w, some e2) ∉ st.inflight := by
            intro e2 hm
            have hm2 : (w, some e2) ∈
                reorder (queueLogFromSource st t).inflight := by
              apply (hperm _).mem_iff.mpr
              rw [queueLog_inflight]
              exact List.mem_append_left _ hm
            have := processBatch_real_resident w e2
              (reorder (queueLogFromSource st t).inflight)
              { queueLogFromSource st t with inflight := [] } hm2
            rw [← hmid] at this
            omega
          have hwl := live_notloading_of_nobatch st hInv w hw hnbw
          have hwres : residentCount st w = 0 := by
            have hmono := processBatch_resident_mono w
              (reorder (queueLogFromSource st t).inflight)
              { queueLogFromSource st t with inflight := [] }
            rw [← hmid] at hmono
            have he : residentCount
                { queueLogFromSource st t with inflight := [] } w
                = residentCount st w := by
              show (queueLogFromSource st t).pq.countP _ = st.pq.countP _
              rw [queueLog_pq]
            omega
          have hwbc : (st.getSrc w).bufferCount = 0 := by
            rw [hInv.toInvA.bc_count w, hwres]
            rfl
          have ht0 : (st.getSrc t).bufferCount = 0 := by
            obtain ⟨j, hj, _, _, hjbc⟩ := findNext_zero st ⟨w, hw, hwl, hwbc⟩
            rw [hfn] at hj
            rw [Option.some.inj hj]
            exact hjbc
          have htz : znlP st t = true :=
            znlP_true_of st hInv.toInvA t htd htnl (by
              have := hInv.toInvA.bc_count t
              omega)
          have hmt : 1 ≤ residentCount (tickCore reorder st) t := by
            rw [hmid]
            exact processBatch_real_resident t e _ _
              ((hperm _).mem_iff.mpr hflight)
          have hmzt : znlP (tickCore reorder st) t = false :=
            znlP_false_of_resident _ hmidInv t hmt
          have hpt : ∀ j ∈ st.live, j ≠ t →
              znlP (tickCore reorder st) j = znlP st j := by
            intro j hj hjt
            by_cases hjl : (st.getSrc j).loading = true
            · have hmemj := (hInv.toInvA.load_iff j).mp hjl
              obtain ⟨f, hf, hf1⟩ := List.mem_map.mp hmemj
              cases hv : f.2 with
              | none =>
                have hd2 := (hInv.toInvA.fl_none_iff f hf).mp hv
                rw [hf1] at hd2
                exact absurd (hInv.live_nondrained j hj) (by rw [hd2]; simp)
              | some e2 =>
                have hfe : f = (j, some e2) := by rw [← hf1, ← hv]
                have hjm : 1 ≤ residentCount (tickCore reorder st) j := by
                  rw [hmid]
                  apply processBatch_real_resident j e2
                  apply (hperm _).mem_iff.mpr
                  rw [queueLog_inflight]
                  apply List.mem_append_left
                  rw [← hfe]
                  exact hf
                rw [znlP_false_of_resident _ hmidInv j hjm]
                have hstf : znlP st j = false := by
                  unfold znlP
                  rw [hjl]
                  simp
                rw [hstf]
            · have hjl2 : (st.getSrc j).loading = false := by
                cases h2 : (st.getSrc j).loading
                · rfl
                · exact absurd h2 hjl
              have hnm : j ∉
                  (reorder (queueLogFromSource st t).inflight).map Prod.fst := by
                intro hmem
                obtain ⟨f, hf, hf1⟩ := List.mem_map.mp hmem
                have hf2 : f ∈ (queueLogFromSource st t).inflight :=
                  (hperm _).mem_iff.mp hf
                rw [queueLog_inflight] at hf2
                rcases List.mem_append.mp hf2 with hfl | hfr
                · have hload : (st.getSrc j).loading = true := by
                    apply (hInv.toInvA.load_iff j).mpr
                    rw [← hf1]
                    exact List.mem_map_of_mem Prod.fst hfl
                  rw [hjl2] at hload
                  cases hload
                · have hfe : f = (t, (st.getSrc t).remaining.head?) := by
                    simpa using hfr
                  rw [hfe] at hf1
                  simp at hf1
                  omega
              have hgj : (tickCore reorder st).getSrc j = st.getSrc j := by
                rw [hmid, processBatch_getSrc_not_mem _ _ j hnm]
                exact queueLog_getSrc_ne st t j hjt
              unfold znlP
              rw [hgj]
          left
          have hcount := length_filter_update_false st.live hnd (znlP st)
            (znlP (tickCore reorder st)) t htl hpt htz hmzt
          rw [znl_eq_filter]
          omega
        · have hnb2 : ¬((queueLogFromSource st t).inflight.length ≠ 0 ∧
              (st.maxSize ≤ st.pq.length + st.inflight.length ∨
                50 ≤ st.inflight.length ∨
                allSourcesAreLoading (queueLogFromSource st t) = true)) := by
            intro hcond
            rcases hcond.2 with h | h | h
            · exact hFull h
            · exact hbar (Or.inl h)
            · exact hbar (Or.inr h)
          have hmid : tickCore reorder st = queueLogFromSource st t := by
            simp only [tickCore]
            rw [if_neg hFull, hst1, if_neg hnb2]
          have hmzt : znlP (tickCore reorder st) t = false := by
            unfold znlP
            rw [hmid, queueLog_getSrc_self_cons st t htv e rest0 hrem]
            simp
          have hpt : ∀ j ∈ st.live, j ≠ t →
              znlP (tickCore reorder st) j = znlP st j := by
            intro j _ hjt
            unfold znlP
            rw [hmid, queueLog_getSrc_ne st t j hjt]
          by_cases htz : znlP st t = true
          · left
            have hcount := length_filter_update_false st.live hnd (znlP st)
              (znlP (tickCore reorder st)) t htl hpt htz hmzt
            rw [znl_eq_filter]
            omega
          · right
            have htzf : znlP st t = false := by
              cases h2 : znlP st t
              · rfl
              · exact absurd h2 htz
            constructor
            · rw [znl_eq_filter]
              refine congrArg List.length (List.filter_congr ?_)
              intro j hj
              by_cases hjt : j = t
              · subst hjt
                rw [hmzt, htzf]
              · exact hpt j hj hjt
            · have hqt : (fun i =>
                  !((tickCore reorder st).getSrc i).loading) t = false := by
                show (!((tickCore reorder st).getSrc t).loading) = false
                rw [hmid, queueLog_getSrc_self_cons st t htv e rest0 hrem]
                simp
              have hptl : ∀ j ∈ st.live, j ≠ t →
                  (fun i => !((tickCore reorder st).getSrc i).loading) j
                    = (fun i => !(st.getSrc i).loading) j := by
                intro j _ hjt
                show (!((tickCore reorder st).getSrc j).loading)
                  = (!(st.getSrc j).loading)
                rw [hmid, queueLog_getSrc_ne st t j hjt]
              have hptt : (fun i => !(st.getSrc i).loading) t = true := by
                show (!(st.getSrc t).loading) = true
                rw [htnl]
                rfl
              have hcount := length_filter_update_false st.live hnd
                (fun i => !(st.getSrc i).loading)
                (fun i => !((tickCore reorder st).getSrc i).loading)
                t htl hptl hptt hqt
              unfold idleCount
              omega

/-- Every successful tick of a continuing run strictly decreases the
termination measure. -/
theorem tick_measure (reorder : List Flight → List Flight)
    (hperm : ∀ l, (reorder l).Perm l) (st st2 : AState)
    (hInv : SchedInv st) (hc : continueLoop st = true)
    (htick : tick reorder st = .ok st2) :
    asyncMeasure st2 < asyncMeasure st := by
  obtain ⟨st2x, htickx, hInv2, hprintlen⟩ :=
    tick_sched reorder hperm st hInv hc
  rw [htick] at htickx
  have hx : st2 = st2x := Except.ok.inj htickx
  subst hx
  have hlen : st2.srcs.length = st.srcs.length :=
    tick_srcs_length reorder st st2 htick
  have hbud : entryBudget st2 = entryBudget st :=
    tick_budget reorder hperm st st2 hInv htick
  have hp1 := pendingCount_eq st
  have hp2 := pendingCount_eq st2
  have hliveK : st.live.length ≤ st.srcs.length := by
    have h := hInv.toInvA.live_sub.length_le
    rw [List.length_range] at h
    exact h
  have hlive2K : st2.live.length ≤ st.srcs.length := by
    have h := hInv2.toInvA.live_sub.length_le
    rw [List.length_range] at h
    omega
  have hznl2K : znl st2 ≤ st2.live.length := by
    rw [znl_eq_filter]
    exact List.length_filter_le _ _
  have hidle2K : idleCount st2 ≤ st2.live.length := by
    unfold idleCount
    exact List.length_filter_le _ _
  by_cases hg : allSourcesHaveBeenRead (tickCore reorder st) = true
  · rw [if_pos hg] at hprintlen
    have hpen : pendingCount st2 < pendingCount st := by omega
    unfold asyncMeasure
    rw [hlen]
    have hX := lex_base (st.srcs.length + 1) (pendingCount st2)
      (pendingCount st) st2.live.length st.live.length hpen (by omega)
    have hY := lex_base (st.srcs.length + 1) _ _ (znl st2) (znl st) hX
      (by omega)
    exact lex_base (st.srcs.length + 1) _ _ (idleCount st2) (idleCount st)
      hY (by omega)
  · rw [if_neg hg] at hprintlen
    have hpen : pendingCount st2 = pendingCount st := by omega
    have hthrow : ¬ (st.maxSize < st.pq.length) := by
      have := hInv.toInvA.size_le
      omega
    have hst2 : st2 = tickFilter (tickCore reorder st) := by
      simp only [tick, if_neg hthrow, if_neg hg] at htick
      exact (Except.ok.inj htick).symm
    obtain ⟨hmidInv, hmid50, hmidlive, hmidprinted, hmidpq⟩ :=
      tickCore_facts reorder hperm st hInv
    have hget2 : ∀ j, st2.getSrc j = (tickCore reorder st).getSrc j := by
      intro j
      rw [hst2]
      rfl
    have hlive_eq : st2.live = st.live.filter
        (fun i => !((tickCore reorder st).getSrc i).drained) := by
      rw [hst2]
      show (tickCore reorder st).live.filter _ = _
      rw [hmidlive]
    by_cases hdr : ∀ i ∈ st.live,
        ((tickCore reorder st).getSrc i).drained = false
    · have hfid : st.live.filter
          (fun i => !((tickCore reorder st).getSrc i).drained) = st.live :=
        List.filter_eq_self.mpr (fun i hi => by rw [hdr i hi]; rfl)
      have hlive2eq : st2.live = st.live := by rw [hlive_eq, hfid]
      have hznl2 : znl st2 =
          (st.live.filter (znlP (tickCore reorder st))).length := by
        rw [znl_eq_filter, hlive2eq]
        refine congrArg List.length (List.filter_congr ?_)
        intro j _
        unfold znlP
        rw [hget2 j]
      have hidle2 : idleCount st2 = (st.live.filter
          (fun i => !((tickCore reorder st).getSrc i).loading)).length := by
        unfold idleCount
        rw [hlive2eq]
        refine congrArg List.length (List.filter_congr ?_)
        intro j _
        rw [hget2 j]
      rcases tickCore_noemit_key reorder hperm st hInv
        (Bool.not_eq_true _ ▸ Bool.of_not_eq_true hg) hdr with
        hkz | ⟨hke, hki⟩
      · have hz : znl st2 < znl st := by
          rw [hznl2]
          exact hkz
        unfold asyncMeasure
        rw [hlen, hpen, hlive2eq]
        have hxy : (pendingCount st * (st.srcs.length + 1) + st.live.length) *
            (st.srcs.length + 1) + znl st2 <
            (pendingCount st * (st.srcs.length + 1) + st.live.length) *
            (st.srcs.length + 1) + znl st := by omega
        exact lex_base (st.srcs.length + 1) _ _ (idleCount st2)
          (idleCount st) hxy (by omega)
      · have hz : znl st2 = znl st := by
          rw [hznl2]
          exact hke
        have hi : idleCount st2 < idleCount st := by
          rw [hidle2]
          exact hki
        unfold asyncMeasure
        rw [hlen, hpen, hlive2eq, hz]
        exact Nat.add_lt_add_left hi _
    · push_neg at hdr
      obtain ⟨i0, hi0, hi0d⟩ := hdr
      have hi0t : ((tickCore reorder st).getSrc i0).drained = true := by
        cases h2 : ((tickCore reorder st).getSrc i0).drained with
        | false => exact absurd h2 hi0d
        | true => rfl
      have hlive2lt : st2.live.length < st.live.length := by
        rw [hlive_eq]
        exact length_filter_lt st.live _ i0 hi0 (by rw [hi0t]; rfl)
      unfold asyncMeasure
      rw [hlen, hpen]
      have hxy : pendingCount st * (st.srcs.length + 1) + st2.live.length <
          pendingCount st * (st.srcs.length + 1) + st.live.length := by omega
      have hY := lex_base (st.srcs.length + 1) _ _ (znl st2) (znl st) hxy
        (by omega)
      exact lex_base (st.srcs.length + 1) _ _ (idleCount st2) (idleCount st)
        hY (by omega)

/-- With fuel above the measure, the driver loop reaches a state where
`continueLoop` is false. -/
theorem steps_terminates (rs : ReorderSeq) (hrs : ValidReorder rs) :
    ∀ (fuel : Nat) (st : AState), SchedInv st → asyncMeasure st < fuel →
      ∃ st2, steps rs fuel st = .ok st2 ∧ continueLoop st2 = false := by
  intro fuel
  induction fuel with
  | zero =>
    intro st _ hm
    exact absurd hm (Nat.not_lt_zero _)
  | succ n ih =>
    intro st hInv hm
    by_cases hc : continueLoop st = true
    · obtain ⟨st1, htick, hInv1, _⟩ :=
        tick_sched (rs st.tickNo) (hrs st.tickNo) st hInv hc
      have hlt := tick_measure (rs st.tickNo) (hrs st.tickNo) st st1
        hInv hc htick
      obtain ⟨st2, hsteps, hdone⟩ := ih st1 hInv1 (by omega)
      refine ⟨st2, ?_, hdone⟩
      rw [steps, if_pos hc, htick]
      exact hsteps
    · refine ⟨st, ?_, ?_⟩
      · rw [steps, if_neg hc]
      · cases h2 : continueLoop st with
        | false => rfl
        | true => exact absurd h2 hc

/-! ### Conservation for the synchronous merge -/

/-- Default source for out-of-range queue owners. -/
def defaultSS : SyncSource := ⟨[], true⟩

theorem getD_set_self_ss (l : List SyncSource) (i : Nat) (a : SyncSource)
    (h : i < l.length) : (l.set i a).getD i defaultSS = a := by
  simp [List.getD, List.getElem?_set_self, h]

theorem getD_set_ne_ss (l : List SyncSource) (i j : Nat) (a : SyncSource)
    (h : j ≠ i) : (l.set i a).getD j defaultSS = l.getD j defaultSS := by
  simp [List.getD, List.getElem?_set_ne (fun hc => h hc.symm)]

/-- Drained sources are exhausted, and a source with entries left always
keeps one candidate in the queue. -/
structure SyncInv (st : SyncState) : Prop where
  sdrained : ∀ i, (st.srcs.getD i defaultSS).drained = true →
    (st.srcs.getD i defaultSS).remaining = []
  sres : ∀ i, (st.srcs.getD i defaultSS).remaining ≠ [] →
    ∃ c ∈ st.pq, c.2 = i

/-- Entry count of a sync state: real printed logs, real queue candidates,
and entries still inside the sources. -/
def syncBudget (st : SyncState) : Nat :=
  (st.printed.filterMap id).length +
    st.pq.countP (fun c => c.1.isSome) +
    (st.srcs.map (fun s => s.remaining.length)).sum

theorem filterMap_id_append (p : List (Option LogEntry))
    (o : Option LogEntry) :
    ((p ++ [o]).filterMap id).length =
      (p.filterMap id).length + (if o.isSome then 1 else 0) := by
  rw [List.filterMap_append]
  cases o <;> simp

theorem syncStep_budget (st : SyncState) :
    syncBudget (syncStep st) = syncBudget st := by
  cases hpq : st.pq with
  | nil => rw [syncStep, hpq]
  | cons c rest =>
    cases hs : st.srcs.getD c.2 defaultSS with
    | mk rem dr =>
      cases dr with
      | true =>
        simp only [syncStep, hpq]
        rw [show st.srcs.getD c.2 ⟨[], true⟩ = ⟨rem, true⟩ from hs]
        unfold syncBudget
        simp only [hpq, List.countP_cons, filterMap_id_append]
        cases hc1 : c.1 <;> simp [hc1] <;> omega
      | false =>
        have hlt : c.2 < st.srcs.length := by
          apply getD_lt_of_ne_default
          rw [show st.srcs.getD c.2 ⟨[], true⟩ = ⟨rem, false⟩ from hs]
          intro hcontra
          cases hcontra
        cases rem with
        | nil =>
          have hsum := sum_remaining_set st.srcs c.2 ⟨[], true⟩ hlt
          rw [show st.srcs.getD c.2 ⟨[], true⟩ = ⟨[], false⟩ from hs]
            at hsum
          simp only [syncStep, hpq]
          rw [show st.srcs.getD c.2 ⟨[], true⟩ = ⟨[], false⟩ from hs]
          unfold syncBudget
          simp only [hpq, List.countP_cons, filterMap_id_append]
          simp only [List.length_nil] at hsum
          cases hc1 : c.1 <;> simp [hc1] at hsum ⊢ <;> omega
        | cons e erest =>
          have hsum := sum_remaining_set st.srcs c.2 ⟨erest, false⟩ hlt
          rw [show st.srcs.getD c.2 ⟨[], true⟩ = ⟨e :: erest, false⟩ from hs]
            at hsum
          simp only [syncStep, hpq]
          rw [show st.srcs.getD c.2 ⟨[], true⟩ = ⟨e :: erest, false⟩ from hs]
          unfold syncBudget
          simp only [hpq, List.countP_cons, filterMap_id_append,
            (List.perm_orderedInsert syncLE (some e, c.2) rest).countP_eq]
          simp only [List.length_cons] at hsum
          cases hc1 : c.1 <;> simp [hc1] at hsum ⊢ <;> omega

theorem syncStep_inv (st : SyncState) (hInv : SyncInv st) :
    SyncInv (syncStep st) := by
  cases hpq : st.pq with
  | nil => rw [syncStep, hpq]; exact hInv
  | cons c rest =>
    cases hs : st.srcs.getD c.2 defaultSS with
    | mk rem dr =>
      cases dr with
      | true =>
        have hrem : rem = [] := by
          have := hInv.sdrained c.2 (by rw [hs])
          rw [hs] at this
          exact this
        subst hrem
        simp only [syncStep, hpq]
        rw [show st.srcs.getD c.2 ⟨[], true⟩ = ⟨[], true⟩ from hs]
        refine ⟨hInv.sdrained, ?_⟩
        intro i hi
        obtain ⟨c2, hc2, hc2i⟩ := hInv.sres i hi
        rw [hpq] at hc2
        rcases List.mem_cons.mp hc2 with rfl | hm
        · exfalso
          rw [hc2i] at hs
          have := hInv.sdrained i (by rw [hs])
          rw [hs] at this hi
          exact hi this
        · exact ⟨c2, hm, hc2i⟩
      | false =>
        have hlt : c.2 < st.srcs.length := by
          apply getD_lt_of_ne_default
          rw [show st.srcs.getD c.2 ⟨[], true⟩ = ⟨rem, false⟩ from hs]
          intro hcontra
          cases hcontra
        cases rem with
        | nil =>
          simp only [syncStep, hpq,
            show st.srcs.getD c.2 ⟨[], true⟩ = ⟨[], false⟩ from hs]
          constructor
          · intro i hdi
            by_cases hic : i = c.2
            · subst hic
              rw [getD_set_self_ss _ _ _ hlt]
            · rw [getD_set_ne_ss _ _ _ _ hic] at hdi ⊢
              exact hInv.sdrained i hdi
          · intro i hi
            by_cases hic : i = c.2
            · subst hic
              rw [getD_set_self_ss _ _ _ hlt] at hi
              exact absurd rfl hi
            · rw [getD_set_ne_ss _ _ _ _ hic] at hi
              obtain ⟨c2, hc2, hc2i⟩ := hInv.sres i hi
              rw [hpq] at hc2
              rcases List.mem_cons.mp hc2 with rfl | hm
              · exact absurd hc2i.symm hic
              · exact ⟨c2, hm, hc2i⟩
        | cons e erest =>
          simp only [syncStep, hpq,
            show st.srcs.getD c.2 ⟨[], true⟩ = ⟨e :: erest, false⟩ from hs]
          constructor
          · intro i hdi
            by_cases hic : i = c.2
            · subst hic
              rw [getD_set_self_ss _ _ _ hlt] at hdi
              cases hdi
            · rw [getD_set_ne_ss _ _ _ _ hic] at hdi ⊢
              exact hInv.sdrained i hdi
          · intro i hi
            by_cases hic : i = c.2
            · subst hic
              exact ⟨(some e, c.2), (List.mem_orderedInsert syncLE).mpr
                (Or.inl rfl), rfl⟩
            · rw [getD_set_ne_ss _ _ _ _ hic] at hi
              obtain ⟨c2, hc2, hc2i⟩ := hInv.sres i hi
              rw [hpq] at hc2
              rcases List.mem_cons.mp hc2 with rfl | hm
              · exact absurd hc2i.symm hic
              · exact ⟨c2, (List.mem_orderedInsert syncLE).mpr (Or.inr hm),
                  hc2i⟩

theorem syncDrain_budget :
    ∀ (fuel : Nat) (st : SyncState),
      syncBudget (syncDrain fuel st) = syncBudget st := by
  intro fuel
  induction fuel with
  | zero => intro st; rfl
  | succ n ih =>
    intro st
    unfold syncDrain
    cases hpq : st.pq with
    | nil => rfl
    | cons c rest =>
      rw [ih (syncStep st), syncStep_budget]

theorem syncDrain_inv :
    ∀ (fuel : Nat) (st : SyncState), SyncInv st →
      SyncInv (syncDrain fuel st) := by
  intro fuel
  induction fuel with
  | zero => intro st h; exact h
  | succ n ih =>
    intro st h
    unfold syncDrain
    cases hpq : st.pq with
    | nil => exact h
    | cons c rest => exact ih _ (syncStep_inv st h)

theorem syncFill_srcs :
    ∀ (l : List SyncSource) (i : Nat),
      (syncFill l i).1 = l.map (fun s => s.pop.2) := by
  intro l
  induction l with
  | nil => intro i; rfl
  | cons s rest ih =>
    intro i
    show s.pop.2 :: (syncFill rest (i + 1)).1 = _
    rw [ih (i + 1)]
    rfl

theorem syncFill_budget :
    ∀ (l : List SyncSource) (i : Nat),
      (syncFill l i).2.countP (fun c => c.1.isSome) +
        ((syncFill l i).1.map (fun s => s.remaining.length)).sum =
        (l.map (fun s => s.remaining.length)).sum := by
  intro l
  induction l with
  | nil => intro i; rfl
  | cons s rest ih =>
    intro i
    have hih := ih (i + 1)
    show (List.orderedInsert syncLE (s.pop.1, i)
        (syncFill rest (i + 1)).2).countP (fun c => c.1.isSome) +
      (s.pop.2.remaining.length +
        ((syncFill rest (i + 1)).1.map (fun s => s.remaining.length)).sum) =
      s.remaining.length +
        (rest.map (fun s => s.remaining.length)).sum
    rw [(List.perm_orderedInsert syncLE (s.pop.1, i)
      (syncFill rest (i + 1)).2).countP_eq, List.countP_cons]
    obtain ⟨rem, d⟩ := s
    cases rem with
    | nil =>
      simp only [SyncSource.pop]
      simp
      omega
    | cons e erest =>
      simp only [SyncSource.pop]
      simp
      omega

theorem syncFill_cand :
    ∀ (l : List SyncSource) (i j : Nat), j < l.length →
      ((l.getD j defaultSS).pop.1, i + j) ∈ (syncFill l i).2 := by
  intro l
  induction l with
  | nil => intro i j hj; cases hj
  | cons s rest ih =>
    intro i j hj
    show _ ∈ List.orderedInsert syncLE (s.pop.1, i) (syncFill rest (i + 1)).2
    cases j with
    | zero =>
      apply (List.mem_orderedInsert syncLE).mpr
      left
      rfl
    | succ j2 =>
      apply (List.mem_orderedInsert syncLE).mpr
      right
      have hj2 : j2 < rest.length := by simpa using hj
      have := ih (i + 1) j2 hj2
      have harith : i + 1 + j2 = i + (j2 + 1) := by omega
      rw [harith] at this
      exact this

theorem syncInit_inv (sources : List (List LogEntry)) :
    SyncInv (syncInit sources) := by
  constructor
  · intro i hdi
    by_cases hlen : i < sources.length
    · have hget : (syncInit sources).srcs.getD i defaultSS =
          (SyncSource.mk (sources.getD i []) false).pop.2 := by
        show ((syncFill (sources.map (fun l => SyncSource.mk l false))
          0).1.getD i defaultSS) = _
        rw [syncFill_srcs, List.map_map]
        rw [List.getD_eq_getElem _ _ (by simpa using hlen)]
        rw [List.getElem_map]
        rw [List.getD_eq_getElem _ _ hlen]
        rfl
      rw [hget] at hdi ⊢
      cases hl : sources.getD i [] with
      | nil => rfl
      | cons e erest =>
        rw [hl] at hdi
        simp [SyncSource.pop] at hdi
    · have hget : (syncInit sources).srcs.getD i defaultSS = defaultSS := by
        apply List.getD_eq_default
        show (syncFill (sources.map (fun l => SyncSource.mk l false))
          0).1.length ≤ i
        rw [syncFill_srcs]
        simpa using Nat.le_of_not_lt hlen
      rw [hget]
      rfl
  · intro i hi
    by_cases hlen : i < sources.length
    · have hlen2 : i < (sources.map
          (fun l => SyncSource.mk l false)).length := by simpa using hlen
      have := syncFill_cand (sources.map (fun l => SyncSource.mk l false))
        0 i hlen2
      rw [Nat.zero_add] at this
      exact ⟨_, this, rfl⟩
    · exfalso
      apply hi
      have hget : (syncInit sources).srcs.getD i defaultSS = defaultSS := by
        apply List.getD_eq_default
        show (syncFill (sources.map (fun l => SyncSource.mk l false))
          0).1.length ≤ i
        rw [syncFill_srcs]
        simpa using Nat.le_of_not_lt hlen
      rw [hget]
      rfl

theorem syncInit_budget (sources : List (List LogEntry)) :
    syncBudget (syncInit sources) = (sources.map List.length).sum := by
  unfold syncBudget
  show (List.filterMap id []).length +
    (syncFill (sources.map (fun l => SyncSource.mk l false)) 0).2.countP
      (fun c => c.1.isSome) +
    ((syncFill (sources.map (fun l => SyncSource.mk l false)) 0).1.map
      (fun s => s.remaining.length)).sum = _
  rw [Nat.add_assoc, syncFill_budget]
  simp only [List.map_map, List.filterMap_nil, List.length_nil, Nat.zero_add]
  rfl

/-- When the synchronous merge finishes, the number of real entries printed
is exactly the total number of entries of the input. -/
theorem syncRun_count (sources : List (List LogEntry)) :
    ((syncRun sources).printed.filterMap id).length =
      (sources.map List.length).sum := by
  have hpq : (syncRun sources).pq = [] :=
    syncDrain_pq_empty _ _ (by omega)
  have hInv := syncDrain_inv (syncMeasure (syncInit sources) + 1) _
    (syncInit_inv sources)
  have hbud : syncBudget (syncRun sources) = (sources.map List.length).sum := by
    show syncBudget (syncDrain _ _) = _
    rw [syncDrain_budget]
    exact syncInit_budget sources
  have hsum : (((syncRun sources).srcs.map
      (fun s => s.remaining.length)).sum) = 0 := by
    refine List.sum_eq_zero ?_
    intro x hx
    obtain ⟨s, hsm, hxs⟩ := List.mem_map.mp hx
    obtain ⟨k, hk⟩ := List.mem_iff_get.mp hsm
    have hget : (syncRun sources).srcs.getD ↑k defaultSS = s := by
      rw [List.getD_eq_getElem _ _ k.isLt]
      rw [← hk]
      exact (List.get_eq_getElem _ k).symm
    have hrem : s.remaining = [] := by
      by_contra hne
      have := hInv.sres ↑k (by
        show ((syncDrain _ _).srcs.getD ↑k defaultSS).remaining ≠ []
        rw [show (syncDrain (syncMeasure (syncInit sources) + 1)
          (syncInit sources)) = syncRun sources from rfl, hget]
        exact hne)
      obtain ⟨c2, hc2, _⟩ := this
      rw [show (syncDrain (syncMeasure (syncInit sources) + 1)
        (syncInit sources)).pq = (syncRun sources).pq from rfl, hpq] at hc2
      cases hc2
    rw [← hxs, hrem]
    rfl
  unfold syncBudget at hbud
  rw [hpq] at hbud
  simp only [List.countP_nil] at hbud
  omega

/-! ### Ordering invariant of the async merge -/

/-- Everything already printed is no later than anything still to come:
resident candidates, value-bearing pending promises, and unread entries;
each source's future values are themselves ordered. -/
structure OrdA (st : AState) (pending : List Flight) : Prop where
  printed_sorted : List.Sorted (· ≤ ·) (st.printed.map (fun e => e.date))
  printed_pq : ∀ p ∈ st.printed, ∀ c ∈ st.pq, p.date ≤ c.1.date
  printed_fl : ∀ p ∈ st.printed, ∀ f ∈ pending, ∀ e : LogEntry,
    f.2 = some e → p.date ≤ e.date
  printed_rem : ∀ p ∈ st.printed, ∀ i : Nat,
    ∀ u ∈ (st.getSrc i).remaining, p.date ≤ u.date
  res_rem : ∀ c ∈ st.pq, ∀ u ∈ (st.getSrc c.2).remaining,
    c.1.date ≤ u.date
  res_fl : ∀ c ∈ st.pq, ∀ f ∈ pending, f.1 = c.2 → ∀ e : LogEntry,
    f.2 = some e → c.1.date ≤ e.date
  fl_rem : ∀ f ∈ pending, ∀ e : LogEntry, f.2 = some e →
    ∀ u ∈ (st.getSrc f.1).remaining, e.date ≤ u.date
  rem_sorted : ∀ i : Nat, List.Sorted (· ≤ ·)
    ((st.getSrc i).remaining.map (fun e => e.date))

theorem ordA_sub (st : AState) (l l2 : List Flight)
    (hp : ∀ f ∈ l2, f ∈ l) (h : OrdA st l) : OrdA st l2 :=
  ⟨h.printed_sorted, h.printed_pq,
    fun p hp2 f hf => h.printed_fl p hp2 f (hp f hf), h.printed_rem,
    h.res_rem, fun c hc f hf => h.res_fl c hc f (hp f hf),
    fun f hf => h.fl_rem f (hp f hf), h.rem_sorted⟩

theorem ordA_set_inflight (st : AState) (l : List Flight)
    (h : OrdA st l) : OrdA { st with inflight := [] } l :=
  ⟨h.printed_sorted, h.printed_pq, h.printed_fl, h.printed_rem,
    h.res_rem, h.res_fl, h.fl_rem, h.rem_sorted⟩

theorem ordA_tickFilter (st : AState) (l : List Flight)
    (h : OrdA st l) : OrdA (tickFilter st) l :=
  ⟨h.printed_sorted, h.printed_pq, h.printed_fl, h.printed_rem,
    h.res_rem, h.res_fl, h.fl_rem, h.rem_sorted⟩

theorem ordA_init (sources : List (List LogEntry))
    (hsort : ∀ l ∈ sources, List.Sorted (· ≤ ·) (l.map (fun e => e.date))) :
    OrdA (initAsync sources) [] := by
  refine ⟨?_, ?_, ?_, ?_, ?_, ?_, ?_, ?_⟩
  · show List.Sorted (· ≤ ·) (([] : List LogEntry).map _)
    simp
  · intro p hp
    cases hp
  · intro p hp
    cases hp
  · intro p hp
    cases hp
  · intro c hc
    cases hc
  · intro c hc
    cases hc
  · intro f hf
    cases hf
  · intro i
    by_cases h : i < sources.length
    · rw [getSrc_init sources i h]
      exact hsort _ (List.get_mem sources i h)
    · rw [getSrc_oob _ _ (by rw [initAsync_srcs_length]; omega)]
      show List.Sorted (· ≤ ·) (([] : List LogEntry).map _)
      simp

theorem resolveFlight_remaining (st : AState) (f : Flight) (j : Nat) :
    ((resolveFlight st f).getSrc j).remaining = (st.getSrc j).remaining := by
  obtain ⟨i, v⟩ := f
  by_cases hij : j = i
  · subst hij
    by_cases hlt : j < st.srcs.length
    · cases v with
      | some e => rw [resolveFlight_some_getSrc_self st j e hlt]
      | none => rw [resolveFlight_none_getSrc_self st j hlt]
    · have h1 : st.srcs.length ≤ j := Nat.not_lt.mp hlt
      have h2 : (resolveFlight st (j, v)).srcs.length ≤ j := by
        rw [resolveFlight_srcs_length]
        exact h1
      rw [getSrc_oob _ _ h2, getSrc_oob _ _ h1]
  · cases v with
    | some e => rw [resolveFlight_some_getSrc_ne st i e j hij]
    | none => rw [resolveFlight_none_getSrc_ne st i j hij]

theorem printNext_remaining (c : Cand) (rest : List Cand) (st : AState)
    (j : Nat) :
    ((printNextLogFromQueue c rest st).getSrc j).remaining =
      (st.getSrc j).remaining := by
  by_cases hij : j = c.2
  · by_cases hlt : c.2 < st.srcs.length
    · rw [hij, printNext_getSrc_self c rest st hlt]
    · have h1 : st.srcs.length ≤ j := by omega
      have h2 : (printNextLogFromQueue c rest st).srcs.length ≤ j := by
        rw [printNext_srcs_length]
        exact h1
      rw [getSrc_oob _ _ h2, getSrc_oob _ _ h1]
  · rw [printNext_getSrc_ne c rest st j hij]

theorem findNext_hz (st : AState) (t : Nat)
    (hfn : findNextLogSourceToQueue st = some t) :
    (st.getSrc t).bufferCount = 0 ∨ znl st = 0 := by
  by_cases hz0 : (st.getSrc t).bufferCount = 0
  · exact Or.inl hz0
  · right
    by_contra hnz
    have hpos : 0 < znl st := Nat.pos_of_ne_zero hnz
    rw [znl_eq_filter] at hpos
    obtain ⟨w, hwm⟩ := List.exists_mem_of_length_pos hpos
    have hw2 := List.mem_filter.mp hwm
    have hzw := hw2.2
    simp only [znlP, Bool.and_eq_true, Bool.not_eq_true',
      decide_eq_true_eq] at hzw
    obtain ⟨j, hj, _, _, hjbc⟩ :=
      findNext_zero st ⟨w, hw2.1, hzw.2, hzw.1.2⟩
    rw [hfn] at hj
    rw [Option.some.inj hj] at hz0
    exact hz0 hjbc

/-- Issuing an admitted fetch preserves the ordering invariant. -/
theorem ordA_queueLog (st : AState) (t : Nat)
    (htv : t < st.srcs.length)
    (hOrd : OrdA st st.inflight) :
    OrdA (queueLogFromSource st t) (queueLogFromSource st t).inflight := by
  cases hrem : (st.getSrc t).remaining with
  | nil =>
    have hgt := queueLog_getSrc_self_nil st t htv hrem
    have hremQ : ∀ j, ((queueLogFromSource st t).getSrc j).remaining =
        (st.getSrc j).remaining := by
      intro j
      by_cases hj : j = t
      · rw [hj, hgt, hrem]
      · rw [queueLog_getSrc_ne st t j hj]
    refine ⟨?_, ?_, ?_, ?_, ?_, ?_, ?_, ?_⟩
    · rw [queueLog_printed]
      exact hOrd.printed_sorted
    · intro p hp c hc
      rw [queueLog_printed] at hp
      rw [queueLog_pq] at hc
      exact hOrd.printed_pq p hp c hc
    · intro p hp f hf e he
      rw [queueLog_printed] at hp
      rw [queueLog_inflight] at hf
      rcases List.mem_append.mp hf with hf1 | hf2
      · exact hOrd.printed_fl p hp f hf1 e he
      · have hfe : f = (t, (st.getSrc t).remaining.head?) := by
          simpa using hf2
        rw [hfe, hrem] at he
        simp at he
    · intro p hp j u hu
      rw [queueLog_printed] at hp
      rw [hremQ j] at hu
      exact hOrd.printed_rem p hp j u hu
    · intro c hc u hu
      rw [queueLog_pq] at hc
      rw [hremQ c.2] at hu
      exact hOrd.res_rem c hc u hu
    · intro c hc f hf hfc e he
      rw [queueLog_pq] at hc
      rw [queueLog_inflight] at hf
      rcases List.mem_append.mp hf with hf1 | hf2
      · exact hOrd.res_fl c hc f hf1 hfc e he
      · have hfe : f = (t, (st.getSrc t).remaining.head?) := by
          simpa using hf2
        rw [hfe, hrem] at he
        simp at he
    · intro f hf e he u hu
      rw [queueLog_inflight] at hf
      rcases List.mem_append.mp hf with hf1 | hf2
      · rw [hremQ f.1] at hu
        exact hOrd.fl_rem f hf1 e he u hu
      · have hfe : f = (t, (st.getSrc t).remaining.head?) := by
          simpa using hf2
        rw [hfe, hrem] at he
        simp at he
    · intro j
      rw [hremQ j]
      exact hOrd.rem_sorted j
  | cons e0 rest0 =>
    have hgt := queueLog_getSrc_self_cons st t htv e0 rest0 hrem
    have hremQ : ∀ j, ∀ u ∈ ((queueLogFromSource st t).getSrc j).remaining,
        u ∈ (st.getSrc j).remaining := by
      intro j u hu
      by_cases hj : j = t
      · rw [hj] at hu
        rw [hgt] at hu
        rw [hj, hrem]
        exact List.mem_cons_of_mem _ hu
      · rw [queueLog_getSrc_ne st t j hj] at hu
        exact hu
    have hhead : (st.getSrc t).remaining.head? = some e0 := by
      rw [hrem]
      rfl
    refine ⟨?_, ?_, ?_, ?_, ?_, ?_, ?_, ?_⟩
    · rw [queueLog_printed]
      exact hOrd.printed_sorted
    · intro p hp c hc
      rw [queueLog_printed] at hp
      rw [queueLog_pq] at hc
      exact hOrd.printed_pq p hp c hc
    · intro p hp f hf e he
      rw [queueLog_printed] at hp
      rw [queueLog_inflight] at hf
      rcases List.mem_append.mp hf with hf1 | hf2
      · exact hOrd.printed_fl p hp f hf1 e he
      · have hfe : f = (t, (st.getSrc t).remaining.head?) := by
          simpa using hf2
        rw [hfe, hhead] at he
        have he0 : e0 = e := by simpa using he
        rw [← he0]
        exact hOrd.printed_rem p hp t e0
          (by rw [hrem]; exact List.mem_cons_self _ _)
    · intro p hp j u hu
      rw [queueLog_printed] at hp
      exact hOrd.printed_rem p hp j u (hremQ j u hu)
    · intro c hc u hu
      rw [queueLog_pq] at hc
      exact hOrd.res_rem c hc u (hremQ c.2 u hu)
    · intro c hc f hf hfc e he
      rw [queueLog_pq] at hc
      rw [queueLog_inflight] at hf
      rcases List.mem_append.mp hf with hf1 | hf2
      · exact hOrd.res_fl c hc f hf1 hfc e he
      · have hfe : f = (t, (st.getSrc t).remaining.head?) := by
          simpa using hf2
        rw [hfe, hhead] at he
        have he0 : e0 = e := by simpa using he
        rw [hfe] at hfc
        have hct : c.2 = t := by simpa using hfc.symm
        rw [← he0]
        apply hOrd.res_rem c hc
        rw [hct, hrem]
        exact List.mem_cons_self _ _
    · intro f hf e he u hu
      rw [queueLog_inflight] at hf
      rcases List.mem_append.mp hf with hf1 | hf2
      · exact hOrd.fl_rem f hf1 e he u (hremQ f.1 u hu)
      · have hfe : f = (t, (st.getSrc t).remaining.head?) := by
          simpa using hf2
        rw [hfe, hhead] at he
        have he0 : e0 = e := by simpa using he
        have hf1t : f.1 = t := by rw [hfe]
        rw [hf1t, hgt] at hu
        have hs := hOrd.rem_sorted t
        rw [hrem, List.map_cons] at hs
        rw [← he0]
        exact List.rel_of_sorted_cons hs u.date (List.mem_map_of_mem _ hu)
    · intro j
      by_cases hj : j = t
      · rw [hj, hgt]
        have hs := hOrd.rem_sorted t
        rw [hrem, List.map_cons] at hs
        exact hs.of_cons
      · rw [queueLog_getSrc_ne st t j hj]
        exact hOrd.rem_sorted j

/-- Running one settled promise callback preserves the ordering invariant. -/
theorem ordA_resolveFlight (st : AState) (f : Flight) (rest : List Flight)
    (hm : Mid st (f :: rest)) (hOrd : OrdA st (f :: rest)) :
    OrdA (resolveFlight st f) rest := by
  obtain ⟨i, v⟩ := f
  cases v with
  | none =>
    refine ⟨?_, ?_, ?_, ?_, ?_, ?_, ?_, ?_⟩
    · rw [resolveFlight_none_printed]
      exact hOrd.printed_sorted
    · intro p hp c hc
      rw [resolveFlight_none_printed] at hp
      rw [resolveFlight_none_pq] at hc
      exact hOrd.printed_pq p hp c hc
    · intro p hp f2 hf2 e he
      rw [resolveFlight_none_printed] at hp
      exact hOrd.printed_fl p hp f2 (List.mem_cons_of_mem _ hf2) e he
    · intro p hp j u hu
      rw [resolveFlight_none_printed] at hp
      rw [resolveFlight_remaining] at hu
      exact hOrd.printed_rem p hp j u hu
    · intro c hc u hu
      rw [resolveFlight_none_pq] at hc
      rw [resolveFlight_remaining] at hu
      exact hOrd.res_rem c hc u hu
    · intro c hc f2 hf2 hfc e he
      rw [resolveFlight_none_pq] at hc
      exact hOrd.res_fl c hc f2 (List.mem_cons_of_mem _ hf2) hfc e he
    · intro f2 hf2 e he u hu
      rw [resolveFlight_remaining] at hu
      exact hOrd.fl_rem f2 (List.mem_cons_of_mem _ hf2) e he u hu
    · intro j
      have h2 := resolveFlight_remaining st (i, none) j
      rw [h2]
      exact hOrd.rem_sorted j
  | some e0 =>
    refine ⟨?_, ?_, ?_, ?_, ?_, ?_, ?_, ?_⟩
    · rw [resolveFlight_some_printed]
      exact hOrd.printed_sorted
    · intro p hp c hc
      rw [resolveFlight_some_printed] at hp
      rw [resolveFlight_some_pq] at hc
      rcases (List.mem_orderedInsert candLE).mp hc with rfl | hc2
      · exact hOrd.printed_fl p hp (i, some e0)
          (List.mem_cons_self _ _) e0 rfl
      · exact hOrd.printed_pq p hp c hc2
    · intro p hp f2 hf2 e he
      rw [resolveFlight_some_printed] at hp
      exact hOrd.printed_fl p hp f2 (List.mem_cons_of_mem _ hf2) e he
    · intro p hp j u hu
      rw [resolveFlight_some_printed] at hp
      rw [resolveFlight_remaining] at hu
      exact hOrd.printed_rem p hp j u hu
    · intro c hc u hu
      rw [resolveFlight_some_pq] at hc
      rw [resolveFlight_remaining] at hu
      rcases (List.mem_orderedInsert candLE).mp hc with rfl | hc2
      · exact hOrd.fl_rem (i, some e0) (List.mem_cons_self _ _) e0 rfl u hu
      · exact hOrd.res_rem c hc2 u hu
    · intro c hc f2 hf2 hfc e he
      rw [resolveFlight_some_pq] at hc
      rcases (List.mem_orderedInsert candLE).mp hc with rfl | hc2
      · exfalso
        have hnd := hm.fst_nodup
        rw [List.map_cons] at hnd
        have hni := (List.nodup_cons.mp hnd).1
        simp only at hfc
        apply hni
        have hfm : f2.1 ∈ rest.map Prod.fst :=
          List.mem_map_of_mem Prod.fst hf2
        rw [hfc] at hfm
        exact hfm
      · exact hOrd.res_fl c hc2 f2 (List.mem_cons_of_mem _ hf2) hfc e he
    · intro f2 hf2 e he u hu
      rw [resolveFlight_remaining] at hu
      exact hOrd.fl_rem f2 (List.mem_cons_of_mem _ hf2) e he u hu
    · intro j
      have h2 := resolveFlight_remaining st (i, some e0) j
      rw [h2]
      exact hOrd.rem_sorted j

theorem ordA_processBatch :
    ∀ (l : List Flight) (st : AState), Mid st l → OrdA st l →
      OrdA (processBatch l st) [] := by
  intro l
  induction l with
  | nil => intro st _ h; exact h
  | cons f rest ih =>
    intro st hm hOrd
    exact ih (resolveFlight st f) (resolveFlight_mid st f rest hm)
      (ordA_resolveFlight st f rest hm hOrd)

/-- Popping and printing the queue minimum preserves the ordering invariant
when the emission gate is open. -/
theorem ordA_printNext (c : Cand) (rest : List Cand) (st : AState)
    (hInv : InvA st) (hpq : st.pq = c :: rest)
    (hgate : allSourcesHaveBeenRead st = true)
    (hOrd : OrdA st st.inflight) :
    OrdA (printNextLogFromQueue c rest st) st.inflight := by
  have hcmin : ∀ c2 ∈ st.pq, c.1.date ≤ c2.1.date := by
    intro c2 hc2
    rw [hpq] at hc2
    rcases List.mem_cons.mp hc2 with rfl | h2
    · exact le_refl _
    · have hs := hInv.pq_sorted
      rw [hpq] at hs
      exact List.rel_of_sorted_cons hs c2 h2
  have hresi : ∀ i : Nat, i < st.srcs.length →
      (st.getSrc i).drained = false → ∃ r ∈ st.pq, r.2 = i := by
    intro i hv hdf
    have hlive := hInv.live_compl i hv hdf
    have hbc := (allRead_iff st).mp hgate i hlive
    rw [hInv.bc_count i] at hbc
    have hrc : 0 < residentCount st i := by exact_mod_cast hbc
    unfold residentCount at hrc
    obtain ⟨r, hr, hri⟩ := List.countP_pos_iff.mp hrc
    exact ⟨r, hr, by simpa using hri⟩
  have hcall : ∀ i : Nat, ∀ u ∈ (st.getSrc i).remaining,
      c.1.date ≤ u.date := by
    intro i u hu
    by_cases hd : (st.getSrc i).drained = true
    · rw [hInv.drained_rem i hd] at hu
      cases hu
    · have hdf : (st.getSrc i).drained = false := by
        cases h2 : (st.getSrc i).drained
        · rfl
        · exact absurd h2 hd
      by_cases hv : i < st.srcs.length
      · obtain ⟨r, hr, hri⟩ := hresi i hv hdf
        calc c.1.date ≤ r.1.date := hcmin r hr
          _ ≤ u.date := hOrd.res_rem r hr u (by rw [hri]; exact hu)
      · rw [getSrc_oob _ _ (Nat.not_lt.mp hv)] at hu
        cases hu
  refine ⟨?_, ?_, ?_, ?_, ?_, ?_, ?_, ?_⟩
  · rw [printNext_printed, List.map_append]
    refine List.pairwise_append.mpr ⟨hOrd.printed_sorted,
      List.pairwise_singleton _ _, ?_⟩
    intro x hx y hy
    obtain ⟨p, hp, hpx⟩ := List.mem_map.mp hx
    have hy2 : y = c.1.date := by simpa using hy
    rw [← hpx, hy2]
    exact hOrd.printed_pq p hp c (by rw [hpq]; exact List.mem_cons_self _ _)
  · intro p hp c2 hc2
    rw [printNext_printed] at hp
    rw [printNext_pq] at hc2
    rcases List.mem_append.mp hp with hp1 | hp2
    · exact hOrd.printed_pq p hp1 c2
        (by rw [hpq]; exact List.mem_cons_of_mem _ hc2)
    · have hpc : p = c.1 := by simpa using hp2
      rw [hpc]
      exact hcmin c2 (by rw [hpq]; exact List.mem_cons_of_mem _ hc2)
  · intro p hp f hf e he
    rw [printNext_printed] at hp
    rcases List.mem_append.mp hp with hp1 | hp2
    · exact hOrd.printed_fl p hp1 f hf e he
    · have hpc : p = c.1 := by simpa using hp2
      have hvf : f.1 < st.srcs.length := hInv.fl_valid f hf
      have hdf : (st.getSrc f.1).drained = false := by
        cases h2 : (st.getSrc f.1).drained
        · rfl
        · exfalso
          have := (hInv.fl_none_iff f hf).mpr h2
          rw [he] at this
          cases this
      obtain ⟨r, hr, hri⟩ := hresi f.1 hvf hdf
      rw [hpc]
      calc c.1.date ≤ r.1.date := hcmin r hr
        _ ≤ e.date := hOrd.res_fl r hr f hf (by rw [hri]) e he
  · intro p hp j u hu
    rw [printNext_printed] at hp
    rw [printNext_remaining] at hu
    rcases List.mem_append.mp hp with hp1 | hp2
    · exact hOrd.printed_rem p hp1 j u hu
    · have hpc : p = c.1 := by simpa using hp2
      rw [hpc]
      exact hcall j u hu
  · intro c2 hc2 u hu
    rw [printNext_pq] at hc2
    rw [printNext_remaining] at hu
    exact hOrd.res_rem c2 (by rw [hpq]; exact List.mem_cons_of_mem _ hc2) u hu
  · intro c2 hc2 f hf hfc e he
    rw [printNext_pq] at hc2
    exact hOrd.res_fl c2 (by rw [hpq]; exact List.mem_cons_of_mem _ hc2)
      f hf hfc e he
  · intro f hf e he u hu
    rw [printNext_remaining] at hu
    exact hOrd.fl_rem f hf e he u hu
  · intro j
    have h2 := printNext_remaining c rest st j
    rw [h2]
    exact hOrd.rem_sorted j

/-- One driver-loop iteration preserves the ordering invariant. -/
theorem tick_ord (reorder : List Flight → List Flight)
    (hperm : ∀ l, (reorder l).Perm l) (st st2 : AState)
    (hInv : SchedInv st) (hOrd : OrdA st st.inflight)
    (htick : tick reorder st = .ok st2) :
    OrdA st2 st2.inflight := by
  obtain ⟨hmidInv, hmid50, hmidlive, hmidprinted, hmidpq⟩ :=
    tickCore_facts reorder hperm st hInv
  have hmidOrd : OrdA (tickCore reorder st)
      (tickCore reorder st).inflight := by
    by_cases hFull : st.maxSize ≤ st.pq.length + st.inflight.length
    · simp only [tickCore]
      rw [if_pos hFull]
      by_cases hb : st.inflight.length ≠ 0 ∧
          (st.maxSize ≤ st.pq.length + st.inflight.length ∨
            50 ≤ st.inflight.length ∨ allSourcesAreLoading st = true)
      · rw [if_pos hb]
        have hm0 := mid_of_invA st hInv.toInvA (reorder st.inflight)
          (hperm _)
        have hOrd0 : OrdA { st with inflight := [] }
            (reorder st.inflight) :=
          ordA_set_inflight st _ (ordA_sub st st.inflight _
            (fun f hf => (hperm _).mem_iff.mp hf) hOrd)
        have hres := ordA_processBatch (reorder st.inflight) _ hm0 hOrd0
        have hinfl : (processBatch (reorder st.inflight)
            { st with inflight := [] }).inflight = [] := by
          rw [processBatch_inflight]
        rw [hinfl]
        exact hres
      · rw [if_neg hb]
        exact hOrd
    · simp only [tickCore]
      rw [if_neg hFull]
      cases hfn : findNextLogSourceToQueue st with
      | none =>
        have hst1 : addNextLogToQueue st = st := by
          unfold addNextLogToQueue
          rw [hfn]
        rw [hst1]
        by_cases hb : st.inflight.length ≠ 0 ∧
            (st.maxSize ≤ st.pq.length + st.inflight.length ∨
              50 ≤ st.inflight.length ∨ allSourcesAreLoading st = true)
        · rw [if_pos hb]
          have hm0 := mid_of_invA st hInv.toInvA (reorder st.inflight)
            (hperm _)
          have hOrd0 : OrdA { st with inflight := [] }
              (reorder st.inflight) :=
            ordA_set_inflight st _ (ordA_sub st st.inflight _
              (fun f hf => (hperm _).mem_iff.mp hf) hOrd)
          have hres := ordA_processBatch (reorder st.inflight) _ hm0 hOrd0
          have hinfl : (processBatch (reorder st.inflight)
              { st with inflight := [] }).inflight = [] := by
            rw [processBatch_inflight]
          rw [hinfl]
          exact hres
        · rw [if_neg hb]
          exact hOrd
      | some t =>
        have hst1 : addNextLogToQueue st = queueLogFromSource st t := by
          unfold addNextLogToQueue
          rw [hfn]
        rw [hst1]
        have htl := findNext_mem st t hfn
        have htv : t < st.srcs.length :=
          List.mem_range.mp (hInv.toInvA.live_sub.subset htl)
        have htnl := findNext_not_loading st t hfn
        have hOrd1 : OrdA (queueLogFromSource st t)
            (queueLogFromSource st t).inflight :=
          ordA_queueLog st t htv hOrd
        by_cases hb : (queueLogFromSource st t).inflight.length ≠ 0 ∧
            (st.maxSize ≤ st.pq.length + st.inflight.length ∨
              50 ≤ st.inflight.length ∨
              allSourcesAreLoading (queueLogFromSource st t) = true)
        · rw [if_pos hb]
          have hInv1 : InvA (queueLogFromSource st t) :=
            queueLog_invA st t hInv.toInvA hInv.infl50
              hInv.live_nondrained htl htnl (by omega)
              (findNext_hz st t hfn)
          have hm0 := mid_of_invA (queueLogFromSource st t) hInv1
            (reorder (queueLogFromSource st t).inflight) (hperm _)
          have hOrd0 := ordA_set_inflight (queueLogFromSource st t) _
            (ordA_sub (queueLogFromSource st t)
              (queueLogFromSource st t).inflight _
              (fun f hf => (hperm _).mem_iff.mp hf) hOrd1)
          have hres := ordA_processBatch
            (reorder (queueLogFromSource st t).inflight) _ hm0 hOrd0
          have hinfl : (processBatch
              (reorder (queueLogFromSource st t).inflight)
              { queueLogFromSource st t with inflight := [] }).inflight
              = [] := by
            rw [processBatch_inflight]
          rw [hinfl]
          exact hres
        · rw [if_neg hb]
          exact hOrd1
  have hthrow : ¬ (st.maxSize < st.pq.length) := by
    have := hInv.toInvA.size_le
    omega
  by_cases hg : allSourcesHaveBeenRead (tickCore reorder st) = true
  · simp only [tick, if_neg hthrow, if_pos hg] at htick
    cases hpq2 : (tickCore reorder st).pq with
    | nil =>
      rw [hpq2] at htick
      cases htick
    | cons c rest =>
      rw [hpq2] at htick
      cases htick
      have hOrdP := ordA_printNext c rest (tickCore reorder st) hmidInv
        hpq2 hg hmidOrd
      have hfin : (tickFilter (printNextLogFromQueue c rest
          (tickCore reorder st))).inflight =
          (tickCore reorder st).inflight :=
        printNext_inflight c rest _
      rw [hfin]
      exact ordA_tickFilter _ _ hOrdP
  · simp only [tick, if_neg hthrow, if_neg hg] at htick
    cases htick
    exact ordA_tickFilter _ _ hmidOrd

/-- Every reachable state satisfies the ordering invariant. -/
theorem steps_ord (rs : ReorderSeq) (hrs : ValidReorder rs) :
    ∀ (n : Nat) (st st2 : AState), SchedInv st → OrdA st st.inflight →
      steps rs n st = .ok st2 → OrdA st2 st2.inflight := by
  intro n
  induction n with
  | zero =>
    intro st st2 _ hOrd hstep
    cases hstep
    exact hOrd
  | succ m ih =>
    intro st st2 hInv hOrd hstep
    rw [steps] at hstep
    by_cases hc : continueLoop st = true
    · rw [if_pos hc] at hstep
      obtain ⟨st1, htick, hinv1, _⟩ := tick_sched (rs st.tickNo)
        (hrs st.tickNo) st hInv hc
      rw [htick] at hstep
      exact ih st1 st2 hinv1
        (tick_ord (rs st.tickNo) (hrs st.tickNo) st st1 hInv hOrd htick)
        hstep
    · rw [if_neg hc] at hstep
      cases hstep
      exact hOrd

/-! ### The real priority queue of the merges

`sync-sorted-merge.js` builds `new MinPriorityQueue(({ log }) => log.date)`
from `@datastructures-js/priority-queue`, a dependency whose code is not
under `src/`.  That library is an array-backed binary heap: `push` appends
and bubbles the new node up, `pop` replaces the root with the last node and
sifts it down, and both move a node whenever the comparator

    (a, b) => aVal < bVal ? -1 : 1

returns a positive value for a parent/child pair.  The key of the `false`
sentinel pushed by the sync merge's initial fill is `false.date`, i.e.
`undefined`, and every `<` comparison against `undefined` is false — so the
comparator answers `1` in *both* directions against a sentinel.  A sentinel
therefore bubbles to the root, and the next real entry pushed swaps past it
without ever being compared with the other branch, which breaks the heap
order among real entries.  The definitions below translate that heap
literally, and `realSyncRun` re-runs `sync-sorted-merge.js` on top of it. -/

/-- `aVal < bVal` on the keys `log.date`: `undefined` (the sentinel's key)
compares false on both sides. -/
def jsLtB (a b : SyncCand) : Bool :=
  match a.1, b.1 with
  | some x, some y => decide (x.date < y.date)
  | _, _ => false

/-- `_shouldSwap(parentIndex, childIndex)`: in range and comparator
positive, i.e. not `aVal < bVal`. -/
def shouldSwapB (nodes : List SyncCand) (p c : Nat) : Bool :=
  if p < nodes.length ∧ c < nodes.length then
    !jsLtB (nodes.getD p (none, 0)) (nodes.getD c (none, 0))
  else false

/-- Swap two array slots. -/
def swapL (nodes : List SyncCand) (i j : Nat) : List SyncCand :=
  let a := nodes.getD i (none, 0)
  let b := nodes.getD j (none, 0)
  (nodes.set i b).set j a

/-- `_heapifyUp(startIndex)`; at child 0 the parent index `-1` is out of
range and the loop stops.  The child index strictly decreases, so
`nodes.length` steps of fuel always suffice. -/
def heapifyUp : Nat → List SyncCand → Nat → List SyncCand
  | 0, nodes, _ => nodes
  | _ + 1, nodes, 0 => nodes
  | fuel + 1, nodes, c + 1 =>
    if shouldSwapB nodes (c / 2) (c + 1) then
      heapifyUp fuel (swapL nodes (c / 2) (c + 1)) (c / 2)
    else nodes

/-- `_compareChildrenOf(parentIndex)`: the child to try swapping with
(`none` for the JS `-1`), picking the right child when the comparator on
(left, right) is positive. -/
def compareChildrenOf (nodes : List SyncCand) (p : Nat) : Option Nat :=
  let l := 2 * p + 1
  let r := 2 * p + 2
  if r < nodes.length then
    if jsLtB (nodes.getD l (none, 0)) (nodes.getD r (none, 0)) then some l
    else some r
  else if l < nodes.length then some l
  else none

/-- `_heapifyDown(startIndex)`; the parent index strictly increases, so
`nodes.length` steps of fuel always suffice. -/
def heapifyDown : Nat → List SyncCand → Nat → List SyncCand
  | 0, nodes, _ => nodes
  | fuel + 1, nodes, p =>
    match compareChildrenOf nodes p with
    | none => nodes
    | some c =>
      if shouldSwapB nodes p c then heapifyDown fuel (swapL nodes p c) c
      else nodes

/-- `push`: append, then bubble the last slot up. -/
def heapPush (nodes : List SyncCand) (v : SyncCand) : List SyncCand :=
  let ns := nodes ++ [v]
  heapifyUp ns.length ns (ns.length - 1)

/-- `pop` / `extractRoot`: hand out the root, move the last node into its
slot, drop the last slot, sift down. -/
def heapPop (nodes : List SyncCand) : Option SyncCand × List SyncCand :=
  match nodes with
  | [] => (none, [])
  | root :: _ =>
    let last := nodes.getD (nodes.length - 1) (none, 0)
    let ns := (nodes.set 0 last).dropLast
    (some root, heapifyDown ns.length ns 0)

/-- State of `sync-sorted-merge.js` running on the real heap. -/
structure RealSyncState where
  srcs : List SyncSource
  heap : List SyncCand
  printed : List (Option LogEntry)
deriving DecidableEq, Repr

/-- The initial fill, pushing each source's first `pop()` result — entry or
`false` — into the heap in source order. -/
def realFillGo : List SyncSource → Nat → List SyncCand →
    List SyncSource × List SyncCand
  | [], _, h => ([], h)
  | s :: rest, i, h =>
    let p := s.pop
    let r := realFillGo rest (i + 1) (heapPush h (p.1, i))
    (p.2 :: r.1, r.2)

/-- One iteration of the drain loop on the real heap: pop the root, print
its log, and refill from the owning source when it is not drained. -/
def realSyncStep (st : RealSyncState) : RealSyncState :=
  match heapPop st.heap with
  | (none, _) => st
  | (some c, h2) =>
    let printed := st.printed ++ [c.1]
    match st.srcs.getD c.2 defaultSS with
    | ⟨_, true⟩ => ⟨st.srcs, h2, printed⟩
    | ⟨[], false⟩ => ⟨st.srcs.set c.2 ⟨[], true⟩, h2, printed⟩
    | ⟨e :: erest, false⟩ =>
      ⟨st.srcs.set c.2 ⟨erest, false⟩, heapPush h2 (some e, c.2), printed⟩

/-- The drain loop (`while (!pq.isEmpty())`), fuel-driven. -/
def realSyncDrain : Nat → RealSyncState → RealSyncState
  | 0, st => st
  | fuel + 1, st =>
    if st.heap.isEmpty then st else realSyncDrain fuel (realSyncStep st)

/-- Full `sync-sorted-merge.js` run on the real library heap. -/
def realSyncRun (sources : List (List LogEntry)) : RealSyncState :=
  let f := realFillGo (sources.map (fun l => SyncSource.mk l false)) 0 []
  realSyncDrain ((sources.map List.length).sum + sources.length + 1)
    ⟨f.1, f.2, []⟩

example : (realSyncRun [[⟨5, 0⟩], []]).printed = [none, some ⟨5, 0⟩] := by
  decide

example : (realSyncRun [[⟨1, 0⟩, ⟨5, 0⟩, ⟨9, 0⟩], [⟨2, 0⟩, ⟨3, 0⟩, ⟨10, 0⟩],
    [⟨4, 0⟩, ⟨6, 0⟩, ⟨7, 0⟩]]).printed.filterMap id =
    [⟨1, 0⟩, ⟨2, 0⟩, ⟨3, 0⟩, ⟨4, 0⟩, ⟨5, 0⟩, ⟨6, 0⟩, ⟨7, 0⟩, ⟨9, 0⟩,
      ⟨10, 0⟩] := by decide

/-! ## Claim theorems -/

theorem validReorder_id : ValidReorder idReorder := fun _ l => List.Perm.refl l

/-- Claim C7: if the priority queue's size ever strictly exceeded
`MAX_PRIORITY_QUEUE_SIZE`, the run would abort with the fatal
`PriorityQueue exceeded MaxSize` error — and under the admission control
that counts resident plus in-flight entries against the ceiling, this error
branch is never reached: on every state any run reaches, the queue's size is
at most the ceiling and the next tick does not abort. -/
theorem c7_queue_bound (sources : List (List LogEntry)) (rs : ReorderSeq)
    (hrs : ValidReorder rs) (n : Nat) (st : AState)
    (h : steps rs n (initAsync sources) = .ok st) :
    st.pq.length ≤ st.maxSize ∧
      (∀ (st2 : AState) (reorder : List Flight → List Flight),
        st2.maxSize < st2.pq.length →
        tick reorder st2 = .error "PriorityQueue exceeded MaxSize") ∧
      (continueLoop st = true →
        ∃ st3, tick (rs st.tickNo) st = .ok st3) := by
  have hsched := steps_inv sources rs hrs n st h
  refine ⟨?_, ?_, ?_⟩
  · have := hsched.toInvA.size_le
    omega
  · intro st2 reorder habove
    simp only [tick]
    rw [if_pos habove]
  · intro hc
    obtain ⟨st3, h3, _, _⟩ := tick_sched (rs st.tickNo) (hrs st.tickNo) st
      hsched hc
    exact ⟨st3, h3⟩

theorem c7_queue_bound_witness :
    (steps idReorder 3 (initAsync [[⟨1, 0⟩]])).map
      (fun st => decide (st.pq.length ≤ st.maxSize)) = .ok true := by
  cases hs : steps idReorder 3 (initAsync [[⟨1, 0⟩]]) with
  | error e =>
    exfalso
    have hsome : (steps idReorder 3
        (initAsync [[⟨1, 0⟩]])).toOption.isSome = true := by decide
    rw [hs] at hsome
    simp [Except.toOption] at hsome
  | ok st =>
    have := (c7_queue_bound [[⟨1, 0⟩]] idReorder validReorder_id 3 st hs).1
    simp [Except.map, this]

/-- Claim C8: at most one fetch is in flight per source at any instant —
the promise queue never holds two promises of the same source, the `loading`
flag marks exactly the sources with an in-flight fetch, and the scheduler
never selects a source whose flag is set (so `popAsync` is never called on a
source whose previous call has not settled). -/
theorem c8_single_flight_per_source (sources : List (List LogEntry))
    (rs : ReorderSeq) (hrs : ValidReorder rs) (n : Nat) (st : AState)
    (h : steps rs n (initAsync sources) = .ok st) :
    (st.inflight.map Prod.fst).Nodup ∧
      (∀ i, (st.getSrc i).loading = true ↔ i ∈ st.inflight.map Prod.fst) ∧
      (∀ i, findNextLogSourceToQueue st = some i →
        i ∉ st.inflight.map Prod.fst) := by
  have hsched := steps_inv sources rs hrs n st h
  refine ⟨hsched.toInvA.fst_nodup, hsched.toInvA.load_iff, ?_⟩
  intro i hfind hmem
  have hload := findNext_not_loading st i hfind
  rw [(hsched.toInvA.load_iff i).mpr hmem] at hload
  cases hload

theorem c8_single_flight_witness :
    (steps idReorder 2 (initAsync [[⟨1, 0⟩], [⟨2, 0⟩]])).map
      (fun st => decide ((st.inflight.map Prod.fst).Nodup)) = .ok true := by
  cases hs : steps idReorder 2 (initAsync [[⟨1, 0⟩], [⟨2, 0⟩]]) with
  | error e =>
    exfalso
    have hsome : (steps idReorder 2
        (initAsync [[⟨1, 0⟩], [⟨2, 0⟩]])).toOption.isSome = true := by decide
    rw [hs] at hsome
    simp [Except.toOption] at hsome
  | ok st =>
    have := (c8_single_flight_per_source [[⟨1, 0⟩], [⟨2, 0⟩]] idReorder
      validReorder_id 2 st hs).1
    simp [Except.map, this]

/-- Claim C10: at every scheduler observation point, each source's
`bufferCount` equals the number of that source's candidates resident in the
priority queue — hence it is never negative.  This holds at every loop
boundary a run reaches, and across the pre-gate phase of the next tick
(admission and barrier, for any order of the batch callbacks). -/
theorem c10_bufferCount_resident (sources : List (List LogEntry))
    (rs : ReorderSeq) (hrs : ValidReorder rs) (n : Nat) (st : AState)
    (h : steps rs n (initAsync sources) = .ok st) :
    (∀ i, (st.getSrc i).bufferCount = (residentCount st i : Int) ∧
      0 ≤ (st.getSrc i).bufferCount) ∧
      (∀ reorder, (∀ l, (reorder l).Perm l) → ∀ i,
        ((tickCore reorder st).getSrc i).bufferCount =
          (residentCount (tickCore reorder st) i : Int) ∧
        0 ≤ ((tickCore reorder st).getSrc i).bufferCount) := by
  have hsched := steps_inv sources rs hrs n st h
  constructor
  · intro i
    refine ⟨hsched.toInvA.bc_count i, ?_⟩
    rw [hsched.toInvA.bc_count i]
    exact Int.natCast_nonneg _
  · intro reorder hperm i
    obtain ⟨hmidInv, _, _, _, _⟩ := tickCore_facts reorder hperm st hsched
    refine ⟨hmidInv.bc_count i, ?_⟩
    rw [hmidInv.bc_count i]
    exact Int.natCast_nonneg _

theorem c10_bufferCount_witness :
    (steps idReorder 2 (initAsync [[⟨1, 0⟩], [⟨2, 0⟩]])).map
      (fun st => decide ((st.getSrc 0).bufferCount =
        (residentCount st 0 : Int) ∧ 0 ≤ (st.getSrc 0).bufferCount)) =
      .ok true := by
  cases hs : steps idReorder 2 (initAsync [[⟨1, 0⟩], [⟨2, 0⟩]]) with
  | error e =>
    exfalso
    have hsome : (steps idReorder 2
        (initAsync [[⟨1, 0⟩], [⟨2, 0⟩]])).toOption.isSome = true := by decide
    rw [hs] at hsome
    simp [Except.toOption] at hsome
  | ok st =>
    have := (c10_bufferCount_resident [[⟨1, 0⟩], [⟨2, 0⟩]] idReorder
      validReorder_id 2 st hs).1 0
    simp [Except.map, this.1, this.2]

/-- Claim C3 (counterexample): it is false that the priority queue never
holds two resident candidates of the same source.  On sources
`[1,2]` and `[100,101]`, after four ticks (callbacks in issue order) source 1
has two entries resident at once. -/
theorem c3_counterexample :
    ¬(∀ (sources : List (List LogEntry)) (rs : ReorderSeq) (n : Nat)
        (st : AState), ValidReorder rs →
        steps rs n (initAsync sources) = .ok st →
        ∀ i, residentCount st i ≤ 1) := by
  intro hall
  have heval : (steps idReorder 4
      (initAsync [[⟨1, 0⟩, ⟨2, 0⟩], [⟨100, 0⟩, ⟨101, 0⟩]])).map
      (fun st => residentCount st 1) = .ok 2 := by decide
  cases hs : steps idReorder 4
      (initAsync [[⟨1, 0⟩, ⟨2, 0⟩], [⟨100, 0⟩, ⟨101, 0⟩]]) with
  | error e =>
    rw [hs] at heval
    simp [Except.map] at heval
  | ok st =>
    have h2 := hall _ idReorder 4 st validReorder_id hs 1
    rw [hs] at heval
    simp [Except.map] at heval
    omega

/-- Claim C3 (amended): every source has at most one fetch in flight at any
instant, but the priority queue may hold several resident candidates of the
same source simultaneously (the scheduler deliberately buffers ahead); the
number of one source's resident candidates is bounded only by the configured
queue ceiling. -/
theorem c3_amended (sources : List (List LogEntry)) (rs : ReorderSeq)
    (hrs : ValidReorder rs) (n : Nat) (st : AState)
    (h : steps rs n (initAsync sources) = .ok st) :
    (st.inflight.map Prod.fst).Nodup ∧
      ∀ i, residentCount st i ≤ st.maxSize := by
  have hsched := steps_inv sources rs hrs n st h
  refine ⟨hsched.toInvA.fst_nodup, ?_⟩
  intro i
  have h1 : residentCount st i ≤ st.pq.length := List.countP_le_length _
  have h2 := hsched.toInvA.size_le
  omega

theorem c3_amended_witness :
    (steps idReorder 4
      (initAsync [[⟨1, 0⟩, ⟨2, 0⟩], [⟨100, 0⟩, ⟨101, 0⟩]])).map
      (fun st => decide (residentCount st 1 ≤ st.maxSize)) = .ok true := by
  cases hs : steps idReorder 4
      (initAsync [[⟨1, 0⟩, ⟨2, 0⟩], [⟨100, 0⟩, ⟨101, 0⟩]]) with
  | error e =>
    exfalso
    have hsome : (steps idReorder 4
        (initAsync [[⟨1, 0⟩, ⟨2, 0⟩],
          [⟨100, 0⟩, ⟨101, 0⟩]])).toOption.isSome = true := by decide
    rw [hs] at hsome
    simp [Except.toOption] at hsome
  | ok st =>
    have := (c3_amended [[⟨1, 0⟩, ⟨2, 0⟩], [⟨100, 0⟩, ⟨101, 0⟩]] idReorder
      validReorder_id 4 st hs).2 1
    simp [Except.map, this]

set_option maxRecDepth 20000

/-- Input exhibiting the in-flight overshoot: 51 sources of one entry
each. -/
def overshootSources : List (List LogEntry) :=
  (List.range 51).map (fun i => [⟨100 + i, 0⟩])

/-- Claim C4 (counterexample): it is false that the in-flight fetch count
never exceeds the concurrency ceiling of 50.  With 51 singleton sources the
promise queue reaches 51 promises during the 51st tick: the tick's admission
checks only priority-queue fullness, so a 51st fetch is admitted while 50
are already in flight. -/
theorem c4_counterexample :
    ¬(∀ (sources : List (List LogEntry)) (rs : ReorderSeq) (n : Nat)
        (st : AState), ValidReorder rs →
        steps rs n (initAsync sources) = .ok st →
        st.maxInflightEver ≤ 50) := by
  intro hall
  have heval : (steps idReorder 51 (initAsync overshootSources)).map
      (fun st => st.maxInflightEver) = .ok 51 := by decide
  cases hs : steps idReorder 51 (initAsync overshootSources) with
  | error e =>
    rw [hs] at heval
    simp [Except.map] at heval
  | ok st =>
    have h2 := hall _ idReorder 51 st validReorder_id hs
    rw [hs] at heval
    simp [Except.map] at heval
    omega

/-- Claim C4 (amended): the in-flight fetch count is at most 50 at every
loop boundary, and at no instant — boundaries or mid-tick — does it exceed
51, one above the ceiling: the tick that admits the overshooting fetch drains
the whole batch before it ends. -/
theorem c4_amended (sources : List (List LogEntry)) (rs : ReorderSeq)
    (hrs : ValidReorder rs) (n : Nat) (st : AState)
    (h : steps rs n (initAsync sources) = .ok st) :
    st.inflight.length ≤ 50 ∧ st.maxInflightEver ≤ 51 := by
  have hsched := steps_inv sources rs hrs n st h
  exact ⟨hsched.infl50, hsched.toInvA.maxIE_le⟩

theorem c4_amended_witness :
    (steps idReorder 51 (initAsync overshootSources)).map
      (fun st => decide (st.inflight.length ≤ 50 ∧
        st.maxInflightEver ≤ 51)) = .ok true := by
  cases hs : steps idReorder 51 (initAsync overshootSources) with
  | error e =>
    exfalso
    have hsome : (steps idReorder 51
        (initAsync overshootSources)).toOption.isSome = true := by decide
    rw [hs] at hsome
    simp [Except.toOption] at hsome
  | ok st =>
    have := c4_amended overshootSources idReorder validReorder_id 51 st hs
    simp [Except.map, this.1, this.2]

/-- Claim C6 (counterexample): it is false that an entry is emitted in a
tick whenever (post-barrier) every live — in the sense of non-drained —
source has a buffered candidate.  On sources `[10,20]` and `[1]`, during the
third tick source 1 drains at call time but is only removed from the working
list at the end of the tick; the gate sees its empty buffer and the tick
ends without emission, although the single non-drained source has
`bufferCount = 1` and the queue is non-empty. -/
theorem c6_counterexample :
    ¬(∀ (sources : List (List LogEntry)) (rs : ReorderSeq) (n : Nat)
        (st st2 : AState), ValidReorder rs →
        steps rs n (initAsync sources) = .ok st →
        steps rs (n + 1) (initAsync sources) = .ok st2 →
        continueLoop st = true →
        (tickCore (rs st.tickNo) st).pq ≠ [] →
        (∀ i, i < st.srcs.length →
          ((tickCore (rs st.tickNo) st).getSrc i).drained = false →
          0 < ((tickCore (rs st.tickNo) st).getSrc i).bufferCount) →
        st2.printed.length = st.printed.length + 1) := by
  intro hall
  have hA : (steps idReorder 2
      (initAsync [[⟨10, 0⟩, ⟨20, 0⟩], [⟨1, 0⟩]])).map
      (fun st => decide (continueLoop st = true ∧ st.printed.length = 1 ∧
        (tickCore (idReorder st.tickNo) st).pq ≠ [] ∧
        (∀ i, i < st.srcs.length →
          ((tickCore (idReorder st.tickNo) st).getSrc i).drained = false →
          0 < ((tickCore (idReorder st.tickNo) st).getSrc i).bufferCount))) =
      .ok true := by decide
  have hB : (steps idReorder 3
      (initAsync [[⟨10, 0⟩, ⟨20, 0⟩], [⟨1, 0⟩]])).map
      (fun st => decide (st.printed.length = 1)) = .ok true := by decide
  cases hs2 : steps idReorder 2 (initAsync [[⟨10, 0⟩, ⟨20, 0⟩], [⟨1, 0⟩]]) with
  | error e =>
    rw [hs2] at hA
    simp [Except.map] at hA
  | ok st =>
    cases hs3 : steps idReorder 3
        (initAsync [[⟨10, 0⟩, ⟨20, 0⟩], [⟨1, 0⟩]]) with
    | error e =>
      rw [hs3] at hB
      simp [Except.map] at hB
    | ok st2 =>
      rw [hs2] at hA
      rw [hs3] at hB
      simp only [Except.map, Except.ok.injEq, decide_eq_true_eq] at hA hB
      obtain ⟨hcont, hp1, hpqne, hgate⟩ := hA
      have := hall [[⟨10, 0⟩, ⟨20, 0⟩], [⟨1, 0⟩]] idReorder 2 st st2
        validReorder_id hs2 hs3 hcont hpqne hgate
      omega

/-- Claim C6 (amended): in each tick of a continuing run, exactly one entry
is emitted if, after the admission and barrier phases, every source still in
the scheduler's working list has `bufferCount ≥ 1` (the working list is only
purged of sources drained during the current tick at the end of the tick, so
it may momentarily contain a drained source with an empty buffer, blocking
the gate even though every non-drained source is buffered); otherwise the
tick ends without emission. -/
theorem c6_amended (sources : List (List LogEntry)) (rs : ReorderSeq)
    (hrs : ValidReorder rs) (n : Nat) (st : AState)
    (h : steps rs n (initAsync sources) = .ok st)
    (hc : continueLoop st = true) :
    ∃ st2, tick (rs st.tickNo) st = .ok st2 ∧
      st2.printed.length = st.printed.length +
        (if ∀ i ∈ (tickCore (rs st.tickNo) st).live,
            0 < ((tickCore (rs st.tickNo) st).getSrc i).bufferCount
          then 1 else 0) := by
  have hsched := steps_inv sources rs hrs n st h
  obtain ⟨st2, htick, _, hlen⟩ := tick_sched (rs st.tickNo) (hrs st.tickNo)
    st hsched hc
  refine ⟨st2, htick, ?_⟩
  rw [hlen]
  congr 1
  by_cases hread : allSourcesHaveBeenRead (tickCore (rs st.tickNo) st) = true
  · rw [if_pos hread, if_pos ((allRead_iff _).mp hread)]
  · rw [if_neg hread, if_neg (fun hp => hread ((allRead_iff _).mpr hp))]

theorem c6_amended_witness :
    (steps idReorder 2 (initAsync [[⟨10, 0⟩, ⟨20, 0⟩], [⟨1, 0⟩]])).map
      (fun st => (tick (idReorder st.tickNo) st).map
        (fun st2 => st2.printed.length = st.printed.length +
          (if ∀ i ∈ (tickCore (idReorder st.tickNo) st).live,
              0 < ((tickCore (idReorder st.tickNo) st).getSrc i).bufferCount
            then 1 else 0))) =
      .ok (.ok True) := by
  cases hs : steps idReorder 2 (initAsync [[⟨10, 0⟩, ⟨20, 0⟩], [⟨1, 0⟩]]) with
  | error e =>
    exfalso
    have hsome : (steps idReorder 2
        (initAsync [[⟨10, 0⟩, ⟨20, 0⟩],
          [⟨1, 0⟩]])).toOption.isSome = true := by decide
    rw [hs] at hsome
    simp [Except.toOption] at hsome
  | ok st =>
    have hcont : continueLoop st = true := by
      have hA : (steps idReorder 2
          (initAsync [[⟨10, 0⟩, ⟨20, 0⟩], [⟨1, 0⟩]])).map
          (fun st => continueLoop st) = .ok true := by decide
      rw [hs] at hA
      simpa [Except.map] using hA
    obtain ⟨st2, htick, hlen⟩ := c6_amended [[⟨10, 0⟩, ⟨20, 0⟩], [⟨1, 0⟩]]
      idReorder validReorder_id 2 st hs hcont
    simp only [Except.map]
    rw [htick]
    simp [hlen]

/-- Claim C9: for every finite set of finite sources and every completion
order of the fetches, the asynchronous merge terminates — with enough loop
fuel the driver reaches a state where `continueLoop` is false — and the
printer trace is the printed entries followed by exactly one `done` call,
made after the last `print`. -/
theorem c9_termination (sources : List (List LogEntry)) (rs : ReorderSeq)
    (hrs : ValidReorder rs) :
    ∃ (fuel : Nat) (logs : List LogEntry),
      runAsync rs fuel sources =
        .ok (some (logs.map (fun e => PEvent.print (some e)) ++
          [PEvent.done])) ∧
      (logs.map (fun e => PEvent.print (some e)) ++
          [PEvent.done]).count PEvent.done = 1 := by
  obtain ⟨st2, hsteps, hdone⟩ := steps_terminates rs hrs
    (asyncMeasure (initAsync sources) + 1) (initAsync sources)
    (inv_init sources) (by omega)
  have hcf : ¬ (continueLoop st2 = true) := by
    rw [hdone]
    simp
  refine ⟨asyncMeasure (initAsync sources) + 1, st2.printed, ?_, ?_⟩
  · simp only [runAsync, hsteps, if_neg hcf]
  · have h0 : (st2.printed.map
        (fun e => PEvent.print (some e))).count PEvent.done = 0 := by
      rw [List.count_eq_zero]
      intro hmem
      obtain ⟨e, _, he⟩ := List.mem_map.mp hmem
      cases he
    rw [List.count_append, h0]
    rfl

theorem c9_termination_witness :
    ∃ (fuel : Nat) (logs : List LogEntry),
      runAsync idReorder fuel [[⟨1, 0⟩], [⟨2, 0⟩]] =
        .ok (some (logs.map (fun e => PEvent.print (some e)) ++
          [PEvent.done])) ∧
      (logs.map (fun e => PEvent.print (some e)) ++
          [PEvent.done]).count PEvent.done = 1 :=
  c9_termination [[⟨1, 0⟩], [⟨2, 0⟩]] idReorder validReorder_id

/-- Claim C2: the number of entries passed to `printer.print` over a whole
run equals the total number of entries the sources produced before
exhaustion, for both merges: in the async scheduler, whenever the driver
loop has exited, the printed trace holds exactly that many entries, and the
sync merge prints exactly that many real entries (its `false` sentinels are
not entries). -/
theorem c2_conservation (sources : List (List LogEntry)) (rs : ReorderSeq)
    (hrs : ValidReorder rs) (n : Nat) (st : AState)
    (h : steps rs n (initAsync sources) = .ok st)
    (hdone : continueLoop st = false) :
    st.printed.length = (sources.map List.length).sum ∧
      ((syncRun sources).printed.filterMap id).length =
        (sources.map List.length).sum :=
  ⟨terminal_printed sources rs hrs n st h hdone, syncRun_count sources⟩

theorem c2_conservation_witness :
    ∃ st, steps idReorder 12 (initAsync [[⟨1, 0⟩], [⟨2, 0⟩]]) = .ok st ∧
      continueLoop st = false ∧
      st.printed.length =
        (([[⟨1, 0⟩], [⟨2, 0⟩]] : List (List LogEntry)).map List.length).sum ∧
      ((syncRun [[⟨1, 0⟩], [⟨2, 0⟩]]).printed.filterMap id).length =
        (([[⟨1, 0⟩], [⟨2, 0⟩]] : List (List LogEntry)).map
          List.length).sum := by
  cases hs : steps idReorder 12 (initAsync [[⟨1, 0⟩], [⟨2, 0⟩]]) with
  | error e =>
    exfalso
    have hsome : (steps idReorder 12
        (initAsync [[⟨1, 0⟩], [⟨2, 0⟩]])).toOption.isSome = true := by decide
    rw [hs] at hsome
    simp [Except.toOption] at hsome
  | ok st =>
    have hdone : continueLoop st = false := by
      have hA : (steps idReorder 12 (initAsync [[⟨1, 0⟩], [⟨2, 0⟩]])).map
          (fun s => continueLoop s) = .ok false := by decide
      rw [hs] at hA
      simpa [Except.map] using hA
    have hc := c2_conservation [[⟨1, 0⟩], [⟨2, 0⟩]] idReorder
      validReorder_id 12 st hs hdone
    exact ⟨st, rfl, hdone, hc.1, hc.2⟩

/-- Claim C1 (code bug): global sort-correctness fails for the synchronous
merge.  The `false` sentinel the initial fill pushes for an empty source has
key `undefined`, against which the library comparator `aVal < bVal ? -1 : 1`
answers `1` in both directions, so the sentinel bubbles to the heap root and
the next real entry pushed swaps past it without being compared with the
other branch.  On sources `[[2], [], [3]]` — each individually
non-decreasing — the sync merge prints date 3 before date 2 (then the
sentinel), so the entries passed to `printer.print` are not non-decreasing
in timestamp.  The asynchronous merge on the same input prints 2 then 3 and
terminates, as the claim states. -/
theorem c1_sync_order_bug :
    (realSyncRun [[⟨2, 0⟩], [], [⟨3, 0⟩]]).printed =
        [some ⟨3, 0⟩, some ⟨2, 0⟩, none] ∧
      ¬ List.Sorted (· ≤ ·)
        (((realSyncRun [[⟨2, 0⟩], [], [⟨3, 0⟩]]).printed.filterMap id).map
          (fun e => e.date)) ∧
      (steps idReorder 20 (initAsync [[⟨2, 0⟩], [], [⟨3, 0⟩]])).map
        (fun st => (continueLoop st, st.printed.map (fun e => e.date))) =
        .ok (false, [2, 3]) :=
  ⟨by decide, by decide, by decide⟩

/-- Claim C5 (code bug): with one source empty from the start and one
source holding the entry at date 5, the synchronous merge does not print
only the merge of the remaining sources — its initial fill pushes the
`false` returned by the first `pop()` into the priority queue
unconditionally, so `printer.print(false)` is called after the real
entries (the `none` in the printed trace), before `printer.done`.  The
asynchronous merge, whose fetch callback checks the value, prints exactly
the remaining source's entries and stops. -/
theorem c5_empty_source_bug :
    (syncRun [[], [⟨5, 0⟩]]).printed = [some ⟨5, 0⟩, none] ∧
      syncTrace [[], [⟨5, 0⟩]] =
        [PEvent.print (some ⟨5, 0⟩), PEvent.print none, PEvent.done] ∧
      (steps idReorder 8 (initAsync [[], [⟨5, 0⟩]])).map
        (fun st => (continueLoop st, st.printed)) =
          .ok (false, [(⟨5, 0⟩ : LogEntry)]) :=
  ⟨by decide, by decide, by decide⟩
